import Mathlib

/-!
Shallow embedding of `src/utils/shuffle.js` (DinkShuffle round-generation engine).

Modelling conventions:
* `Math.random()` is modelled as an injected deterministic generator
  (`RNG`: a function `Nat → Nat` plus a call counter).  Each call to the
  generator consumes one value.  `Math.floor(Math.random() * n)` becomes
  `value % n`; `Math.random() < 0.5` becomes `value % 2 = 0`.  All theorems
  about the engine quantify over the generator, so nothing depends on a
  particular distribution.
* JS `Map`s become association lists (`alGet`/`alSet`/`alHas`), matching
  `Map` semantics including insertion order on `set`.
* JS arrays become `List`s; in-place mutation becomes explicit state passing.
* JS `Array.prototype.sort` with the source's random tie-break comparator has
  implementation-defined order; it is modelled as an insertion sort whose
  comparator consumes the generator on cost ties, which realises one
  ascending-by-cost order per generator, as the source does.
-/

namespace DinkShuffle

/-- Injected deterministic random generator: the value stream `g` and the
index `k` of the next call. -/
structure RNG where
  g : Nat → Nat
  k : Nat

/-- Draw the next raw value from the generator. -/
def RNG.next (r : RNG) : Nat × RNG :=
  (r.g r.k, { r with k := r.k + 1 })

/-- `Math.floor(Math.random() * n)`: a value in `[0, n)` (0 when `n = 0`). -/
def randIndex (r : RNG) (n : Nat) : Nat × RNG :=
  let (v, r') := r.next
  (v % n, r')

/-- `Math.random() < 0.5` as a coin flip. -/
def randBool (r : RNG) : Bool × RNG :=
  let (v, r') := r.next
  (v % 2 = 0, r')

/-- Swap two positions of a list (reads both, then writes both, as the JS
destructuring assignment does); out-of-range indices leave the list
unchanged (never reached by the source). -/
def listSwap {α : Type} (l : List α) (i j : Nat) : List α :=
  match l.get? i, l.get? j with
  | some a, some b => (l.set i b).set j a
  | _, _ => l

/-- Loop body of `fisherYatesShuffle`: `i` counts down from `length - 1`
to `1`; at index `i+1` the partner `j` is drawn from `[0, i+2)`. -/
def fyAux {α : Type} : Nat → List α → RNG → List α × RNG
  | 0, arr, r => (arr, r)
  | i + 1, arr, r =>
    let (j, r') := randIndex r (i + 2)
    fyAux i (listSwap arr (i + 1) j) r'

/-- `fisherYatesShuffle` from the source: copies the array and swaps from the
top index down. -/
def fisherYatesShuffle {α : Type} (array : List α) (r : RNG) : List α × RNG :=
  fyAux (array.length - 1) array r

/-- `Player` record (`gender` is a free string compared against
`'male'`/`'female'`, as in the source). -/
structure Player where
  id : String
  name : String
  gender : String
deriving DecidableEq, Inhabited

/-- `Score` record. -/
structure Score where
  team1 : Option Nat
  team2 : Option Nat
  lastUpdatedBy : Option String
  lastUpdatedAt : Option Nat
deriving DecidableEq, Inhabited

/-- `createInitialScore` from the source. -/
def createInitialScore : Score :=
  { team1 := none, team2 := none, lastUpdatedBy := none, lastUpdatedAt := none }

/-- `Court` record; `team1`/`team2` are set only for doubles
(`null` in JS becomes `none`). -/
structure Court where
  id : String
  courtNumber : Nat
  players : List Player
  team1 : Option (List Player)
  team2 : Option (List Player)
  status : String
  score : Score
deriving DecidableEq, Inhabited

/-- `Round` record. -/
structure Round where
  id : String
  roundNumber : Nat
  courts : List Court
  sitOuts : List Player
deriving DecidableEq, Inhabited

/-- Lookup in an association list, the model of JS `Map.get` (keys compared
with `===`; `none` is JS `undefined`). -/
def alGet {κ ν : Type} [DecidableEq κ] (m : List (κ × ν)) (k : κ) : Option ν :=
  (m.find? (fun e => e.1 = k)).map (fun e => e.2)

/-- Update in an association list, the model of JS `Map.set`: an existing key
keeps its position, a new key is appended (JS `Map` insertion order). -/
def alSet {κ ν : Type} [DecidableEq κ] : List (κ × ν) → κ → ν → List (κ × ν)
  | [], k, v => [(k, v)]
  | e :: es, k, v => if e.1 = k then (k, v) :: es else e :: alSet es k v

/-- JS `Map.has`. -/
def alHas {κ ν : Type} [DecidableEq κ] (m : List (κ × ν)) (k : κ) : Bool :=
  (alGet m k).isSome

/-- `Map<string, number>` (the sit-out counters). -/
abbrev CountMap := List (String × Nat)

/-- `Map<string, Map<string, number>>` (partner / opponent counters). -/
abbrev PairCountMap := List (String × List (String × Nat))

/-- `Map<string, Map<number, number>>` (per-player court occupancy). -/
abbrev CourtCountMap := List (String × List (Nat × Nat))

/-- Fairness tracking state (`createFairnessState`): the four counter maps. -/
structure Fair where
  sitOutCounts : CountMap
  partnerCounts : PairCountMap
  opponentCounts : PairCountMap
  courtCounts : CourtCountMap
deriving DecidableEq

/-- `createFairnessState`: a 0 sit-out count and empty inner maps for every
pool member, in pool order. -/
def createFairnessState (players : List Player) : Fair :=
  { sitOutCounts := players.foldl (fun m p => alSet m p.id 0) []
    partnerCounts := players.foldl (fun m p => alSet m p.id []) []
    opponentCounts := players.foldl (fun m p => alSet m p.id []) []
    courtCounts := players.foldl (fun m p => alSet m p.id []) [] }

/-- `getCount`: `countMap.get(id1)?.get(id2) || 0`. -/
def getCount (countMap : PairCountMap) (id1 id2 : String) : Nat :=
  ((alGet countMap id1).bind (fun inner => alGet inner id2)).getD 0

/-- `incrementCount`: ensure both outer entries exist, then write `(id1,id2)`
and `(id2,id1)`, each to its current value plus one (the second read
observes the first write, exactly as the source's map mutations do). -/
def incrementCount (countMap : PairCountMap) (id1 id2 : String) : PairCountMap :=
  let m0 := if alHas countMap id1 then countMap else alSet countMap id1 []
  let m1 := if alHas m0 id2 then m0 else alSet m0 id2 []
  let inner1 := (alGet m1 id1).getD []
  let m2 := alSet m1 id1 (alSet inner1 id2 ((alGet inner1 id2).getD 0 + 1))
  let inner2 := (alGet m2 id2).getD []
  alSet m2 id2 (alSet inner2 id1 ((alGet inner2 id1).getD 0 + 1))

/-- `buildCourtObject` from the source. -/
def buildCourtObject (roundIdx courtIdx : Nat) (players : List Player)
    (team1 team2 : Option (List Player)) : Court :=
  { id := "r" ++ toString roundIdx ++ "c" ++ toString courtIdx
    courtNumber := courtIdx + 1
    players := players
    team1 := team1
    team2 := team2
    status := "pending"
    score := createInitialScore }

/-- Insertion step of the cost-ascending sort with random tie-break: a cost
tie between two elements is decided by a fresh coin flip, as the source's
`(a, b) => a.cost !== b.cost ? a.cost - b.cost : Math.random() - 0.5`
comparator does on every comparison. -/
def insertRand {α : Type} (key : α → Nat) (x : α) : List α → RNG → List α × RNG
  | [], r => ([x], r)
  | y :: ys, r =>
    if key x < key y then (x :: y :: ys, r)
    else if key x = key y then
      let (flip, r') := randBool r
      if flip then (x :: y :: ys, r')
      else
        let (zs, r'') := insertRand key x ys r'
        (y :: zs, r'')
    else
      let (zs, r') := insertRand key x ys r
      (y :: zs, r')

/-- Cost-ascending sort with random tie-break (models the source's
`allPairs.sort(...)` calls; JS sort order is implementation-defined under the
randomized comparator, realised here as an insertion sort). -/
def sortRand {α : Type} (key : α → Nat) : List α → RNG → List α × RNG
  | [], r => ([], r)
  | x :: xs, r =>
    let (rest, r') := sortRand key xs r
    insertRand key x rest r'

-- ─── Fair Court Rotation (`assignCourtNumbers`) ───────────────────────

/-- `costForCourt` closure inside `assignCourtNumbers`
(`courtCounts.get(p.id)?.get(courtNumber) || 0` summed over the group). -/
def costForCourt {γ : Type} (courtCounts : CourtCountMap)
    (getPlayers : γ → List Player) (group : γ) (courtNumber : Nat) : Nat :=
  (getPlayers group).foldl
    (fun cost p =>
      cost + ((alGet courtCounts p.id).bind (fun inner => alGet inner courtNumber)).getD 0) 0

/-- Cost of one complete index assignment (the leaf evaluation inside
`enumerate`): group `indices[i]` is priced at court number `i + 1`;
`pos` carries the position offset. -/
def leafCost {γ : Type} [Inhabited γ] (groups : List γ)
    (courtCounts : CourtCountMap) (getPlayers : γ → List Player) :
    List Nat → Nat → Nat
  | [], _ => 0
  | idx :: rest, pos =>
    costForCourt courtCounts getPlayers (groups.getD idx default) (pos + 1) +
      leafCost groups courtCounts getPlayers rest (pos + 1)

/-- State of the exhaustive search: best `(cost, order)` found so far
(`none` plays the role of the initial `Infinity`), plus the generator. -/
abbrev EnumSt := Option (Nat × List Nat) × RNG

/-- Leaf update of `enumerate`: replace the best order when the new cost is
strictly lower, or on a tie when the coin flip succeeds
(`cost < bestCost || (cost === bestCost && Math.random() < 0.5)`). -/
def enumLeaf (cost : List Nat → Nat) (leaf : List Nat) (st : EnumSt) : EnumSt :=
  let c := cost leaf
  match st with
  | (none, r) => (some (c, leaf), r)
  | (some (bc, bo), r) =>
    if c < bc then (some (c, leaf), r)
    else if c = bc then
      let (flip, r') := randBool r
      if flip then (some (c, leaf), r') else (some (bc, bo), r')
    else (some (bc, bo), r)

/-- All ways to pick one element out of a list: triples
`(prefix, picked, suffix)` in left-to-right pick order — the
`remaining.slice(0, i)` / `remaining[i]` / `remaining.slice(i + 1)`
decomposition used by the recursive loops of the source. -/
def pickSplits {α : Type} : List α → List (List α × α × List α)
  | [] => []
  | x :: xs => ([], x, xs) :: (pickSplits xs).map (fun t => (x :: t.1, t.2.1, t.2.2))

/-- The recursive `enumerate(indices, remaining)` of `assignCourtNumbers`:
at a leaf evaluate the assignment, otherwise pick each remaining index in
turn and recurse.  `fuel` is the recursion depth, always called with
`fuel = remaining.length` so the `fuel = 0` arm with a non-empty remainder
is unreachable (it makes the recursion structural so the kernel can reduce
it). -/
def enumAux (cost : List Nat → Nat) : Nat → List Nat → List Nat → EnumSt → EnumSt
  | _, acc, [], st => enumLeaf cost acc st
  | 0, _, _ :: _, st => st
  | fuel + 1, acc, x :: rest, st =>
    (pickSplits (x :: rest)).foldl
      (fun s t => enumAux cost fuel (acc ++ [t.2.1]) (t.1 ++ t.2.2) s) st

/-- Pure mirror of `enumAux`: the list of leaves (complete index orders) in
the exact order the search visits them. -/
def permsAux : Nat → List Nat → List Nat → List (List Nat)
  | _, acc, [] => [acc]
  | 0, _, _ :: _ => []
  | fuel + 1, acc, x :: rest =>
    (pickSplits (x :: rest)).flatMap
      (fun t => permsAux fuel (acc ++ [t.2.1]) (t.1 ++ t.2.2))

/-- Scan of the greedy fallback (`for (const idx of available)`): find the
available group of lowest cost for the current court number, equal costs
re-decided by coin flip. -/
def greedyScan (cost : Nat → Nat) :
    List Nat → Option (Nat × Nat) → RNG → Option (Nat × Nat) × RNG
  | [], best, r => (best, r)
  | idx :: rest, best, r =>
    let c := cost idx
    match best with
    | none => greedyScan cost rest (some (c, idx)) r
    | some (bc, bi) =>
      if c < bc then greedyScan cost rest (some (c, idx)) r
      else if c = bc then
        let (flip, r') := randBool r
        if flip then greedyScan cost rest (some (c, idx)) r'
        else greedyScan cost rest (some (bc, bi)) r'
      else greedyScan cost rest (some (bc, bi)) r

/-- Greedy fallback of `assignCourtNumbers` for more than 8 groups: for court
numbers `courtNum, courtNum+1, ...` pick the cheapest remaining group.
`fuel` counts the courts still to fill (`n` at the top call); the `none`
branch is unreachable because `available` is never empty in the loop. -/
def greedyAssign {γ : Type} [Inhabited γ] (groups : List γ)
    (courtCounts : CourtCountMap) (getPlayers : γ → List Player) :
    Nat → Nat → List Nat → RNG → List γ × RNG
  | _, 0, _, r => ([], r)
  | courtNum, fuel + 1, available, r =>
    let (best, r') := greedyScan
      (fun idx => costForCourt courtCounts getPlayers (groups.getD idx default) courtNum)
      available none r
    match best with
    | none => ([], r')
    | some (_, bi) =>
      let (rest, r'') :=
        greedyAssign groups courtCounts getPlayers (courtNum + 1) fuel (available.erase bi) r'
      (groups.getD bi default :: rest, r'')

/-- `assignCourtNumbers` from the source: exhaustive permutation search for
at most 8 groups, greedy fallback above that.  The `none` fallback after the
search is unreachable (at least one permutation is always evaluated). -/
def assignCourtNumbers {γ : Type} [Inhabited γ] (courtGroups : List γ)
    (courtCounts : CourtCountMap) (getPlayers : γ → List Player)
    (r : RNG) : List γ × RNG :=
  let n := courtGroups.length
  if n ≤ 1 then (courtGroups, r)
  else if n ≤ 8 then
    let res := enumAux (fun idxs => leafCost courtGroups courtCounts getPlayers idxs 0)
      n [] (List.range n) (none, r)
    match res with
    | (some (_, bestOrder), r') =>
      (bestOrder.map (fun i => courtGroups.getD i default), r')
    | (none, r') => (courtGroups, r')
  else greedyAssign courtGroups courtCounts getPlayers 1 n (List.range n) r

/-- `updateCourtCounts` from the source: bump each player's occupancy at the
assigned court number — only when the player has a map entry
(`if (playerMap)`), which every pool member does. -/
def updateCourtCounts (players : List Player) (courtNumber : Nat)
    (courtCounts : CourtCountMap) : CourtCountMap :=
  players.foldl
    (fun m p =>
      match alGet m p.id with
      | some playerMap =>
        alSet m p.id (alSet playerMap courtNumber ((alGet playerMap courtNumber).getD 0 + 1))
      | none => m)
    courtCounts

-- ─── Fair Sit-Out Selection ──────────────────────────────────────────

/-- Descending insertion of `sortDescNat`. -/
def insertDesc (x : Nat) : List Nat → List Nat
  | [] => [x]
  | y :: ys => if y < x then x :: y :: ys else y :: insertDesc x ys

/-- `[...groups.keys()].sort((a, b) => b - a)`: the distinct sit-out counts
in descending order (on distinct keys any correct descending sort computes
the same list as the JS numeric sort). -/
def sortDescNat : List Nat → List Nat
  | [] => []
  | x :: xs => insertDesc x (sortDescNat xs)

/-- Shuffle each sit-out-count group in priority order and concatenate
(the group for count `c` holds the pool members with that count, in pool
order, exactly as the `groups` map is filled). -/
def shuffleGroups (players : List Player) (sitOutCounts : CountMap) :
    List Nat → RNG → List Player × RNG
  | [], r => ([], r)
  | c :: cs, r =>
    let (g, r') := fisherYatesShuffle
      (players.filter (fun p => (alGet sitOutCounts p.id).getD 0 = c)) r
    let (rest, r'') := shuffleGroups players sitOutCounts cs r'
    (g ++ rest, r'')

/-- `selectActivePlayers` from the source.  Returns
`((active, sitOuts), updated sit-out counters, generator)`. -/
def selectActivePlayers (players : List Player) (needed : Nat)
    (sitOutCounts : CountMap) (r : RNG) :
    (List Player × List Player) × CountMap × RNG :=
  if players.length ≤ needed then ((players, []), sitOutCounts, r)
  else
    let sortedCounts := sortDescNat ((players.map (fun p => (alGet sitOutCounts p.id).getD 0)).dedup)
    let (ordered, r') := shuffleGroups players sitOutCounts sortedCounts r
    let active := ordered.take needed
    let activeIds := active.map Player.id
    let sitOuts := players.filter (fun p => ¬ p.id ∈ activeIds)
    let newCounts := sitOuts.foldl
      (fun m p => alSet m p.id ((alGet m p.id).getD 0 + 1)) sitOutCounts
    ((active, sitOuts), newCounts, r')

-- ─── Singles Assignment ──────────────────────────────────────────────

/-- The `allPairs` double loop (`i < j` over the active players), with the
pair cost attached (used with opponent costs for singles and partner costs
for doubles Stage A). -/
def pairsWithCost (cost : Player → Player → Nat) : List Player → List ((Player × Player) × Nat)
  | [] => []
  | x :: xs => xs.map (fun y => ((x, y), cost x y)) ++ pairsWithCost cost xs

/-- Greedy claim loop shared by singles courts and doubles Stage A: walk the
sorted pair list, stop once `limit` groups are formed, skip pairs with a
used player, otherwise claim the pair and mark both players used. -/
def claimPairs (limit : Nat) : List ((Player × Player) × Nat) → List String →
    List (Player × Player) → List (Player × Player)
  | [], _, acc => acc
  | pr :: rest, used, acc =>
    if limit ≤ acc.length then acc
    else if pr.1.1.id ∈ used ∨ pr.1.2.id ∈ used then claimPairs limit rest used acc
    else claimPairs limit rest (pr.1.1.id :: pr.1.2.id :: used) (acc ++ [pr.1])

/-- The `(i, j)` index pairs `0 ≤ i < j < n` in the order the nested
`for` loops of the swap-improvement sweeps visit them. -/
def pairIdxList (n : Nat) : List (Nat × Nat) :=
  (List.range n).flatMap (fun i => ((List.range n).filter (fun j => i < j)).map (fun j => (i, j)))

/-- Body of the singles swap sweep at one court pair `(i, j)`: compare the
current pairing cost with the two recombinations and adopt a strictly
cheaper one; returns the updated courts and whether a swap happened. -/
def singlesPairStep (opponentCounts : PairCountMap)
    (courts : List (Player × Player)) (ij : Nat × Nat) :
    List (Player × Player) × Bool :=
  let (i, j) := ij
  let (a, b) := courts.getD i default
  let (c, d) := courts.getD j default
  let currentCost := getCount opponentCounts a.id b.id + getCount opponentCounts c.id d.id
  let swap1Cost := getCount opponentCounts a.id c.id + getCount opponentCounts b.id d.id
  let swap2Cost := getCount opponentCounts a.id d.id + getCount opponentCounts b.id c.id
  if swap1Cost < currentCost ∧ swap1Cost ≤ swap2Cost then
    ((courts.set i (a, c)).set j (b, d), true)
  else if swap2Cost < currentCost then
    ((courts.set i (a, d)).set j (b, c), true)
  else (courts, false)

/-- One full sweep of `improveSinglesSwap` over all court pairs. -/
def singlesSweep (opponentCounts : PairCountMap)
    (courts : List (Player × Player)) : List (Player × Player) × Bool :=
  (pairIdxList courts.length).foldl
    (fun st ij =>
      let (cs', imp') := singlesPairStep opponentCounts st.1 ij
      (cs', st.2 || imp'))
    (courts, false)

/-- The `while (improved && iterations < 50)` loop of `improveSinglesSwap`. -/
def improveLoopS (opponentCounts : PairCountMap) :
    Nat → List (Player × Player) → List (Player × Player)
  | 0, cs => cs
  | fuel + 1, cs =>
    let (cs', imp) := singlesSweep opponentCounts cs
    if imp then improveLoopS opponentCounts fuel cs' else cs'

/-- `improveSinglesSwap` from the source (bounded to 50 sweeps). -/
def improveSinglesSwap (courts : List (Player × Player))
    (opponentCounts : PairCountMap) : List (Player × Player) :=
  improveLoopS opponentCounts 50 courts

/-- `assignSinglesCourts` from the source. -/
def assignSinglesCourts (activePlayers : List Player) (numCourts : Nat)
    (opponentCounts : PairCountMap) (r : RNG) :
    List (Player × Player) × RNG :=
  let actualCourts := min numCourts (activePlayers.length / 2)
  if actualCourts = 0 then ([], r)
  else
    let allPairs := pairsWithCost (fun p q => getCount opponentCounts p.id q.id) activePlayers
    let (sorted, r') := sortRand (fun pr => pr.2) allPairs r
    let courts := claimPairs actualCourts sorted [] []
    (improveSinglesSwap courts opponentCounts, r')

-- ─── Doubles Assignment ──────────────────────────────────────────────

/-- `courtOpponentCost`: the four cross-team opponent counts, in the
source's nested-loop order. -/
def courtOpponentCost (team1 team2 : Player × Player)
    (opponentCounts : PairCountMap) : Nat :=
  getCount opponentCounts team1.1.id team2.1.id +
    getCount opponentCounts team1.1.id team2.2.id +
    getCount opponentCounts team1.2.id team2.1.id +
    getCount opponentCounts team1.2.id team2.2.id

/-- `fullCourtCost` from the source. -/
def fullCourtCost (team1 team2 : Player × Player)
    (partnerCounts opponentCounts : PairCountMap) : Nat :=
  getCount partnerCounts team1.1.id team1.2.id +
    getCount partnerCounts team2.1.id team2.2.id +
    courtOpponentCost team1 team2 opponentCounts

/-- A doubles court assignment `{team1, team2}` (also the shape
`bestTeamSplit` returns). -/
structure DCourt where
  team1 : Player × Player
  team2 : Player × Player
deriving DecidableEq, Inhabited

/-- The four players of a doubles court, team 1 first. -/
def dcourtPlayers (c : DCourt) : List Player :=
  [c.team1.1, c.team1.2, c.team2.1, c.team2.2]

/-- Partner cost of a 2+2 split. -/
def splitCost (partnerCounts : PairCountMap) (s : DCourt) : Nat :=
  getCount partnerCounts s.team1.1.id s.team1.2.id +
    getCount partnerCounts s.team2.1.id s.team2.2.id

/-- The three candidate 2+2 splits of `bestTeamSplit` (empty when not given
exactly four players, which the source never does). -/
def bestTeamSplitList (fourPlayers : List Player) : List DCourt :=
  match fourPlayers with
  | [a, b, c, d] => [⟨(a, b), (c, d)⟩, ⟨(a, c), (b, d)⟩, ⟨(a, d), (b, c)⟩]
  | _ => []

/-- Selection loop of `bestTeamSplit` (`best = splits[0]`,
`bestCost = Infinity`, keep strict improvements). -/
def bestSplitFold (partnerCounts : PairCountMap) :
    List DCourt → DCourt → Option Nat → DCourt
  | [], best, _ => best
  | s :: rest, best, bc =>
    let c := splitCost partnerCounts s
    match bc with
    | none => bestSplitFold partnerCounts rest s (some c)
    | some b =>
      if c < b then bestSplitFold partnerCounts rest s (some c)
      else bestSplitFold partnerCounts rest best (some b)

/-- `bestTeamSplit` from the source. -/
def bestTeamSplit (fourPlayers : List Player)
    (partnerCounts : PairCountMap) : DCourt :=
  match bestTeamSplitList fourPlayers with
  | [] => default
  | s0 :: rest => bestSplitFold partnerCounts (s0 :: rest) s0 none

/-- Fueled loop of `popcount` (`fuel = n` suffices: the value at least
halves each iteration, so the loop runs at most `log₂ n + 1 ≤ n` times for
`n ≥ 1`). -/
def popcountAux : Nat → Nat → Nat
  | 0, _ => 0
  | fuel + 1, n => if n = 0 then 0 else n % 2 + popcountAux fuel (n / 2)

/-- `popcount` from the source (`count += n & 1; n >>= 1` until zero). -/
def popcount (n : Nat) : Nat :=
  popcountAux n n

/-- Split a list by the bits of `mask` starting at bit `bit`: items whose
bit is set go to the first group, the rest to the second, preserving order
(the `for (let bit = 0; ...)` extraction loop). -/
def maskSplit {α : Type} (mask : Nat) : List α → Nat → List α × List α
  | [], _ => ([], [])
  | x :: xs, bit =>
    let (g1, g2) := maskSplit mask xs (bit + 1)
    if mask.testBit bit then (x :: g1, g2) else (g1, x :: g2)

/-- `allSplitsOf8Into4And4` from the source: all masks below `2^8` with
four set bits and bit 0 set, mapped to the corresponding group split. -/
def allSplitsOf8Into4And4 {α : Type} (items : List α) : List (List α × List α) :=
  if items.length ≠ 8 then []
  else
    ((List.range (1 <<< items.length)).filter
        (fun mask => popcount mask = 4 ∧ mask.testBit 0)).map
      (fun mask => maskSplit mask items 0)

/-- The candidate evaluation of `improveDoublesSwap` for one pair of courts:
try every 4+4 re-split of the eight players (each side re-split 2+2 by
`bestTeamSplit`) and return the best strictly-improving configuration, or
`none` if no candidate beats the current cost. -/
def doublesPairImprove (partnerCounts opponentCounts : PairCountMap)
    (ci cj : DCourt) : Option (DCourt × DCourt) :=
  let allEight := dcourtPlayers ci ++ dcourtPlayers cj
  let currentCost := fullCourtCost ci.team1 ci.team2 partnerCounts opponentCounts +
    fullCourtCost cj.team1 cj.team2 partnerCounts opponentCounts
  ((allSplitsOf8Into4And4 allEight).foldl
      (fun st gg =>
        let split1 := bestTeamSplit gg.1 partnerCounts
        let split2 := bestTeamSplit gg.2 partnerCounts
        let cost := fullCourtCost split1.team1 split1.team2 partnerCounts opponentCounts +
          fullCourtCost split2.team1 split2.team2 partnerCounts opponentCounts
        if cost < st.1 then (cost, some (split1, split2)) else st)
      (currentCost, none)).2

/-- Body of the doubles swap sweep at one court pair `(i, j)`. -/
def doublesPairStep (partnerCounts opponentCounts : PairCountMap)
    (courts : List DCourt) (ij : Nat × Nat) : List DCourt × Bool :=
  let (i, j) := ij
  let ci := courts.getD i default
  let cj := courts.getD j default
  match doublesPairImprove partnerCounts opponentCounts ci cj with
  | some (c1, c2) => ((courts.set i c1).set j c2, true)
  | none => (courts, false)

/-- One full sweep of `improveDoublesSwap`. -/
def doublesSweep (partnerCounts opponentCounts : PairCountMap)
    (courts : List DCourt) : List DCourt × Bool :=
  (pairIdxList courts.length).foldl
    (fun st ij =>
      let (cs', imp') := doublesPairStep partnerCounts opponentCounts st.1 ij
      (cs', st.2 || imp'))
    (courts, false)

/-- The bounded improvement loop of `improveDoublesSwap`. -/
def improveLoopD (partnerCounts opponentCounts : PairCountMap) :
    Nat → List DCourt → List DCourt
  | 0, cs => cs
  | fuel + 1, cs =>
    let (cs', imp) := doublesSweep partnerCounts opponentCounts cs
    if imp then improveLoopD partnerCounts opponentCounts fuel cs' else cs'

/-- `improveDoublesSwap` from the source (bounded to 50 sweeps). -/
def improveDoublesSwap (courts : List DCourt)
    (partnerCounts opponentCounts : PairCountMap) : List DCourt :=
  improveLoopD partnerCounts opponentCounts 50 courts

/-- Stage B candidates: every team index pair `i < j` with its opponent
cost. -/
def idxPairsWithCost (cost : Nat → Nat → Nat) (n : Nat) : List ((Nat × Nat) × Nat) :=
  (List.range n).flatMap (fun i => ((List.range n).filter (fun j => i < j)).map (fun j => ((i, j), cost i j)))

/-- Stage B greedy claim loop (over team indices, `usedTeams` set). -/
def claimTeamPairs (limit : Nat) : List ((Nat × Nat) × Nat) → List Nat →
    List (Nat × Nat) → List (Nat × Nat)
  | [], _, acc => acc
  | tp :: rest, usedT, acc =>
    if limit ≤ acc.length then acc
    else if tp.1.1 ∈ usedT ∨ tp.1.2 ∈ usedT then claimTeamPairs limit rest usedT acc
    else claimTeamPairs limit rest (tp.1.1 :: tp.1.2 :: usedT) (acc ++ [tp.1])

/-- Stage B of the doubles and mixed-doubles matchers (identical code in the
source's two functions): pair the formed teams into courts, cheapest
opponent cost first. -/
def pairTeamsIntoCourts (teams : List (Player × Player)) (actualCourts : Nat)
    (opponentCounts : PairCountMap) (r : RNG) : List DCourt × RNG :=
  let teamPairs := idxPairsWithCost
    (fun i j => courtOpponentCost (teams.getD i default) (teams.getD j default) opponentCounts)
    teams.length
  let (sortedTP, r') := sortRand (fun tp => tp.2) teamPairs r
  let chosen := claimTeamPairs actualCourts sortedTP [] []
  (chosen.map (fun ij => DCourt.mk (teams.getD ij.1 default) (teams.getD ij.2 default)), r')

/-- `assignDoublesCourts` from the source. -/
def assignDoublesCourts (activePlayers : List Player) (numCourts : Nat)
    (partnerCounts opponentCounts : PairCountMap) (r : RNG) :
    List DCourt × RNG :=
  let actualCourts := min numCourts (activePlayers.length / 4)
  if actualCourts = 0 then ([], r)
  else
    let allPairs := pairsWithCost (fun p q => getCount partnerCounts p.id q.id) activePlayers
    let (sortedPairs, r1) := sortRand (fun pr => pr.2) allPairs r
    let teams := claimPairs (actualCourts * 2) sortedPairs [] []
    let (courts, r2) := pairTeamsIntoCourts teams actualCourts opponentCounts r1
    (improveDoublesSwap courts partnerCounts opponentCounts, r2)

-- ─── Mixed Doubles Assignment ────────────────────────────────────────

/-- Fueled body of `permutations` (`fuel = arr.length`; the `fuel = 0` arm
with two or more elements is unreachable and only makes the recursion
structural). -/
def permutationsAux {α : Type} : Nat → List α → List (List α)
  | _, [] => [[]]
  | _, [x] => [[x]]
  | 0, _ => []
  | fuel + 1, arr =>
    (pickSplits arr).flatMap
      (fun t => (permutationsAux fuel (t.1 ++ t.2.2)).map (fun p => t.2.1 :: p))

/-- `permutations` from the source (recursive, small arrays only): for each
position `i`, prepend `arr[i]` to every permutation of the rest. -/
def permutations {α : Type} (arr : List α) : List (List α) :=
  permutationsAux arr.length arr

/-- Stage A candidates for mixed doubles: every male × female pair with its
partner cost (male-major order, as the nested source loops produce). -/
def mixedPairsWithCost (partnerCounts : PairCountMap)
    (activeMales activeFemales : List Player) : List ((Player × Player) × Nat) :=
  activeMales.flatMap (fun m =>
    activeFemales.map (fun f => ((m, f), getCount partnerCounts m.id f.id)))

/-- Mixed Stage A greedy claim loop (separate used sets per gender). -/
def claimMixedPairs (limit : Nat) : List ((Player × Player) × Nat) →
    List String → List String → List (Player × Player) → List (Player × Player)
  | [], _, _, acc => acc
  | pr :: rest, usedM, usedF, acc =>
    if limit ≤ acc.length then acc
    else if pr.1.1.id ∈ usedM ∨ pr.1.2.id ∈ usedF then
      claimMixedPairs limit rest usedM usedF acc
    else claimMixedPairs limit rest (pr.1.1.id :: usedM) (pr.1.2.id :: usedF) (acc ++ [pr.1])

/-- The three ways to pair four teams into two courts
(`courtPairings` in the source). -/
def courtPairings : List (Nat × Nat × Nat × Nat) :=
  [(0, 1, 2, 3), (0, 2, 1, 3), (0, 3, 1, 2)]

/-- Candidate evaluation of `improveMixedDoublesSwap` for one pair of
courts: all 24 female-to-male assignments combined with the 3 court
pairings; returns the best strictly-improving configuration or `none`. -/
def mixedPairImprove (partnerCounts opponentCounts : PairCountMap)
    (ci cj : DCourt) : Option (DCourt × DCourt) :=
  let currentCost := fullCourtCost ci.team1 ci.team2 partnerCounts opponentCounts +
    fullCourtCost cj.team1 cj.team2 partnerCounts opponentCounts
  let allPlayers := dcourtPlayers ci ++ dcourtPlayers cj
  let males := allPlayers.filter (fun p => p.gender = "male")
  let females := allPlayers.filter (fun p => p.gender = "female")
  (((permutations females).flatMap (fun femPerm =>
      let newTeams := males.zip femPerm
      courtPairings.map (fun q =>
        let ta := newTeams.getD q.1 default
        let tb := newTeams.getD q.2.1 default
        let tc := newTeams.getD q.2.2.1 default
        let td := newTeams.getD q.2.2.2 default
        (fullCourtCost ta tb partnerCounts opponentCounts +
            fullCourtCost tc td partnerCounts opponentCounts,
          DCourt.mk ta tb, DCourt.mk tc td)))).foldl
    (fun st cand =>
      if cand.1 < st.1 then (cand.1, some (cand.2.1, cand.2.2)) else st)
    (currentCost, none)).2

/-- Body of the mixed swap sweep at one court pair `(i, j)`. -/
def mixedPairStep (partnerCounts opponentCounts : PairCountMap)
    (courts : List DCourt) (ij : Nat × Nat) : List DCourt × Bool :=
  let (i, j) := ij
  let ci := courts.getD i default
  let cj := courts.getD j default
  match mixedPairImprove partnerCounts opponentCounts ci cj with
  | some (c1, c2) => ((courts.set i c1).set j c2, true)
  | none => (courts, false)

/-- One full sweep of `improveMixedDoublesSwap`. -/
def mixedSweep (partnerCounts opponentCounts : PairCountMap)
    (courts : List DCourt) : List DCourt × Bool :=
  (pairIdxList courts.length).foldl
    (fun st ij =>
      let (cs', imp') := mixedPairStep partnerCounts opponentCounts st.1 ij
      (cs', st.2 || imp'))
    (courts, false)

/-- The bounded improvement loop of `improveMixedDoublesSwap`. -/
def improveLoopM (partnerCounts opponentCounts : PairCountMap) :
    Nat → List DCourt → List DCourt
  | 0, cs => cs
  | fuel + 1, cs =>
    let (cs', imp) := mixedSweep partnerCounts opponentCounts cs
    if imp then improveLoopM partnerCounts opponentCounts fuel cs' else cs'

/-- `improveMixedDoublesSwap` from the source (bounded to 50 sweeps). -/
def improveMixedDoublesSwap (courts : List DCourt)
    (partnerCounts opponentCounts : PairCountMap) : List DCourt :=
  improveLoopM partnerCounts opponentCounts 50 courts

/-- Stages A and B of `assignMixedDoublesCourts` (the courts before the
swap-improvement stage). -/
def mixedGreedyCourts (activeMales activeFemales : List Player)
    (actualCourts : Nat) (partnerCounts opponentCounts : PairCountMap)
    (r : RNG) : List DCourt × RNG :=
  let allPairs := mixedPairsWithCost partnerCounts activeMales activeFemales
  let (sortedPairs, r1) := sortRand (fun pr => pr.2) allPairs r
  let teams := claimMixedPairs (actualCourts * 2) sortedPairs [] [] []
  pairTeamsIntoCourts teams actualCourts opponentCounts r1

/-- `assignMixedDoublesCourts` from the source. -/
def assignMixedDoublesCourts (activeMales activeFemales : List Player)
    (numCourts : Nat) (partnerCounts opponentCounts : PairCountMap)
    (r : RNG) : List DCourt × RNG :=
  let actualCourts := min numCourts (min (activeMales.length / 2) (activeFemales.length / 2))
  if actualCourts = 0 then ([], r)
  else
    let (courts, r') := mixedGreedyCourts activeMales activeFemales actualCourts
      partnerCounts opponentCounts r
    (improveMixedDoublesSwap courts partnerCounts opponentCounts, r')

-- ─── Round Generation ────────────────────────────────────────────────

/-- Per-court body of the `orderedPairs.map((pair, idx) => ...)` callback in
`generateSinglesRounds`: opponent increment, court-occupancy update, and the
built `Court`. -/
def singlesCourtFold (r : Nat) (st : List Court × PairCountMap × CourtCountMap)
    (ia : Nat × (Player × Player)) : List Court × PairCountMap × CourtCountMap :=
  let (idx, pair) := ia
  let oc2 := incrementCount st.2.1 pair.1.id pair.2.id
  let cc2 := updateCourtCounts [pair.1, pair.2] (idx + 1) st.2.2
  (st.1 ++ [buildCourtObject r idx [pair.1, pair.2] none none], oc2, cc2)

/-- The body of `generateSinglesRounds`' per-round loop (round index `r`). -/
def singlesStep (players : List Player) (numCourts : Nat) (r : Nat)
    (f : Fair) (rng : RNG) : Round × Fair × RNG :=
  let sel := selectActivePlayers players (numCourts * 2) f.sitOutCounts rng
  let active := sel.1.1
  let sitOuts := sel.1.2
  let soc' := sel.2.1
  let (courtPairs, rng2) := assignSinglesCourts active numCourts f.opponentCounts sel.2.2
  let (orderedPairs, rng3) := assignCourtNumbers courtPairs f.courtCounts
    (fun pair => [pair.1, pair.2]) rng2
  let built := orderedPairs.enum.foldl (singlesCourtFold r) ([], f.opponentCounts, f.courtCounts)
  ({ id := "round-" ++ toString r, roundNumber := r + 1, courts := built.1, sitOuts := sitOuts },
    { f with sitOutCounts := soc', opponentCounts := built.2.1, courtCounts := built.2.2 },
    rng3)

/-- The `for (let r = 0; ...)` loop of `generateSinglesRounds`. -/
def singlesRoundsAux (players : List Player) (numCourts : Nat) :
    Nat → Nat → Fair → RNG → List Round × Fair × RNG
  | _, 0, f, rng => ([], f, rng)
  | r, fuel + 1, f, rng =>
    let (round, f', rng') := singlesStep players numCourts r f rng
    let (rest, f'', rng'') := singlesRoundsAux players numCourts (r + 1) fuel f' rng'
    (round :: rest, f'', rng'')

/-- `generateSinglesRounds` from the source. -/
def generateSinglesRounds (players : List Player) (numRounds numCourts : Nat)
    (rng : RNG) : List Round :=
  (singlesRoundsAux players numCourts 0 numRounds (createFairnessState players) rng).1

/-- The per-court counter updates and court construction shared verbatim by
`generateDoublesRandomRounds` and `generateMixedDoublesRounds`: partner
increments for both teams, the four cross-pair opponent increments, court
occupancy, and the built `Court`. -/
def doublesCourtFold (r : Nat)
    (st : List Court × PairCountMap × PairCountMap × CourtCountMap)
    (ia : Nat × DCourt) : List Court × PairCountMap × PairCountMap × CourtCountMap :=
  let (idx, a) := ia
  let pc2 := incrementCount (incrementCount st.2.1 a.team1.1.id a.team1.2.id)
    a.team2.1.id a.team2.2.id
  let oc2 := incrementCount (incrementCount (incrementCount (incrementCount st.2.2.1
    a.team1.1.id a.team2.1.id) a.team1.1.id a.team2.2.id)
    a.team1.2.id a.team2.1.id) a.team1.2.id a.team2.2.id
  let allPlayers := dcourtPlayers a
  let cc2 := updateCourtCounts allPlayers (idx + 1) st.2.2.2
  (st.1 ++ [buildCourtObject r idx allPlayers
      (some [a.team1.1, a.team1.2]) (some [a.team2.1, a.team2.2])],
    pc2, oc2, cc2)

/-- The `ordered.map((assignment, idx) => ...)` loop shared verbatim by the
two doubles generators. -/
def buildDoublesCourts (r : Nat) (ordered : List DCourt)
    (pc oc : PairCountMap) (cc : CourtCountMap) :
    List Court × PairCountMap × PairCountMap × CourtCountMap :=
  ordered.enum.foldl (doublesCourtFold r) ([], pc, oc, cc)

/-- The body of `generateDoublesRandomRounds`' per-round loop. -/
def doublesStep (players : List Player) (numCourts : Nat) (r : Nat)
    (f : Fair) (rng : RNG) : Round × Fair × RNG :=
  let sel := selectActivePlayers players (numCourts * 4) f.sitOutCounts rng
  let active := sel.1.1
  let sitOuts := sel.1.2
  let soc' := sel.2.1
  let (courtAssignments, rng2) := assignDoublesCourts active numCourts
    f.partnerCounts f.opponentCounts sel.2.2
  let (ordered, rng3) := assignCourtNumbers courtAssignments f.courtCounts
    (fun a => dcourtPlayers a) rng2
  let built := buildDoublesCourts r ordered f.partnerCounts f.opponentCounts f.courtCounts
  ({ id := "round-" ++ toString r, roundNumber := r + 1, courts := built.1, sitOuts := sitOuts },
    { sitOutCounts := soc', partnerCounts := built.2.1,
      opponentCounts := built.2.2.1, courtCounts := built.2.2.2 },
    rng3)

/-- The round loop of `generateDoublesRandomRounds`. -/
def doublesRoundsAux (players : List Player) (numCourts : Nat) :
    Nat → Nat → Fair → RNG → List Round × Fair × RNG
  | _, 0, f, rng => ([], f, rng)
  | r, fuel + 1, f, rng =>
    let (round, f', rng') := doublesStep players numCourts r f rng
    let (rest, f'', rng'') := doublesRoundsAux players numCourts (r + 1) fuel f' rng'
    (round :: rest, f'', rng'')

/-- `generateDoublesRandomRounds` from the source. -/
def generateDoublesRandomRounds (players : List Player) (numRounds numCourts : Nat)
    (rng : RNG) : List Round :=
  (doublesRoundsAux players numCourts 0 numRounds (createFairnessState players) rng).1

/-- The body of `generateMixedDoublesRounds`' per-round loop: sit-out
selection runs per gender pool (sharing one counter map), then the mixed
matcher and the court-number optimizer. -/
def mixedStep (males females : List Player) (maxCourts r : Nat)
    (f : Fair) (rng : RNG) : Round × Fair × RNG :=
  let selM := selectActivePlayers males (maxCourts * 2) f.sitOutCounts rng
  let activeMales := selM.1.1
  let sitOutMales := selM.1.2
  let selF := selectActivePlayers females (maxCourts * 2) selM.2.1 selM.2.2
  let activeFemales := selF.1.1
  let sitOutFemales := selF.1.2
  let (courtAssignments, rng2) := assignMixedDoublesCourts activeMales activeFemales
    maxCourts f.partnerCounts f.opponentCounts selF.2.2
  let (ordered, rng3) := assignCourtNumbers courtAssignments f.courtCounts
    (fun a => dcourtPlayers a) rng2
  let built := buildDoublesCourts r ordered f.partnerCounts f.opponentCounts f.courtCounts
  ({ id := "round-" ++ toString r, roundNumber := r + 1, courts := built.1,
      sitOuts := sitOutMales ++ sitOutFemales },
    { sitOutCounts := selF.2.1, partnerCounts := built.2.1,
      opponentCounts := built.2.2.1, courtCounts := built.2.2.2 },
    rng3)

/-- The round loop of `generateMixedDoublesRounds`. -/
def mixedRoundsAux (males females : List Player) (maxCourts : Nat) :
    Nat → Nat → Fair → RNG → List Round × Fair × RNG
  | _, 0, f, rng => ([], f, rng)
  | r, fuel + 1, f, rng =>
    let (round, f', rng') := mixedStep males females maxCourts r f rng
    let (rest, f'', rng'') := mixedRoundsAux males females maxCourts (r + 1) fuel f' rng'
    (round :: rest, f'', rng'')

/-- `generateMixedDoublesRounds` from the source: returns no rounds at all
when no court can be formed (`maxCourts === 0`). -/
def generateMixedDoublesRounds (players : List Player) (numRounds numCourts : Nat)
    (rng : RNG) : List Round :=
  let males := players.filter (fun p => p.gender = "male")
  let females := players.filter (fun p => p.gender = "female")
  let maxCourts := min numCourts (min (males.length / 2) (females.length / 2))
  if maxCourts = 0 then []
  else (mixedRoundsAux males females maxCourts 0 numRounds (createFairnessState players) rng).1

-- ─── Main Entry Point ────────────────────────────────────────────────

/-- Result of `shufflePlayers`: the rounds and an error string or `null`. -/
structure ShuffleResult where
  rounds : List Round
  error : Option String
deriving DecidableEq

/-- `shufflePlayers` from the source: validation in order (empty roster,
per-mode minimum, mixed gender balance), then dispatch on
`gameType`/`pairingMode`. -/
def shufflePlayers (players : List Player) (gameType : String)
    (pairingMode : Option String) (numRounds numCourts : Nat) (rng : RNG) :
    ShuffleResult :=
  if players.isEmpty then { rounds := [], error := some "No players in session" }
  else
    let minPlayers := if gameType = "singles" then 2 else 4
    if players.length < minPlayers then
      { rounds := []
        error := some ("Need at least " ++ toString minPlayers ++ " players for " ++ gameType) }
    else if gameType = "doubles" ∧ pairingMode = some "mixed" ∧
        ((players.filter (fun p => p.gender = "male")).length < 2 ∨
          (players.filter (fun p => p.gender = "female")).length < 2) then
      { rounds := [], error := some "Mixed doubles requires at least 2 males and 2 females" }
    else if gameType = "singles" then
      { rounds := generateSinglesRounds players numRounds numCourts rng, error := none }
    else if pairingMode = some "mixed" then
      { rounds := generateMixedDoublesRounds players numRounds numCourts rng, error := none }
    else
      { rounds := generateDoublesRandomRounds players numRounds numCourts rng, error := none }

-- ─────────────────────────────────────────────────────────────────────
-- Verification
-- ─────────────────────────────────────────────────────────────────────

/-- Unfolding of one iteration of the singles round loop. -/
theorem singlesRoundsAux_succ (players : List Player) (numCourts r n : Nat)
    (f : Fair) (rng : RNG) :
    singlesRoundsAux players numCourts r (n + 1) f rng =
      (((singlesStep players numCourts r f rng).1 ::
          (singlesRoundsAux players numCourts (r + 1) n
            (singlesStep players numCourts r f rng).2.1
            (singlesStep players numCourts r f rng).2.2).1),
        (singlesRoundsAux players numCourts (r + 1) n
          (singlesStep players numCourts r f rng).2.1
          (singlesStep players numCourts r f rng).2.2).2) := rfl

/-- Unfolding of one iteration of the doubles round loop. -/
theorem doublesRoundsAux_succ (players : List Player) (numCourts r n : Nat)
    (f : Fair) (rng : RNG) :
    doublesRoundsAux players numCourts r (n + 1) f rng =
      (((doublesStep players numCourts r f rng).1 ::
          (doublesRoundsAux players numCourts (r + 1) n
            (doublesStep players numCourts r f rng).2.1
            (doublesStep players numCourts r f rng).2.2).1),
        (doublesRoundsAux players numCourts (r + 1) n
          (doublesStep players numCourts r f rng).2.1
          (doublesStep players numCourts r f rng).2.2).2) := rfl

/-- Unfolding of one iteration of the mixed round loop. -/
theorem mixedRoundsAux_succ (males females : List Player) (maxCourts r n : Nat)
    (f : Fair) (rng : RNG) :
    mixedRoundsAux males females maxCourts r (n + 1) f rng =
      (((mixedStep males females maxCourts r f rng).1 ::
          (mixedRoundsAux males females maxCourts (r + 1) n
            (mixedStep males females maxCourts r f rng).2.1
            (mixedStep males females maxCourts r f rng).2.2).1),
        (mixedRoundsAux males females maxCourts (r + 1) n
          (mixedStep males females maxCourts r f rng).2.1
          (mixedStep males females maxCourts r f rng).2.2).2) := rfl

/-- Any court accumulated by the singles per-court fold is either already in
the accumulator or was built by `buildCourtObject`. -/
theorem mem_foldl_singlesCourtFold (r : Nat) :
    ∀ (l : List (Nat × (Player × Player))) (init : List Court × PairCountMap × CourtCountMap)
      (c : Court), c ∈ (l.foldl (singlesCourtFold r) init).1 →
      c ∈ init.1 ∨ ∃ (idx : Nat) (pair : Player × Player),
        c = buildCourtObject r idx [pair.1, pair.2] none none := by
  intro l
  induction l with
  | nil => intro init c hc; exact Or.inl hc
  | cons a l ih =>
    intro init c hc
    rw [List.foldl_cons] at hc
    rcases ih _ c hc with h | h
    · simp only [singlesCourtFold, List.mem_append, List.mem_singleton] at h
      rcases h with h | h
      · exact Or.inl h
      · exact Or.inr ⟨a.1, a.2, h⟩
    · exact Or.inr h

/-- Any court accumulated by the doubles per-court fold is either already in
the accumulator or was built by `buildCourtObject`. -/
theorem mem_foldl_doublesCourtFold (r : Nat) :
    ∀ (l : List (Nat × DCourt))
      (init : List Court × PairCountMap × PairCountMap × CourtCountMap)
      (c : Court), c ∈ (l.foldl (doublesCourtFold r) init).1 →
      c ∈ init.1 ∨ ∃ (idx : Nat) (a : DCourt), c = buildCourtObject r idx (dcourtPlayers a)
        (some [a.team1.1, a.team1.2]) (some [a.team2.1, a.team2.2]) := by
  intro l
  induction l with
  | nil => intro init c hc; exact Or.inl hc
  | cons a l ih =>
    intro init c hc
    rw [List.foldl_cons] at hc
    rcases ih _ c hc with h | h
    · simp only [doublesCourtFold, List.mem_append, List.mem_singleton] at h
      rcases h with h | h
      · exact Or.inl h
      · exact Or.inr ⟨a.1, a.2, h⟩
    · exact Or.inr h

/-- The courts of the round built by `singlesStep` all come from
`buildCourtObject`. -/
theorem singlesStep_courts (players : List Player) (numCourts r : Nat)
    (f : Fair) (rng : RNG) :
    ∀ c ∈ (singlesStep players numCourts r f rng).1.courts,
      ∃ (idx : Nat) (pair : Player × Player),
        c = buildCourtObject r idx [pair.1, pair.2] none none := by
  intro c hc
  simp only [singlesStep] at hc
  rcases mem_foldl_singlesCourtFold r _ _ c hc with h | h
  · simp at h
  · exact h

/-- The courts of the round built by `doublesStep` all come from
`buildCourtObject`. -/
theorem doublesStep_courts (players : List Player) (numCourts r : Nat)
    (f : Fair) (rng : RNG) :
    ∀ c ∈ (doublesStep players numCourts r f rng).1.courts,
      ∃ (idx : Nat) (a : DCourt), c = buildCourtObject r idx (dcourtPlayers a)
        (some [a.team1.1, a.team1.2]) (some [a.team2.1, a.team2.2]) := by
  intro c hc
  simp only [doublesStep, buildDoublesCourts] at hc
  rcases mem_foldl_doublesCourtFold r _ _ c hc with h | h
  · simp at h
  · exact h

/-- The courts of the round built by `mixedStep` all come from
`buildCourtObject`. -/
theorem mixedStep_courts (males females : List Player) (maxCourts r : Nat)
    (f : Fair) (rng : RNG) :
    ∀ c ∈ (mixedStep males females maxCourts r f rng).1.courts,
      ∃ (idx : Nat) (a : DCourt), c = buildCourtObject r idx (dcourtPlayers a)
        (some [a.team1.1, a.team1.2]) (some [a.team2.1, a.team2.2]) := by
  intro c hc
  simp only [mixedStep, buildDoublesCourts] at hc
  rcases mem_foldl_doublesCourtFold r _ _ c hc with h | h
  · simp at h
  · exact h

/-- Every court of every round produced by the singles round loop is pending
with the initial score. -/
theorem singlesRoundsAux_pending (players : List Player) (numCourts : Nat) :
    ∀ (fuel r0 : Nat) (f : Fair) (rng : RNG) (round : Round)
      (_ : round ∈ (singlesRoundsAux players numCourts r0 fuel f rng).1)
      (c : Court) (_ : c ∈ round.courts),
      c.status = "pending" ∧ c.score = createInitialScore := by
  intro fuel
  induction fuel with
  | zero => intro r0 f rng round h; simp [singlesRoundsAux] at h
  | succ n ih =>
    intro r0 f rng round hround c hc
    rw [singlesRoundsAux_succ] at hround
    rcases List.mem_cons.mp hround with h | h
    · subst h
      obtain ⟨idx, pair, h⟩ := singlesStep_courts players numCourts r0 f rng c hc
      subst h; exact ⟨rfl, rfl⟩
    · exact ih _ _ _ _ h c hc

/-- Every court of every round produced by the doubles round loop is pending
with the initial score. -/
theorem doublesRoundsAux_pending (players : List Player) (numCourts : Nat) :
    ∀ (fuel r0 : Nat) (f : Fair) (rng : RNG) (round : Round)
      (_ : round ∈ (doublesRoundsAux players numCourts r0 fuel f rng).1)
      (c : Court) (_ : c ∈ round.courts),
      c.status = "pending" ∧ c.score = createInitialScore := by
  intro fuel
  induction fuel with
  | zero => intro r0 f rng round h; simp [doublesRoundsAux] at h
  | succ n ih =>
    intro r0 f rng round hround c hc
    rw [doublesRoundsAux_succ] at hround
    rcases List.mem_cons.mp hround with h | h
    · subst h
      obtain ⟨idx, a, h⟩ := doublesStep_courts players numCourts r0 f rng c hc
      subst h; exact ⟨rfl, rfl⟩
    · exact ih _ _ _ _ h c hc

/-- Every court of every round produced by the mixed round loop is pending
with the initial score. -/
theorem mixedRoundsAux_pending (males females : List Player) (maxCourts : Nat) :
    ∀ (fuel r0 : Nat) (f : Fair) (rng : RNG) (round : Round)
      (_ : round ∈ (mixedRoundsAux males females maxCourts r0 fuel f rng).1)
      (c : Court) (_ : c ∈ round.courts),
      c.status = "pending" ∧ c.score = createInitialScore := by
  intro fuel
  induction fuel with
  | zero => intro r0 f rng round h; simp [mixedRoundsAux] at h
  | succ n ih =>
    intro r0 f rng round hround c hc
    rw [mixedRoundsAux_succ] at hround
    rcases List.mem_cons.mp hround with h | h
    · subst h
      obtain ⟨idx, a, h⟩ := mixedStep_courts males females maxCourts r0 f rng c hc
      subst h; exact ⟨rfl, rfl⟩
    · exact ih _ _ _ _ h c hc

/-- The round list of any `shufflePlayers` call is empty or comes from one of
the three generators. -/
theorem shufflePlayers_rounds_cases (players : List Player) (gameType : String)
    (pairingMode : Option String) (numRounds numCourts : Nat) (rng : RNG) :
    (shufflePlayers players gameType pairingMode numRounds numCourts rng).rounds = [] ∨
    (shufflePlayers players gameType pairingMode numRounds numCourts rng).rounds =
      generateSinglesRounds players numRounds numCourts rng ∨
    (shufflePlayers players gameType pairingMode numRounds numCourts rng).rounds =
      generateMixedDoublesRounds players numRounds numCourts rng ∨
    (shufflePlayers players gameType pairingMode numRounds numCourts rng).rounds =
      generateDoublesRandomRounds players numRounds numCourts rng := by
  simp only [shufflePlayers]
  split_ifs <;> simp

/-- Pending/initial-score property for any round list the engine can
return. -/
theorem shufflePlayers_pending (players : List Player) (gameType : String)
    (pairingMode : Option String) (numRounds numCourts : Nat) (rng : RNG) :
    ∀ round ∈ (shufflePlayers players gameType pairingMode numRounds numCourts rng).rounds,
      ∀ c ∈ round.courts, c.status = "pending" ∧ c.score = createInitialScore := by
  intro round hround c hc
  rcases shufflePlayers_rounds_cases players gameType pairingMode numRounds numCourts rng with
    h | h | h | h <;> rw [h] at hround
  · exact absurd hround (by simp)
  · exact singlesRoundsAux_pending players numCourts numRounds 0 _ _ round hround c hc
  · simp only [generateMixedDoublesRounds] at hround
    split at hround
    · exact absurd hround (by simp)
    · exact mixedRoundsAux_pending _ _ _ numRounds 0 _ _ round hround c hc
  · exact doublesRoundsAux_pending players numCourts numRounds 0 _ _ round hround c hc

/-- C10: every Court in the rounds returned by the engine is created with
status `'pending'` and a score whose `team1`, `team2`, `lastUpdatedBy`, and
`lastUpdatedAt` fields are all `null`; the engine never produces a court
with any other status or any non-null score field. -/
theorem c10_courts_pending_null_score (players : List Player) (gameType : String)
    (pairingMode : Option String) (numRounds numCourts : Nat) (rng : RNG) :
    ∀ round ∈ (shufflePlayers players gameType pairingMode numRounds numCourts rng).rounds,
      ∀ c ∈ round.courts,
        c.status = "pending" ∧ c.score.team1 = none ∧ c.score.team2 = none ∧
          c.score.lastUpdatedBy = none ∧ c.score.lastUpdatedAt = none := by
  intro round hround c hc
  have key := shufflePlayers_pending players gameType pairingMode numRounds numCourts rng
    round hround c hc
  refine ⟨key.1, ?_, ?_, ?_, ?_⟩ <;> rw [key.2] <;> rfl

/-- C9: with the source of randomness fixed to an injected deterministic
generator, `shufflePlayers` is a deterministic function of its inputs: two
invocations with identical players, gameType, pairingMode, numRounds, and
numCourts, driven by generators that return the same value at every call,
produce identical results (in this embedding `Math.random()` is exactly such
an injected generator, so the engine has no other source of
non-determinism). -/
theorem c9_deterministic_under_fixed_generator (players : List Player)
    (gameType : String) (pairingMode : Option String) (numRounds numCourts : Nat)
    (g g' : Nat → Nat) (k : Nat) (h : ∀ n, g n = g' n) :
    shufflePlayers players gameType pairingMode numRounds numCourts ⟨g, k⟩ =
      shufflePlayers players gameType pairingMode numRounds numCourts ⟨g', k⟩ := by
  have hg : g = g' := funext h
  subst hg
  rfl

/-- Witness for C9 at a concrete input and two syntactically different but
pointwise-equal generators. -/
theorem c9_witness :
    shufflePlayers [⟨"a", "Ann", "female"⟩, ⟨"b", "Bo", "male"⟩] "singles" none 2 1 ⟨fun _ => 0, 0⟩ =
      shufflePlayers [⟨"a", "Ann", "female"⟩, ⟨"b", "Bo", "male"⟩] "singles" none 2 1
        ⟨fun n => 0 * n, 0⟩ :=
  c9_deterministic_under_fixed_generator _ _ _ _ _ _ _ _ (fun n => (Nat.zero_mul n).symm)

/-- The session used to witness C10: two players, singles, one round, one
court, zero generator. -/
def c10Session : ShuffleResult :=
  shufflePlayers [⟨"a", "Ann", "female"⟩, ⟨"b", "Bo", "male"⟩] "singles" none 1 1
    ⟨fun _ => 0, 0⟩

set_option maxRecDepth 40000 in
/-- Concrete instance of C10: the first court of the first round of a
two-player singles session is pending with an all-null score. -/
theorem c10_witness :
    (c10Session.rounds.getD 0 default ∈ c10Session.rounds) ∧
    ((c10Session.rounds.getD 0 default).courts.getD 0 default ∈
      (c10Session.rounds.getD 0 default).courts) ∧
    (((c10Session.rounds.getD 0 default).courts.getD 0 default).status = "pending" ∧
      ((c10Session.rounds.getD 0 default).courts.getD 0 default).score.team1 = none ∧
      ((c10Session.rounds.getD 0 default).courts.getD 0 default).score.team2 = none ∧
      ((c10Session.rounds.getD 0 default).courts.getD 0 default).score.lastUpdatedBy = none ∧
      ((c10Session.rounds.getD 0 default).courts.getD 0 default).score.lastUpdatedAt = none) :=
  ⟨by decide, by decide,
    c10_courts_pending_null_score [⟨"a", "Ann", "female"⟩, ⟨"b", "Bo", "male"⟩]
      "singles" none 1 1 ⟨fun _ => 0, 0⟩
      (c10Session.rounds.getD 0 default) (by decide)
      ((c10Session.rounds.getD 0 default).courts.getD 0 default) (by decide)⟩

-- ─── Association-list counter lemmas ─────────────────────────────────

/-- Reading an association list at the head key. -/
theorem alGet_cons {κ ν : Type} [DecidableEq κ] (e : κ × ν) (es : List (κ × ν)) (k : κ) :
    alGet (e :: es) k = if e.1 = k then some e.2 else alGet es k := by
  by_cases h : e.1 = k <;> simp [alGet, List.find?_cons, h]

/-- `alSet` then `alGet` at the written key. -/
theorem alGet_alSet_self {κ ν : Type} [DecidableEq κ] (m : List (κ × ν)) (k : κ) (v : ν) :
    alGet (alSet m k v) k = some v := by
  induction m with
  | nil => simp [alSet, alGet_cons]
  | cons e es ih =>
    by_cases h : e.1 = k
    · simp [alSet, h, alGet_cons]
    · simp [alSet, h, alGet_cons, ih]

/-- `alSet` leaves other keys unchanged. -/
theorem alGet_alSet_ne {κ ν : Type} [DecidableEq κ] (m : List (κ × ν)) (k k' : κ) (v : ν)
    (h : k' ≠ k) : alGet (alSet m k v) k' = alGet m k' := by
  have hkk : ¬ (k = k') := fun he => h he.symm
  induction m with
  | nil => simp only [alSet, alGet_cons, if_neg hkk]
  | cons e es ih =>
    by_cases he : e.1 = k
    · subst he
      have hset : alSet (e :: es) e.1 v = (e.1, v) :: es := by simp [alSet]
      rw [hset, alGet_cons, alGet_cons, if_neg hkk, if_neg hkk]
    · simp only [alSet, if_neg he, alGet_cons, ih]

/-- Reading a nested counter through the flattened inner map. -/
theorem getCount_eq_inner (m : PairCountMap) (x y : String) :
    getCount m x y = (alGet ((alGet m x).getD []) y).getD 0 := by
  unfold getCount
  cases alGet m x with
  | none => simp [alGet]
  | some inner => simp

/-- The outer-entry padding steps of `incrementCount` do not change any
count. -/
theorem getCount_pad (m : PairCountMap) (k a b : String) :
    getCount (if alHas m k then m else alSet m k []) a b = getCount m a b := by
  by_cases h : alHas m k
  · rw [if_pos h]
  · rw [if_neg h]
    by_cases hak : a = k
    · subst hak
      have hnone : alGet m a = none := by
        unfold alHas at h
        exact Option.not_isSome_iff_eq_none.mp h
      rw [getCount_eq_inner, getCount_eq_inner, alGet_alSet_self, hnone]
      simp [alGet]
    · rw [getCount_eq_inner, getCount_eq_inner, alGet_alSet_ne m k a [] hak]

/-- The single-direction write inside `incrementCount` adds exactly one to
the written cell and nothing elsewhere. -/
theorem getCount_write (m : PairCountMap) (x y a b : String) :
    getCount (alSet m x (alSet ((alGet m x).getD []) y
        ((alGet ((alGet m x).getD []) y).getD 0 + 1))) a b =
      getCount m a b + (if a = x ∧ b = y then 1 else 0) := by
  by_cases hax : a = x
  · subst hax
    rw [getCount_eq_inner, alGet_alSet_self]
    by_cases hby : b = y
    · subst hby
      simp [alGet_alSet_self, getCount_eq_inner]
    · rw [Option.getD_some, alGet_alSet_ne _ _ _ _ hby, getCount_eq_inner]
      simp [hby]
  · rw [getCount_eq_inner, alGet_alSet_ne _ _ _ _ hax, getCount_eq_inner]
    simp [hax]

/-- Full characterization of `incrementCount`: the `(x,y)` and `(y,x)` cells
each gain one (the `(x,x)` cell gains two when `x = y`), all other cells are
unchanged. -/
theorem getCount_incrementCount (m : PairCountMap) (x y a b : String) :
    getCount (incrementCount m x y) a b =
      getCount m a b + (if a = x ∧ b = y then 1 else 0) +
        (if a = y ∧ b = x then 1 else 0) := by
  unfold incrementCount
  rw [getCount_write, getCount_write, getCount_pad, getCount_pad]

/-- Symmetry of a nested pair counter. -/
def SymmCounts (m : PairCountMap) : Prop :=
  ∀ a b : String, getCount m a b = getCount m b a

/-- `incrementCount` preserves counter symmetry. -/
theorem symmCounts_incrementCount {m : PairCountMap} (h : SymmCounts m)
    (x y : String) : SymmCounts (incrementCount m x y) := by
  intro a b
  rw [getCount_incrementCount, getCount_incrementCount, h a b]
  have e1 : (a = x ∧ b = y) = (b = y ∧ a = x) := propext and_comm
  have e2 : (a = y ∧ b = x) = (b = x ∧ a = y) := propext and_comm
  simp only [e1, e2]
  omega

/-- All counters of a map whose values are all empty inner maps read 0. -/
theorem getCount_foldl_emptyInner (l : List Player) :
    ∀ (m : PairCountMap), (∀ a b, getCount m a b = 0) →
      ∀ a b, getCount (l.foldl (fun m p => alSet m p.id ([] : List (String × Nat))) m) a b = 0 := by
  induction l with
  | nil => intro m h a b; exact h a b
  | cons p l ih =>
    intro m h a b
    rw [List.foldl_cons]
    refine ih _ ?_ a b
    intro a' b'
    by_cases hk : a' = p.id
    · subst hk
      rw [getCount_eq_inner, alGet_alSet_self]
      simp [alGet]
    · rw [getCount_eq_inner, alGet_alSet_ne _ _ _ _ hk, ← getCount_eq_inner, h a' b']

/-- The initial partner and opponent counters are symmetric (all zero). -/
theorem symmCounts_initial (players : List Player) :
    SymmCounts (createFairnessState players).partnerCounts ∧
      SymmCounts (createFairnessState players).opponentCounts := by
  constructor <;> intro a b <;>
    exact (getCount_foldl_emptyInner players [] (fun a b => by simp [getCount, alGet]) a b).trans
      (getCount_foldl_emptyInner players [] (fun a b => by simp [getCount, alGet]) b a).symm

/-- The fairness state has symmetric partner and opponent counters. -/
def FairSymm (f : Fair) : Prop :=
  SymmCounts f.partnerCounts ∧ SymmCounts f.opponentCounts

/-- The singles per-court fold preserves opponent-counter symmetry. -/
theorem singlesCourtFold_symm (r : Nat) :
    ∀ (l : List (Nat × (Player × Player))) (init : List Court × PairCountMap × CourtCountMap),
      SymmCounts init.2.1 → SymmCounts (l.foldl (singlesCourtFold r) init).2.1 := by
  intro l
  induction l with
  | nil => intro init h; exact h
  | cons ia l ih =>
    intro init h
    obtain ⟨idx, a⟩ := ia
    obtain ⟨cs, oc, cc⟩ := init
    rw [List.foldl_cons]
    refine ih (singlesCourtFold r (cs, oc, cc) (idx, a)) ?_
    exact symmCounts_incrementCount h _ _

/-- Partner-counter component of one doubles court fold step. -/
theorem doublesCourtFold_pc (r idx : Nat) (a : DCourt) (cs : List Court)
    (pc oc : PairCountMap) (cc : CourtCountMap) :
    (doublesCourtFold r (cs, pc, oc, cc) (idx, a)).2.1 =
      incrementCount (incrementCount pc a.team1.1.id a.team1.2.id)
        a.team2.1.id a.team2.2.id := by
  simp only [doublesCourtFold]

/-- Opponent-counter component of one doubles court fold step. -/
theorem doublesCourtFold_oc (r idx : Nat) (a : DCourt) (cs : List Court)
    (pc oc : PairCountMap) (cc : CourtCountMap) :
    (doublesCourtFold r (cs, pc, oc, cc) (idx, a)).2.2.1 =
      incrementCount (incrementCount (incrementCount (incrementCount oc
        a.team1.1.id a.team2.1.id) a.team1.1.id a.team2.2.id)
        a.team1.2.id a.team2.1.id) a.team1.2.id a.team2.2.id := by
  simp only [doublesCourtFold]

/-- The doubles per-court fold preserves partner- and opponent-counter
symmetry. -/
theorem doublesCourtFold_symm (r : Nat) :
    ∀ (l : List (Nat × DCourt))
      (init : List Court × PairCountMap × PairCountMap × CourtCountMap),
      SymmCounts init.2.1 → SymmCounts init.2.2.1 →
      SymmCounts (l.foldl (doublesCourtFold r) init).2.1 ∧
        SymmCounts (l.foldl (doublesCourtFold r) init).2.2.1 := by
  intro l
  induction l with
  | nil => intro init h1 h2; exact ⟨h1, h2⟩
  | cons ia l ih =>
    intro init h1 h2
    obtain ⟨idx, a⟩ := ia
    obtain ⟨cs, pc, oc, cc⟩ := init
    rw [List.foldl_cons]
    refine ih (doublesCourtFold r (cs, pc, oc, cc) (idx, a)) ?_ ?_
    · rw [doublesCourtFold_pc]
      exact symmCounts_incrementCount (symmCounts_incrementCount h1 _ _) _ _
    · rw [doublesCourtFold_oc]
      exact symmCounts_incrementCount (symmCounts_incrementCount
        (symmCounts_incrementCount (symmCounts_incrementCount h2 _ _) _ _) _ _) _ _

/-- `singlesStep` preserves counter symmetry. -/
theorem singlesStep_symm (players : List Player) (numCourts r : Nat)
    (f : Fair) (rng : RNG) (h : FairSymm f) :
    FairSymm (singlesStep players numCourts r f rng).2.1 := by
  refine ⟨h.1, ?_⟩
  exact singlesCourtFold_symm r _ _ h.2

/-- `doublesStep` preserves counter symmetry. -/
theorem doublesStep_symm (players : List Player) (numCourts r : Nat)
    (f : Fair) (rng : RNG) (h : FairSymm f) :
    FairSymm (doublesStep players numCourts r f rng).2.1 := by
  refine ⟨?_, ?_⟩
  · exact (doublesCourtFold_symm r _ _ h.1 h.2).1
  · exact (doublesCourtFold_symm r _ _ h.1 h.2).2

/-- `mixedStep` preserves counter symmetry. -/
theorem mixedStep_symm (males females : List Player) (maxCourts r : Nat)
    (f : Fair) (rng : RNG) (h : FairSymm f) :
    FairSymm (mixedStep males females maxCourts r f rng).2.1 := by
  refine ⟨?_, ?_⟩
  · exact (doublesCourtFold_symm r _ _ h.1 h.2).1
  · exact (doublesCourtFold_symm r _ _ h.1 h.2).2

/-- Counter symmetry after any number of singles rounds. -/
theorem singlesRoundsAux_symm (players : List Player) (numCourts : Nat) :
    ∀ (fuel r0 : Nat) (f : Fair) (rng : RNG), FairSymm f →
      FairSymm (singlesRoundsAux players numCourts r0 fuel f rng).2.1 := by
  intro fuel
  induction fuel with
  | zero => intro r0 f rng h; exact h
  | succ n ih =>
    intro r0 f rng h
    rw [singlesRoundsAux_succ]
    exact ih _ _ _ (singlesStep_symm players numCourts r0 f rng h)

/-- Counter symmetry after any number of doubles rounds. -/
theorem doublesRoundsAux_symm (players : List Player) (numCourts : Nat) :
    ∀ (fuel r0 : Nat) (f : Fair) (rng : RNG), FairSymm f →
      FairSymm (doublesRoundsAux players numCourts r0 fuel f rng).2.1 := by
  intro fuel
  induction fuel with
  | zero => intro r0 f rng h; exact h
  | succ n ih =>
    intro r0 f rng h
    rw [doublesRoundsAux_succ]
    exact ih _ _ _ (doublesStep_symm players numCourts r0 f rng h)

/-- Counter symmetry after any number of mixed rounds. -/
theorem mixedRoundsAux_symm (males females : List Player) (maxCourts : Nat) :
    ∀ (fuel r0 : Nat) (f : Fair) (rng : RNG), FairSymm f →
      FairSymm (mixedRoundsAux males females maxCourts r0 fuel f rng).2.1 := by
  intro fuel
  induction fuel with
  | zero => intro r0 f rng h; exact h
  | succ n ih =>
    intro r0 f rng h
    rw [mixedRoundsAux_succ]
    exact ih _ _ _ (mixedStep_symm males females maxCourts r0 f rng h)

/-- C4: after every generated round (any prefix length `k`, any mode, any
generator), the partner and opponent counters are symmetric: for all players
`a` and `b`, `partnerCounts[a][b] = partnerCounts[b][a]` and
`opponentCounts[a][b] = opponentCounts[b][a]`, because every update to a
pair writes both directions identically. -/
theorem c4_partner_opponent_symmetry (players males females : List Player)
    (numCourts maxCourts k : Nat) (rng1 rng2 rng3 : RNG) :
    FairSymm (singlesRoundsAux players numCourts 0 k (createFairnessState players) rng1).2.1 ∧
      FairSymm (doublesRoundsAux players numCourts 0 k (createFairnessState players) rng2).2.1 ∧
      FairSymm (mixedRoundsAux males females maxCourts 0 k
        (createFairnessState players) rng3).2.1 := by
  have h0 : FairSymm (createFairnessState players) :=
    ⟨(symmCounts_initial players).1, (symmCounts_initial players).2⟩
  exact ⟨singlesRoundsAux_symm players numCourts k 0 _ rng1 h0,
    doublesRoundsAux_symm players numCourts k 0 _ rng2 h0,
    mixedRoundsAux_symm males females maxCourts k 0 _ rng3 h0⟩

-- ─── C2: validation and round counts ─────────────────────────────────

/-- The singles round loop produces exactly `fuel` rounds. -/
theorem singlesRoundsAux_length (players : List Player) (numCourts : Nat) :
    ∀ (fuel r0 : Nat) (f : Fair) (rng : RNG),
      (singlesRoundsAux players numCourts r0 fuel f rng).1.length = fuel := by
  intro fuel
  induction fuel with
  | zero => intro r0 f rng; rfl
  | succ n ih =>
    intro r0 f rng
    rw [singlesRoundsAux_succ]
    simp [ih]

/-- The doubles round loop produces exactly `fuel` rounds. -/
theorem doublesRoundsAux_length (players : List Player) (numCourts : Nat) :
    ∀ (fuel r0 : Nat) (f : Fair) (rng : RNG),
      (doublesRoundsAux players numCourts r0 fuel f rng).1.length = fuel := by
  intro fuel
  induction fuel with
  | zero => intro r0 f rng; rfl
  | succ n ih =>
    intro r0 f rng
    rw [doublesRoundsAux_succ]
    simp [ih]

/-- The mixed round loop produces exactly `fuel` rounds. -/
theorem mixedRoundsAux_length (males females : List Player) (maxCourts : Nat) :
    ∀ (fuel r0 : Nat) (f : Fair) (rng : RNG),
      (mixedRoundsAux males females maxCourts r0 fuel f rng).1.length = fuel := by
  intro fuel
  induction fuel with
  | zero => intro r0 f rng; rfl
  | succ n ih =>
    intro r0 f rng
    rw [mixedRoundsAux_succ]
    simp [ih]

/-- The invalid inputs of the engine's validation stage: empty roster
(`EmptyRoster`), below the per-mode minimum (`InsufficientPlayers`), or
mixed doubles with an insufficient gender pool
(`InsufficientGenderBalance`). -/
def invalidInput (players : List Player) (gameType : String)
    (pairingMode : Option String) : Prop :=
  players = [] ∨
    players.length < (if gameType = "singles" then 2 else 4) ∨
    (gameType = "doubles" ∧ pairingMode = some "mixed" ∧
      ((players.filter (fun p => p.gender = "male")).length < 2 ∨
        (players.filter (fun p => p.gender = "female")).length < 2))

/-- C2: `shufflePlayers` returns an error and zero rounds exactly when the
input is invalid — empty player list (`EmptyRoster`), fewer than 2 players
for singles or fewer than 4 for doubles (`InsufficientPlayers`), or mixed
doubles with fewer than 2 males or fewer than 2 females
(`InsufficientGenderBalance`) — and for every valid input with
`numRounds ≥ 1` and `numCourts ≥ 1` it returns no error and exactly
`numRounds` rounds (never a partial round list). -/
theorem c2_validation_and_round_count (players : List Player) (gameType : String)
    (pairingMode : Option String) (numRounds numCourts : Nat) (rng : RNG)
    (hg : gameType = "singles" ∨ gameType = "doubles")
    (hr : 1 ≤ numRounds) (hc : 1 ≤ numCourts) :
    ((shufflePlayers players gameType pairingMode numRounds numCourts rng).error ≠ none ∧
        (shufflePlayers players gameType pairingMode numRounds numCourts rng).rounds = [] ↔
      invalidInput players gameType pairingMode) ∧
    (¬ invalidInput players gameType pairingMode →
      (shufflePlayers players gameType pairingMode numRounds numCourts rng).error = none ∧
        (shufflePlayers players gameType pairingMode numRounds numCourts rng).rounds.length =
          numRounds) := by
  unfold shufflePlayers invalidInput
  by_cases h1 : players.isEmpty
  · rw [if_pos h1]
    have : players = [] := List.isEmpty_iff.mp h1
    simp [this]
  · rw [if_neg h1]
    have hne : ¬ players = [] := fun he => h1 (by simp [he])
    by_cases h2 : players.length < (if gameType = "singles" then 2 else 4)
    · rw [if_pos h2]
      simp [hne, h2]
    · rw [if_neg h2]
      by_cases h3 : gameType = "doubles" ∧ pairingMode = some "mixed" ∧
          ((players.filter (fun p => p.gender = "male")).length < 2 ∨
            (players.filter (fun p => p.gender = "female")).length < 2)
      · rw [if_pos h3]
        simp [hne, h2, h3]
      · rw [if_neg h3]
        have hvalid : ¬ (players = [] ∨
            players.length < (if gameType = "singles" then 2 else 4) ∨
            (gameType = "doubles" ∧ pairingMode = some "mixed" ∧
              ((players.filter (fun p => p.gender = "male")).length < 2 ∨
                (players.filter (fun p => p.gender = "female")).length < 2))) := by
          push_neg
          refine ⟨hne, Nat.le_of_not_lt h2, fun hd hm => ?_⟩
          rcases Nat.lt_or_ge (players.filter (fun p => p.gender = "male")).length 2 with
            hml | hml
          · exact absurd ⟨hd, hm, Or.inl hml⟩ h3
          · rcases Nat.lt_or_ge (players.filter (fun p => p.gender = "female")).length 2 with
              hfl | hfl
            · exact absurd ⟨hd, hm, Or.inr hfl⟩ h3
            · exact ⟨hml, hfl⟩
        by_cases h4 : gameType = "singles"
        · rw [if_pos h4]
          constructor
          · constructor
            · intro hcontr
              exact absurd rfl hcontr.1
            · intro hinv
              exact absurd hinv hvalid
          · intro _
            refine ⟨rfl, ?_⟩
            show (generateSinglesRounds players numRounds numCourts rng).length = numRounds
            unfold generateSinglesRounds
            rw [singlesRoundsAux_length]
        · rw [if_neg h4]
          have hd : gameType = "doubles" := hg.resolve_left h4
          by_cases h5 : pairingMode = some "mixed"
          · rw [if_pos h5]
            have hmales : 2 ≤ (players.filter (fun p => p.gender = "male")).length ∧
                2 ≤ (players.filter (fun p => p.gender = "female")).length := by
              rcases Nat.lt_or_ge (players.filter (fun p => p.gender = "male")).length 2 with
                hm | hm
              · exact absurd ⟨hd, h5, Or.inl hm⟩ h3
              · rcases Nat.lt_or_ge (players.filter (fun p => p.gender = "female")).length 2 with
                  hf | hf
                · exact absurd ⟨hd, h5, Or.inr hf⟩ h3
                · exact ⟨hm, hf⟩
            have hlen : (generateMixedDoublesRounds players numRounds numCourts rng).length =
                numRounds := by
              unfold generateMixedDoublesRounds
              have hmc : ¬ (min numCourts
                  (min ((players.filter (fun p => p.gender = "male")).length / 2)
                    ((players.filter (fun p => p.gender = "female")).length / 2)) = 0) := by
                have l1 := hmales.1
                have l2 := hmales.2
                omega
              rw [if_neg hmc]
              rw [mixedRoundsAux_length]
            constructor
            · constructor
              · intro hcontr
                exact absurd rfl hcontr.1
              · intro hinv
                exact absurd hinv hvalid
            · intro _
              exact ⟨rfl, hlen⟩
          · rw [if_neg h5]
            constructor
            · constructor
              · intro hcontr
                exact absurd rfl hcontr.1
              · intro hinv
                exact absurd hinv hvalid
            · intro _
              refine ⟨rfl, ?_⟩
              show (generateDoublesRandomRounds players numRounds numCourts rng).length = numRounds
              unfold generateDoublesRandomRounds
              rw [doublesRoundsAux_length]

/-- Witness for C2 at a concrete valid input: 2 players, singles, 3 rounds,
1 court. -/
theorem c2_witness :
    ((shufflePlayers [⟨"a", "Ann", "female"⟩, ⟨"b", "Bo", "male"⟩] "singles" none 3 1
          ⟨fun _ => 0, 0⟩).error ≠ none ∧
        (shufflePlayers [⟨"a", "Ann", "female"⟩, ⟨"b", "Bo", "male"⟩] "singles" none 3 1
          ⟨fun _ => 0, 0⟩).rounds = [] ↔
      invalidInput [⟨"a", "Ann", "female"⟩, ⟨"b", "Bo", "male"⟩] "singles" none) ∧
    (¬ invalidInput [⟨"a", "Ann", "female"⟩, ⟨"b", "Bo", "male"⟩] "singles" none →
      (shufflePlayers [⟨"a", "Ann", "female"⟩, ⟨"b", "Bo", "male"⟩] "singles" none 3 1
          ⟨fun _ => 0, 0⟩).error = none ∧
        (shufflePlayers [⟨"a", "Ann", "female"⟩, ⟨"b", "Bo", "male"⟩] "singles" none 3 1
          ⟨fun _ => 0, 0⟩).rounds.length = 3) :=
  c2_validation_and_round_count _ _ _ _ _ _ (Or.inl rfl) (by decide) (by decide)

-- ─── C3: leftover players are silently dropped, not routed to sitOuts ──

set_option maxHeartbeats 4000000 in
set_option maxRecDepth 40000 in
/-- C3 (failing input): with 5 players, singles, `numCourts = 3` and one
round, `selectActivePlayers` marks every player active (pool ≤ 2·numCourts
slots) and reports no sit-outs, but `assignSinglesCourts` only fills
⌊5/2⌋ = 2 courts — player `e` appears on no court *and* not in the round's
`sitOuts` list, contradicting the claim that leftover active players are
routed into `sitOuts`. -/
theorem c3_leftover_player_dropped :
    (generateSinglesRounds
        [⟨"a", "a", "male"⟩, ⟨"b", "b", "male"⟩, ⟨"c", "c", "male"⟩,
          ⟨"d", "d", "male"⟩, ⟨"e", "e", "male"⟩] 1 3 ⟨fun _ => 0, 0⟩).map
        (fun round => (round.courts.map (fun c => c.players.map Player.id),
          round.sitOuts.map Player.id)) =
      [([["c", "d"], ["a", "b"]], [])] := by
  decide

-- ─── Permutation lemmas for the randomized primitives ────────────────

/-- Reinserting an element read at a position, with another value written
there, permutes a cons. -/
theorem cons_set_perm {α : Type} :
    ∀ (xs : List α) (m : Nat) (b x : α), xs.get? m = some b →
      (b :: xs.set m x).Perm (x :: xs) := by
  intro xs
  induction xs with
  | nil => intro m b x h; simp at h
  | cons y t ih =>
    intro m b x h
    cases m with
    | zero =>
      simp only [List.get?_cons_zero, Option.some.injEq] at h
      subst h
      simp only [List.set_cons_zero]
      exact List.Perm.swap x y t
    | succ k =>
      simp only [List.get?_cons_succ] at h
      have h1 : b :: (y :: t).set (k + 1) x = b :: y :: t.set k x := by simp
      rw [h1]
      exact (List.Perm.swap y b (t.set k x)).trans
        (((ih k b x h).cons y).trans (List.Perm.swap x y t))

/-- The two-write swap `(l.set i b).set j a` with `a = l[i]`, `b = l[j]` is a
permutation of `l`. -/
theorem set_set_perm {α : Type} :
    ∀ (l : List α) (i j : Nat) (a b : α), l.get? i = some a → l.get? j = some b →
      ((l.set i b).set j a).Perm l := by
  intro l
  induction l with
  | nil => intro i j a b h; simp at h
  | cons x xs ih =>
    intro i j a b hi hj
    cases i with
    | zero =>
      simp only [List.get?_cons_zero, Option.some.injEq] at hi
      subst hi
      cases j with
      | zero => simp
      | succ k =>
        simp only [List.get?_cons_succ] at hj
        simp only [List.set_cons_zero, List.set_cons_succ]
        exact cons_set_perm xs k b x hj
    | succ m =>
      simp only [List.get?_cons_succ] at hi
      cases j with
      | zero =>
        simp only [List.get?_cons_zero, Option.some.injEq] at hj
        subst hj
        simp only [List.set_cons_succ, List.set_cons_zero]
        exact cons_set_perm xs m a x hi
      | succ k =>
        simp only [List.get?_cons_succ] at hj
        simp only [List.set_cons_succ]
        exact (ih m k a b hi hj).cons x

/-- `listSwap` permutes the list. -/
theorem listSwap_perm {α : Type} (l : List α) (i j : Nat) :
    (listSwap l i j).Perm l := by
  unfold listSwap
  cases hi : l.get? i with
  | none => exact List.Perm.refl l
  | some a =>
    cases hj : l.get? j with
    | none => exact List.Perm.refl l
    | some b => exact set_set_perm l i j a b hi hj

/-- `fyAux` permutes the array. -/
theorem fyAux_perm {α : Type} :
    ∀ (i : Nat) (arr : List α) (r : RNG), (fyAux i arr r).1.Perm arr := by
  intro i
  induction i with
  | zero => intro arr r; exact List.Perm.refl arr
  | succ n ih =>
    intro arr r
    exact (ih _ _).trans (listSwap_perm arr (n + 1) _)

/-- `fisherYatesShuffle` permutes the array. -/
theorem fisherYatesShuffle_perm {α : Type} (array : List α) (r : RNG) :
    (fisherYatesShuffle array r).1.Perm array :=
  fyAux_perm _ array r

/-- Unfolding of `insertRand` on a cons, with the pair destructurings
eta-expanded into projections. -/
theorem insertRand_cons {α : Type} (key : α → Nat) (x y : α) (ys : List α) (r : RNG) :
    insertRand key x (y :: ys) r =
      if key x < key y then (x :: y :: ys, r)
      else if key x = key y then
        (if (randBool r).1 then (x :: y :: ys, (randBool r).2)
         else (y :: (insertRand key x ys (randBool r).2).1,
           (insertRand key x ys (randBool r).2).2))
      else (y :: (insertRand key x ys r).1, (insertRand key x ys r).2) := rfl

/-- `insertRand` produces a permutation of the element consed on the list. -/
theorem insertRand_perm {α : Type} (key : α → Nat) (x : α) :
    ∀ (l : List α) (r : RNG), (insertRand key x l r).1.Perm (x :: l) := by
  intro l
  induction l with
  | nil => intro r; exact List.Perm.refl _
  | cons y ys ih =>
    intro r
    rw [insertRand_cons]
    by_cases h1 : key x < key y
    · rw [if_pos h1]
    · rw [if_neg h1]
      by_cases h2 : key x = key y
      · rw [if_pos h2]
        by_cases h3 : (randBool r).1 = true
        · simp only [h3, if_true]
          exact List.Perm.refl _
        · simp only [h3, Bool.false_eq_true, if_false]
          exact ((ih _).cons y).trans (List.Perm.swap x y ys)
      · rw [if_neg h2]
        exact ((ih _).cons y).trans (List.Perm.swap x y ys)

/-- `sortRand` permutes its input for every generator. -/
theorem sortRand_perm {α : Type} (key : α → Nat) :
    ∀ (l : List α) (r : RNG), (sortRand key l r).1.Perm l := by
  intro l
  induction l with
  | nil => intro r; exact List.Perm.refl _
  | cons x xs ih =>
    intro r
    show (insertRand key x (sortRand key xs r).1 (sortRand key xs r).2).1.Perm (x :: xs)
    exact (insertRand_perm key x _ _).trans ((ih _).cons x)

-- ─── Descending key sort lemmas ─────────────────────────────────────

/-- `insertDesc` permutes a cons. -/
theorem insertDesc_perm (x : Nat) : ∀ (l : List Nat), (insertDesc x l).Perm (x :: l) := by
  intro l
  induction l with
  | nil => exact List.Perm.refl _
  | cons y ys ih =>
    unfold insertDesc
    by_cases h : y < x
    · rw [if_pos h]
    · rw [if_neg h]
      exact (ih.cons y).trans (List.Perm.swap x y ys)

/-- `sortDescNat` permutes its input. -/
theorem sortDescNat_perm : ∀ (l : List Nat), (sortDescNat l).Perm l := by
  intro l
  induction l with
  | nil => exact List.Perm.refl _
  | cons x xs ih => exact (insertDesc_perm x _).trans (ih.cons x)

/-- `insertDesc` preserves descending sortedness. -/
theorem insertDesc_sorted (x : Nat) :
    ∀ (l : List Nat), l.Pairwise (fun a b => b ≤ a) →
      (insertDesc x l).Pairwise (fun a b => b ≤ a) := by
  intro l
  induction l with
  | nil => intro _; simp [insertDesc]
  | cons y ys ih =>
    intro h
    unfold insertDesc
    rcases List.pairwise_cons.mp h with ⟨hy, hys⟩
    by_cases hlt : y < x
    · rw [if_pos hlt]
      refine List.pairwise_cons.mpr ⟨?_, h⟩
      intro b hb
      rcases List.mem_cons.mp hb with hb | hb
      · omega
      · have := hy b hb; omega
    · rw [if_neg hlt]
      refine List.pairwise_cons.mpr ⟨?_, ih hys⟩
      intro b hb
      have hb' : b ∈ x :: ys := (insertDesc_perm x ys).mem_iff.mp hb
      rcases List.mem_cons.mp hb' with hb' | hb'
      · subst hb'; omega
      · exact hy b hb'

/-- `sortDescNat` sorts descending. -/
theorem sortDescNat_sorted : ∀ (l : List Nat),
    (sortDescNat l).Pairwise (fun a b => b ≤ a) := by
  intro l
  induction l with
  | nil => simp [sortDescNat]
  | cons x xs ih => exact insertDesc_sorted x _ ih

/-- A descending-sorted duplicate-free list is strictly descending. -/
theorem sortDescNat_strict (l : List Nat) (h : (sortDescNat l).Nodup) :
    (sortDescNat l).Pairwise (fun a b => b < a) := by
  have hs := sortDescNat_sorted l
  have := List.Pairwise.and hs h
  exact this.imp (fun hab => by omega)

-- ─── Grouping by sit-out count: a partition of the pool ──────────────

/-- Filtering by one key value commutes out of the complement filter. -/
theorem filter_key_of_filter_ne {α : Type} (cnt : α → Nat) (l : List α) (c d : Nat)
    (hdc : d ≠ c) :
    (l.filter (fun p => !(decide (cnt p = c)))).filter (fun p => cnt p = d) =
      l.filter (fun p => cnt p = d) := by
  rw [List.filter_filter]
  refine List.filter_congr ?_
  intro a _
  by_cases h : cnt a = d
  · have hnc : ¬ (cnt a = c) := fun hc => hdc (h.symm.trans hc)
    simp [h, hnc, hdc]
  · simp [h]

/-- Grouping a list by key values that cover it and repeat no key is a
partition: the concatenation of the groups permutes the list. -/
theorem join_filters_perm {α : Type} (cnt : α → Nat) :
    ∀ (ks : List Nat) (l : List α), ks.Nodup → (∀ p ∈ l, cnt p ∈ ks) →
      ((ks.map (fun c => l.filter (fun p => cnt p = c))).flatten).Perm l := by
  intro ks
  induction ks with
  | nil =>
    intro l _ hcomp
    cases l with
    | nil => exact List.Perm.refl _
    | cons x xs => exact absurd (hcomp x (List.mem_cons_self x xs)) (List.not_mem_nil _)
  | cons c ks ih =>
    intro l hnd hcomp
    have hnd' : ks.Nodup := (List.nodup_cons.mp hnd).2
    have hcnotin : c ∉ ks := (List.nodup_cons.mp hnd).1
    have hmapeq : ks.map (fun d => l.filter (fun p => cnt p = d)) =
        ks.map (fun d => (l.filter (fun p => !(decide (cnt p = c)))).filter
          (fun p => cnt p = d)) := by
      refine List.map_congr_left ?_
      intro d hd
      have hdc : d ≠ c := fun he => hcnotin (he ▸ hd)
      exact (filter_key_of_filter_ne cnt l c d hdc).symm
    have hIH := ih (l.filter (fun p => !(decide (cnt p = c)))) hnd' ?_
    · simp only [List.map_cons, List.flatten_cons]
      rw [hmapeq]
      exact (List.Perm.append_left _ hIH).trans (List.filter_append_perm _ l)
    · intro p hp
      have hmem := List.mem_filter.mp hp
      have hnotc : ¬ (cnt p = c) := by
        have := hmem.2
        simp at this
        exact this
      have := hcomp p hmem.1
      rcases List.mem_cons.mp this with h | h
      · exact absurd h hnotc
      · exact h

/-- The concatenation of the shuffled groups permutes the concatenation of
the raw groups. -/
theorem shuffleGroups_perm_flatten (players : List Player) (soc : CountMap) :
    ∀ (ks : List Nat) (r : RNG),
      ((shuffleGroups players soc ks r).1).Perm
        ((ks.map (fun c => players.filter
          (fun p => (alGet soc p.id).getD 0 = c))).flatten) := by
  intro ks
  induction ks with
  | nil => intro r; exact List.Perm.refl _
  | cons c ks ih =>
    intro r
    show ((fisherYatesShuffle (players.filter
        (fun p => (alGet soc p.id).getD 0 = c)) r).1 ++
      (shuffleGroups players soc ks (fisherYatesShuffle _ r).2).1).Perm _
    simp only [List.map_cons, List.flatten_cons]
    exact List.Perm.append (fisherYatesShuffle_perm _ r) (ih _)

/-- Every element of a shuffled group carries its group's key and belongs to
the pool. -/
theorem shuffleGroups_mem (players : List Player) (soc : CountMap) :
    ∀ (ks : List Nat) (r : RNG) (p : Player),
      p ∈ (shuffleGroups players soc ks r).1 →
      p ∈ players ∧ (alGet soc p.id).getD 0 ∈ ks := by
  intro ks r p hp
  have hp' := (shuffleGroups_perm_flatten players soc ks r).mem_iff.mp hp
  rcases List.mem_flatten.mp hp' with ⟨g, hg, hpg⟩
  rcases List.mem_map.mp hg with ⟨c, hc, rfl⟩
  have hf := List.mem_filter.mp hpg
  refine ⟨hf.1, ?_⟩
  have := hf.2
  simp only [decide_eq_true_eq] at this
  rw [this]
  exact hc

/-- The shuffled concatenation is sorted by weakly decreasing sit-out count
when the keys are strictly decreasing. -/
theorem shuffleGroups_pairwise (players : List Player) (soc : CountMap) :
    ∀ (ks : List Nat), ks.Pairwise (fun a b => b < a) → ∀ (r : RNG),
      (shuffleGroups players soc ks r).1.Pairwise
        (fun p q => (alGet soc q.id).getD 0 ≤ (alGet soc p.id).getD 0) := by
  intro ks
  induction ks with
  | nil => intro _ r; simp [shuffleGroups]
  | cons c ks ih =>
    intro hks r
    rcases List.pairwise_cons.mp hks with ⟨hc, hks'⟩
    show ((fisherYatesShuffle (players.filter
        (fun p => (alGet soc p.id).getD 0 = c)) r).1 ++
      (shuffleGroups players soc ks (fisherYatesShuffle _ r).2).1).Pairwise _
    rw [List.pairwise_append]
    have hgmem : ∀ p ∈ (fisherYatesShuffle (players.filter
        (fun p => (alGet soc p.id).getD 0 = c)) r).1, (alGet soc p.id).getD 0 = c := by
      intro p hp
      have := (fisherYatesShuffle_perm _ r).mem_iff.mp hp
      have := (List.mem_filter.mp this).2
      simpa using this
    refine ⟨?_, ih hks' _, ?_⟩
    · refine List.pairwise_of_forall_mem_list ?_
      intro a ha b hb
      rw [hgmem a ha, hgmem b hb]
    · intro a ha b hb
      rcases shuffleGroups_mem players soc ks _ b hb with ⟨_, hbk⟩
      have hlt := hc _ hbk
      rw [hgmem a ha]
      omega

/-- The sorted distinct keys used by `selectActivePlayers`. -/
def socKeys (players : List Player) (soc : CountMap) : List Nat :=
  sortDescNat ((players.map (fun p => (alGet soc p.id).getD 0)).dedup)

/-- The shuffled priority ordering used by `selectActivePlayers`. -/
def socOrdered (players : List Player) (soc : CountMap) (r : RNG) : List Player :=
  (shuffleGroups players soc (socKeys players soc) r).1

/-- The priority ordering permutes the pool. -/
theorem socOrdered_perm (players : List Player) (soc : CountMap) (r : RNG) :
    (socOrdered players soc r).Perm players := by
  refine (shuffleGroups_perm_flatten players soc _ r).trans ?_
  refine join_filters_perm _ _ players ?_ ?_
  · exact (sortDescNat_perm _).nodup_iff.mpr (List.nodup_dedup _)
  · intro p hp
    refine (sortDescNat_perm _).mem_iff.mpr ?_
    refine List.mem_dedup.mpr ?_
    exact List.mem_map.mpr ⟨p, hp, rfl⟩

/-- The priority ordering is sorted by weakly decreasing sit-out count. -/
theorem socOrdered_pairwise (players : List Player) (soc : CountMap) (r : RNG) :
    (socOrdered players soc r).Pairwise
      (fun p q => (alGet soc q.id).getD 0 ≤ (alGet soc p.id).getD 0) := by
  refine shuffleGroups_pairwise players soc _ ?_ r
  refine sortDescNat_strict _ ?_
  exact (sortDescNat_perm _).nodup_iff.mpr (List.nodup_dedup _)

/-- Unfolding of `selectActivePlayers` in the selective case. -/
theorem selectActivePlayers_eq (players : List Player) (needed : Nat)
    (soc : CountMap) (r : RNG) (h : ¬ players.length ≤ needed) :
    selectActivePlayers players needed soc r =
      (((socOrdered players soc r).take needed,
        players.filter (fun p => ¬ p.id ∈ ((socOrdered players soc r).take needed).map Player.id)),
        (players.filter (fun p =>
            ¬ p.id ∈ ((socOrdered players soc r).take needed).map Player.id)).foldl
          (fun m p => alSet m p.id ((alGet m p.id).getD 0 + 1)) soc,
        (shuffleGroups players soc (socKeys players soc) r).2) := by
  unfold selectActivePlayers socOrdered socKeys
  rw [if_neg h]

/-- Reading the sit-out counters after the per-sit-out increments: each
player gains the number of times their id occurs among the sit-outs. -/
theorem foldIncr_read :
    ∀ (l : List Player) (m : CountMap) (x : String),
      (alGet (l.foldl (fun m p => alSet m p.id ((alGet m p.id).getD 0 + 1)) m) x).getD 0 =
        (alGet m x).getD 0 + (l.map Player.id).count x := by
  intro l
  induction l with
  | nil => intro m x; simp
  | cons p l ih =>
    intro m x
    rw [List.foldl_cons, ih]
    by_cases h : x = p.id
    · rw [h, alGet_alSet_self]
      simp only [Option.getD_some, List.map_cons, List.count_cons]
      simp [h]
      omega
    · rw [alGet_alSet_ne _ _ _ _ h]
      simp only [List.map_cons, List.count_cons]
      have : ¬ (p.id = x) := fun he => h he.symm
      simp [this]

/-- Sit-out-count spread bound over a pool: every count is at most one above
every other. -/
def SpreadOK (pool : List Player) (m : CountMap) : Prop :=
  ∀ p ∈ pool, ∀ q ∈ pool, (alGet m p.id).getD 0 ≤ (alGet m q.id).getD 0 + 1

/-- `selectActivePlayers` keeps the spread bound on its pool (its selection
prioritises the players who have sat out most). -/
theorem selectActivePlayers_spreadOK (pool : List Player) (needed : Nat)
    (soc : CountMap) (r : RNG) (hnd : (pool.map Player.id).Nodup)
    (h : SpreadOK pool soc) :
    SpreadOK pool (selectActivePlayers pool needed soc r).2.1 := by
  by_cases hle : pool.length ≤ needed
  · unfold selectActivePlayers
    rw [if_pos hle]
    exact h
  · rw [selectActivePlayers_eq pool needed soc r hle]
    intro p hp q hq
    simp only [foldIncr_read]
    have hcount_le : ∀ x : String,
        ((pool.filter (fun p => ¬ p.id ∈
          ((socOrdered pool soc r).take needed).map Player.id)).map Player.id).count x ≤ 1 := by
      intro x
      have hsub : ((pool.filter (fun p => ¬ p.id ∈
          ((socOrdered pool soc r).take needed).map Player.id)).map Player.id).Sublist
          (pool.map Player.id) := (List.filter_sublist pool).map Player.id
      exact le_trans (hsub.count_le x) (List.nodup_iff_count_le_one.mp hnd x)
    have hmem_sit : ∀ z ∈ pool, ¬ z.id ∈ ((socOrdered pool soc r).take needed).map Player.id →
        z ∈ pool.filter (fun p => ¬ p.id ∈
          ((socOrdered pool soc r).take needed).map Player.id) := by
      intro z hz hnz
      refine List.mem_filter.mpr ⟨hz, ?_⟩
      simpa using hnz
    have hsit_not_active : ∀ x : String,
        x ∈ ((pool.filter (fun p => ¬ p.id ∈
          ((socOrdered pool soc r).take needed).map Player.id)).map Player.id) →
        ¬ x ∈ ((socOrdered pool soc r).take needed).map Player.id := by
      intro x hx
      rcases List.mem_map.mp hx with ⟨s, hs, rfl⟩
      have := (List.mem_filter.mp hs).2
      simpa using this
    have hdrop : ∀ z ∈ pool, ¬ z.id ∈ ((socOrdered pool soc r).take needed).map Player.id →
        z ∈ (socOrdered pool soc r).drop needed := by
      intro z hz hnz
      have hzord : z ∈ socOrdered pool soc r := (socOrdered_perm pool soc r).mem_iff.mpr hz
      rw [← List.take_append_drop needed (socOrdered pool soc r)] at hzord
      rcases List.mem_append.mp hzord with hzt | hzd
      · exact absurd (List.mem_map.mpr ⟨z, hzt, rfl⟩) hnz
      · exact hzd
    have hpriority : ∀ a ∈ (socOrdered pool soc r).take needed,
        ∀ b ∈ (socOrdered pool soc r).drop needed,
        (alGet soc b.id).getD 0 ≤ (alGet soc a.id).getD 0 := by
      intro a ha b hb
      exact (socOrdered_pairwise pool soc r).rel_of_mem_take_of_mem_drop ha hb
    by_cases hpa : p.id ∈ ((socOrdered pool soc r).take needed).map Player.id
    · -- p active: its count does not change
      have hc0 : ((pool.filter (fun p => ¬ p.id ∈
          ((socOrdered pool soc r).take needed).map Player.id)).map Player.id).count p.id = 0 := by
        by_contra hne
        have hpos : 0 < ((pool.filter (fun p => ¬ p.id ∈
          ((socOrdered pool soc r).take needed).map Player.id)).map Player.id).count p.id := by
          omega
        exact hsit_not_active p.id (List.count_pos_iff.mp hpos) hpa
      rw [hc0]
      have := h p hp q hq
      have := hcount_le q.id
      omega
    · -- p sits out: +1, and p ranks below every active player
      have hpsit := hmem_sit p hp hpa
      have hc1 : ((pool.filter (fun p => ¬ p.id ∈
          ((socOrdered pool soc r).take needed).map Player.id)).map Player.id).count p.id = 1 := by
        have hge : 0 < ((pool.filter (fun p => ¬ p.id ∈
          ((socOrdered pool soc r).take needed).map Player.id)).map Player.id).count p.id :=
          List.count_pos_iff.mpr (List.mem_map.mpr ⟨p, hpsit, rfl⟩)
        have := hcount_le p.id
        omega
      rw [hc1]
      by_cases hqa : q.id ∈ ((socOrdered pool soc r).take needed).map Player.id
      · -- q active: need strict priority
        rcases List.mem_map.mp hqa with ⟨a, hat, haq⟩
        have hpd := hdrop p hp hpa
        have := hpriority a hat p hpd
        rw [haq] at this
        have hq0 : ((pool.filter (fun p => ¬ p.id ∈
            ((socOrdered pool soc r).take needed).map Player.id)).map Player.id).count q.id = 0 := by
          by_contra hne
          have hpos : 0 < ((pool.filter (fun p => ¬ p.id ∈
            ((socOrdered pool soc r).take needed).map Player.id)).map Player.id).count q.id := by
            omega
          exact hsit_not_active q.id (List.count_pos_iff.mp hpos) hqa
        rw [hq0]
        omega
      · have hqsit := hmem_sit q hq hqa
        have hq1 : ((pool.filter (fun p => ¬ p.id ∈
            ((socOrdered pool soc r).take needed).map Player.id)).map Player.id).count q.id = 1 := by
          have hge : 0 < ((pool.filter (fun p => ¬ p.id ∈
            ((socOrdered pool soc r).take needed).map Player.id)).map Player.id).count q.id :=
            List.count_pos_iff.mpr (List.mem_map.mpr ⟨q, hqsit, rfl⟩)
          have := hcount_le q.id
          omega
        rw [hq1]
        have := h p hp q hq
        omega

/-- `selectActivePlayers` leaves the counters of ids outside its pool
unchanged. -/
theorem selectActivePlayers_other_read (pool : List Player) (needed : Nat)
    (soc : CountMap) (r : RNG) (x : String) (hx : ¬ x ∈ pool.map Player.id) :
    (alGet ((selectActivePlayers pool needed soc r).2.1) x).getD 0 =
      (alGet soc x).getD 0 := by
  by_cases hle : pool.length ≤ needed
  · unfold selectActivePlayers
    rw [if_pos hle]
  · rw [selectActivePlayers_eq pool needed soc r hle]
    rw [foldIncr_read]
    have hc0 : ((pool.filter (fun p => ¬ p.id ∈
        ((socOrdered pool soc r).take needed).map Player.id)).map Player.id).count x = 0 := by
      by_contra hne
      have hpos : 0 < ((pool.filter (fun p => ¬ p.id ∈
        ((socOrdered pool soc r).take needed).map Player.id)).map Player.id).count x := by omega
      have := List.count_pos_iff.mp hpos
      rcases List.mem_map.mp this with ⟨s, hs, rfl⟩
      exact hx (List.mem_map.mpr ⟨s, (List.mem_filter.mp hs).1, rfl⟩)
    rw [hc0]
    omega

/-- Largest sit-out count over a pool (0 for an empty pool). -/
def maxSitOut (pool : List Player) (m : CountMap) : Nat :=
  (pool.map (fun p => (alGet m p.id).getD 0)).foldr max 0

/-- Smallest sit-out count over a pool (0 for an empty pool). -/
def minSitOut (pool : List Player) (m : CountMap) : Nat :=
  match pool.map (fun p => (alGet m p.id).getD 0) with
  | [] => 0
  | c :: cs => cs.foldr min c

/-- A fold of `max` over a bounded list is bounded. -/
theorem foldr_max_le (B : Nat) : ∀ (l : List Nat), (∀ x ∈ l, x ≤ B) →
    l.foldr max 0 ≤ B := by
  intro l
  induction l with
  | nil => intro _; exact Nat.zero_le B
  | cons x xs ih =>
    intro h
    simp only [List.foldr_cons]
    exact max_le (h x (List.mem_cons_self x xs)) (ih fun y hy => h y (List.mem_cons.mpr (Or.inr hy)))

/-- A fold of `min` over a nonempty list is one of its elements. -/
theorem foldr_min_mem (c : Nat) : ∀ (cs : List Nat), cs.foldr min c ∈ c :: cs := by
  intro cs
  induction cs with
  | nil => exact List.mem_cons_self c []
  | cons d ds ih =>
    simp only [List.foldr_cons]
    rcases min_choice d (ds.foldr min c) with h | h
    · rw [h]; simp
    · rw [h]
      rcases List.mem_cons.mp ih with h' | h'
      · rw [h']; simp
      · simp [h']

/-- The spread bound gives `max ≤ min + 1` over the pool. -/
theorem spread_max_min (pool : List Player) (m : CountMap) (h : SpreadOK pool m) :
    maxSitOut pool m ≤ minSitOut pool m + 1 := by
  unfold maxSitOut minSitOut
  cases hm : pool.map (fun p => (alGet m p.id).getD 0) with
  | nil => simp
  | cons c cs =>
    have hmin_mem : cs.foldr min c ∈ pool.map (fun p => (alGet m p.id).getD 0) := by
      rw [hm]; exact foldr_min_mem c cs
    rcases List.mem_map.mp hmin_mem with ⟨q, hq, hqe⟩
    show (c :: cs).foldr max 0 ≤ cs.foldr min c + 1
    refine foldr_max_le _ (c :: cs) ?_
    intro x hx
    have hx' : x ∈ pool.map (fun p => (alGet m p.id).getD 0) := by
      rw [hm]; exact hx
    rcases List.mem_map.mp hx' with ⟨p, hp, hpe⟩
    rw [← hqe, ← hpe]
    exact h p hp q hq

/-- All initial sit-out counters read zero. -/
theorem createFairnessState_soc_zero (players : List Player) (x : String) :
    (alGet (createFairnessState players).sitOutCounts x).getD 0 = 0 := by
  show (alGet (players.foldl (fun m p => alSet m p.id 0) []) x).getD 0 = 0
  have : ∀ (l : List Player) (m : CountMap), (∀ y, (alGet m y).getD 0 = 0) →
      (∀ y, (alGet (l.foldl (fun m p => alSet m p.id 0) m) y).getD 0 = 0) := by
    intro l
    induction l with
    | nil => intro m h y; exact h y
    | cons p l ih =>
      intro m h y
      rw [List.foldl_cons]
      refine ih _ ?_ y
      intro z
      by_cases hz : z = p.id
      · rw [hz, alGet_alSet_self]
        rfl
      · rw [alGet_alSet_ne _ _ _ _ hz]; exact h z
  exact this players [] (fun y => by simp [alGet]) x

/-- The initial state satisfies the spread bound on any pool. -/
theorem spreadOK_initial (pool players : List Player) :
    SpreadOK pool (createFairnessState players).sitOutCounts := by
  intro p _ q _
  rw [createFairnessState_soc_zero, createFairnessState_soc_zero]
  omega

/-- Spread carries over to a map with the same reads on the pool. -/
theorem spreadOK_congr (pool : List Player) (m m' : CountMap)
    (h : ∀ p ∈ pool, (alGet m' p.id).getD 0 = (alGet m p.id).getD 0)
    (hs : SpreadOK pool m) : SpreadOK pool m' := by
  intro p hp q hq
  rw [h p hp, h q hq]
  exact hs p hp q hq

/-- Sit-out counters after one singles round. -/
theorem singlesStep_soc (players : List Player) (numCourts r : Nat)
    (f : Fair) (rng : RNG) :
    (singlesStep players numCourts r f rng).2.1.sitOutCounts =
      (selectActivePlayers players (numCourts * 2) f.sitOutCounts rng).2.1 := by
  simp only [singlesStep]

/-- Sit-out counters after one doubles round. -/
theorem doublesStep_soc (players : List Player) (numCourts r : Nat)
    (f : Fair) (rng : RNG) :
    (doublesStep players numCourts r f rng).2.1.sitOutCounts =
      (selectActivePlayers players (numCourts * 4) f.sitOutCounts rng).2.1 := by
  simp only [doublesStep]

/-- Sit-out counters after one mixed round: the two per-gender selections
applied in sequence to the shared map. -/
theorem mixedStep_soc (males females : List Player) (maxCourts r : Nat)
    (f : Fair) (rng : RNG) :
    (mixedStep males females maxCourts r f rng).2.1.sitOutCounts =
      (selectActivePlayers females (maxCourts * 2)
        (selectActivePlayers males (maxCourts * 2) f.sitOutCounts rng).2.1
        (selectActivePlayers males (maxCourts * 2) f.sitOutCounts rng).2.2).2.1 := by
  simp only [mixedStep]

/-- The spread bound holds after every singles round. -/
theorem singlesRoundsAux_spread (players : List Player) (numCourts : Nat)
    (hnd : (players.map Player.id).Nodup) :
    ∀ (fuel r0 : Nat) (f : Fair) (rng : RNG), SpreadOK players f.sitOutCounts →
      SpreadOK players (singlesRoundsAux players numCourts r0 fuel f rng).2.1.sitOutCounts := by
  intro fuel
  induction fuel with
  | zero => intro r0 f rng h; exact h
  | succ n ih =>
    intro r0 f rng h
    rw [singlesRoundsAux_succ]
    refine ih _ _ _ ?_
    rw [singlesStep_soc]
    exact selectActivePlayers_spreadOK players _ _ _ hnd h

/-- The spread bound holds after every doubles round. -/
theorem doublesRoundsAux_spread (players : List Player) (numCourts : Nat)
    (hnd : (players.map Player.id).Nodup) :
    ∀ (fuel r0 : Nat) (f : Fair) (rng : RNG), SpreadOK players f.sitOutCounts →
      SpreadOK players (doublesRoundsAux players numCourts r0 fuel f rng).2.1.sitOutCounts := by
  intro fuel
  induction fuel with
  | zero => intro r0 f rng h; exact h
  | succ n ih =>
    intro r0 f rng h
    rw [doublesRoundsAux_succ]
    refine ih _ _ _ ?_
    rw [doublesStep_soc]
    exact selectActivePlayers_spreadOK players _ _ _ hnd h

/-- The per-gender spread bounds hold after every mixed round (the two
selections run on disjoint id pools sharing one counter map). -/
theorem mixedRoundsAux_spread (males females : List Player) (maxCourts : Nat)
    (hndM : (males.map Player.id).Nodup) (hndF : (females.map Player.id).Nodup)
    (hdisj : ∀ x ∈ males.map Player.id, ¬ x ∈ females.map Player.id) :
    ∀ (fuel r0 : Nat) (f : Fair) (rng : RNG),
      SpreadOK males f.sitOutCounts → SpreadOK females f.sitOutCounts →
      SpreadOK males (mixedRoundsAux males females maxCourts r0 fuel f rng).2.1.sitOutCounts ∧
        SpreadOK females (mixedRoundsAux males females maxCourts r0 fuel f rng).2.1.sitOutCounts := by
  intro fuel
  induction fuel with
  | zero => intro r0 f rng hm hf; exact ⟨hm, hf⟩
  | succ n ih =>
    intro r0 f rng hm hf
    rw [mixedRoundsAux_succ]
    refine ih _ _ _ ?_ ?_
    · -- males: male selection keeps the bound, female selection does not touch male ids
      rw [mixedStep_soc]
      refine spreadOK_congr males
        ((selectActivePlayers males (maxCourts * 2) f.sitOutCounts rng).2.1) _ ?_
        (selectActivePlayers_spreadOK males (maxCourts * 2) f.sitOutCounts rng hndM hm)
      intro p hp
      refine selectActivePlayers_other_read females (maxCourts * 2)
        (selectActivePlayers males (maxCourts * 2) f.sitOutCounts rng).2.1
        (selectActivePlayers males (maxCourts * 2) f.sitOutCounts rng).2.2 p.id ?_
      intro hmem
      exact hdisj p.id (List.mem_map.mpr ⟨p, hp, rfl⟩) hmem
    · -- females: male selection does not touch female ids, then female selection keeps the bound
      rw [mixedStep_soc]
      refine selectActivePlayers_spreadOK females (maxCourts * 2)
        ((selectActivePlayers males (maxCourts * 2) f.sitOutCounts rng).2.1)
        ((selectActivePlayers males (maxCourts * 2) f.sitOutCounts rng).2.2) hndF ?_
      refine spreadOK_congr females f.sitOutCounts _ ?_ hf
      intro p hp
      refine selectActivePlayers_other_read males (maxCourts * 2) f.sitOutCounts rng p.id ?_
      intro hmem
      exact hdisj p.id hmem (List.mem_map.mpr ⟨p, hp, rfl⟩)

/-- Distinct pool ids make the male and female id sets disjoint. -/
theorem filter_gender_disjoint (players : List Player)
    (hnd : (players.map Player.id).Nodup) :
    ∀ x ∈ (players.filter (fun p => p.gender = "male")).map Player.id,
      ¬ x ∈ (players.filter (fun p => p.gender = "female")).map Player.id := by
  intro x hx hx'
  rcases List.mem_map.mp hx with ⟨p, hp, rfl⟩
  rcases List.mem_map.mp hx' with ⟨q, hq, hqe⟩
  have hp' := List.mem_filter.mp hp
  have hq' := List.mem_filter.mp hq
  have hpq : q = p := List.inj_on_of_nodup_map hnd hq'.1 hp'.1 hqe
  have hgm : p.gender = "male" := by simpa using hp'.2
  have hgf : q.gender = "female" := by simpa using hq'.2
  rw [hpq, hgm] at hgf
  simp at hgf

/-- A 3-male, 2-female pool used to exercise the mixed-doubles generator. -/
def c1Pool : List Player :=
  [⟨"m1", "M1", "male"⟩, ⟨"m2", "M2", "male"⟩, ⟨"m3", "M3", "male"⟩,
   ⟨"f1", "F1", "female"⟩, ⟨"f2", "F2", "female"⟩]

set_option maxRecDepth 40000 in
/-- C1 (counterexample): with 3 males, 2 females, one court and four mixed
rounds under the zero generator, the sit-out counters over the whole pool
read `[2, 1, 1, 0, 0]`: the spread is 2, so the claimed whole-pool bound
`max − min ≤ 1` fails in mixed-doubles mode. Per gender the selection is
fair, but the 3-male pool accumulates sit-outs the 2-female pool never
takes. -/
theorem c1_mixed_pool_spread_two :
    maxSitOut c1Pool
        (mixedRoundsAux (c1Pool.filter (fun p => p.gender = "male"))
          (c1Pool.filter (fun p => p.gender = "female")) 1 0 4
          (createFairnessState c1Pool) ⟨fun _ => 0, 0⟩).2.1.sitOutCounts = 2 ∧
    minSitOut c1Pool
        (mixedRoundsAux (c1Pool.filter (fun p => p.gender = "male"))
          (c1Pool.filter (fun p => p.gender = "female")) 1 0 4
          (createFairnessState c1Pool) ⟨fun _ => 0, 0⟩).2.1.sitOutCounts = 0 ∧
    ¬ (maxSitOut c1Pool
        (mixedRoundsAux (c1Pool.filter (fun p => p.gender = "male"))
          (c1Pool.filter (fun p => p.gender = "female")) 1 0 4
          (createFairnessState c1Pool) ⟨fun _ => 0, 0⟩).2.1.sitOutCounts ≤
      minSitOut c1Pool
        (mixedRoundsAux (c1Pool.filter (fun p => p.gender = "male"))
          (c1Pool.filter (fun p => p.gender = "female")) 1 0 4
          (createFairnessState c1Pool) ⟨fun _ => 0, 0⟩).2.1.sitOutCounts + 1) := by
  decide

/-- C1 (amended): after any number of rounds of any generator, the sit-out
counters satisfy `max − min ≤ 1` over the selection pool: over the whole
player pool in singles and random-doubles modes, and over each gender pool
separately in mixed-doubles mode (where the whole-pool bound can fail, see
the counterexample). Requires distinct player ids. -/
theorem c1_sitout_spread (players : List Player) (numCourts fuel r0 : Nat)
    (rng : RNG) (hnd : (players.map Player.id).Nodup) :
    maxSitOut players
        (singlesRoundsAux players numCourts r0 fuel
          (createFairnessState players) rng).2.1.sitOutCounts ≤
      minSitOut players
        (singlesRoundsAux players numCourts r0 fuel
          (createFairnessState players) rng).2.1.sitOutCounts + 1 ∧
    maxSitOut players
        (doublesRoundsAux players numCourts r0 fuel
          (createFairnessState players) rng).2.1.sitOutCounts ≤
      minSitOut players
        (doublesRoundsAux players numCourts r0 fuel
          (createFairnessState players) rng).2.1.sitOutCounts + 1 ∧
    maxSitOut (players.filter (fun p => p.gender = "male"))
        (mixedRoundsAux (players.filter (fun p => p.gender = "male"))
          (players.filter (fun p => p.gender = "female")) numCourts r0 fuel
          (createFairnessState players) rng).2.1.sitOutCounts ≤
      minSitOut (players.filter (fun p => p.gender = "male"))
        (mixedRoundsAux (players.filter (fun p => p.gender = "male"))
          (players.filter (fun p => p.gender = "female")) numCourts r0 fuel
          (createFairnessState players) rng).2.1.sitOutCounts + 1 ∧
    maxSitOut (players.filter (fun p => p.gender = "female"))
        (mixedRoundsAux (players.filter (fun p => p.gender = "male"))
          (players.filter (fun p => p.gender = "female")) numCourts r0 fuel
          (createFairnessState players) rng).2.1.sitOutCounts ≤
      minSitOut (players.filter (fun p => p.gender = "female"))
        (mixedRoundsAux (players.filter (fun p => p.gender = "male"))
          (players.filter (fun p => p.gender = "female")) numCourts r0 fuel
          (createFairnessState players) rng).2.1.sitOutCounts + 1 := by
  have hndM : ((players.filter (fun p => p.gender = "male")).map Player.id).Nodup :=
    List.Nodup.sublist ((List.filter_sublist players).map Player.id) hnd
  have hndF : ((players.filter (fun p => p.gender = "female")).map Player.id).Nodup :=
    List.Nodup.sublist ((List.filter_sublist players).map Player.id) hnd
  have hS := singlesRoundsAux_spread players numCourts hnd fuel r0
    (createFairnessState players) rng (spreadOK_initial players players)
  have hD := doublesRoundsAux_spread players numCourts hnd fuel r0
    (createFairnessState players) rng (spreadOK_initial players players)
  have hM := mixedRoundsAux_spread (players.filter (fun p => p.gender = "male"))
    (players.filter (fun p => p.gender = "female")) numCourts hndM hndF
    (filter_gender_disjoint players hnd) fuel r0
    (createFairnessState players) rng (spreadOK_initial _ players) (spreadOK_initial _ players)
  exact ⟨spread_max_min _ _ hS, spread_max_min _ _ hD,
    spread_max_min _ _ hM.1, spread_max_min _ _ hM.2⟩

set_option maxRecDepth 40000 in
/-- Concrete instance of the amended C1 bound on the 5-player pool of the
counterexample, one court, two rounds, zero generator. -/
theorem c1_sitout_spread_witness :
    (c1Pool.map Player.id).Nodup ∧
    (maxSitOut c1Pool
        (singlesRoundsAux c1Pool 1 0 2
          (createFairnessState c1Pool) ⟨fun _ => 0, 0⟩).2.1.sitOutCounts ≤
      minSitOut c1Pool
        (singlesRoundsAux c1Pool 1 0 2
          (createFairnessState c1Pool) ⟨fun _ => 0, 0⟩).2.1.sitOutCounts + 1 ∧
    maxSitOut c1Pool
        (doublesRoundsAux c1Pool 1 0 2
          (createFairnessState c1Pool) ⟨fun _ => 0, 0⟩).2.1.sitOutCounts ≤
      minSitOut c1Pool
        (doublesRoundsAux c1Pool 1 0 2
          (createFairnessState c1Pool) ⟨fun _ => 0, 0⟩).2.1.sitOutCounts + 1 ∧
    maxSitOut (c1Pool.filter (fun p => p.gender = "male"))
        (mixedRoundsAux (c1Pool.filter (fun p => p.gender = "male"))
          (c1Pool.filter (fun p => p.gender = "female")) 1 0 2
          (createFairnessState c1Pool) ⟨fun _ => 0, 0⟩).2.1.sitOutCounts ≤
      minSitOut (c1Pool.filter (fun p => p.gender = "male"))
        (mixedRoundsAux (c1Pool.filter (fun p => p.gender = "male"))
          (c1Pool.filter (fun p => p.gender = "female")) 1 0 2
          (createFairnessState c1Pool) ⟨fun _ => 0, 0⟩).2.1.sitOutCounts + 1 ∧
    maxSitOut (c1Pool.filter (fun p => p.gender = "female"))
        (mixedRoundsAux (c1Pool.filter (fun p => p.gender = "male"))
          (c1Pool.filter (fun p => p.gender = "female")) 1 0 2
          (createFairnessState c1Pool) ⟨fun _ => 0, 0⟩).2.1.sitOutCounts ≤
      minSitOut (c1Pool.filter (fun p => p.gender = "female"))
        (mixedRoundsAux (c1Pool.filter (fun p => p.gender = "male"))
          (c1Pool.filter (fun p => p.gender = "female")) 1 0 2
          (createFairnessState c1Pool) ⟨fun _ => 0, 0⟩).2.1.sitOutCounts + 1) :=
  ⟨by decide, c1_sitout_spread c1Pool 1 2 0 ⟨fun _ => 0, 0⟩ (by decide)⟩

-- ─── Membership utilities ────────────────────────────────────────────

/-- An in-range `getD` read is an element of the list. -/
theorem getD_mem {α : Type} [Inhabited α] :
    ∀ (l : List α) (i : Nat), i < l.length → l.getD i default ∈ l
  | [], _, h => absurd h (by simp)
  | x :: xs, 0, _ => List.mem_cons_self x xs
  | _ :: xs, i + 1, h =>
    List.mem_cons.mpr (Or.inr (getD_mem xs i (Nat.lt_of_succ_lt_succ h)))

/-- Sorting with random tie-break preserves membership. -/
theorem sortRand_mem {α : Type} (key : α → Nat) (l : List α) (r : RNG)
    (x : α) (hx : x ∈ (sortRand key l r).1) : x ∈ l :=
  (sortRand_perm key l r).mem_iff.mp hx

/-- Each split returned by `pickSplits` reassembles to the input list. -/
theorem pickSplits_eq {α : Type} :
    ∀ (l : List α) (t : List α × α × List α), t ∈ pickSplits l →
      t.1 ++ t.2.1 :: t.2.2 = l := by
  intro l
  induction l with
  | nil => intro t ht; simp [pickSplits] at ht
  | cons x xs ih =>
    intro t ht
    rcases List.mem_cons.mp ht with ht | ht
    · rw [ht]
      rfl
    · rcases List.mem_map.mp ht with ⟨u, hu, rfl⟩
      show x :: (u.1 ++ u.2.1 :: u.2.2) = x :: xs
      rw [ih u hu]

/-- `pickSplits` contains the split at every position. -/
theorem pickSplits_complete {α : Type} (y : α) :
    ∀ (pre suf : List α), (pre, y, suf) ∈ pickSplits (pre ++ y :: suf) := by
  intro pre
  induction pre with
  | nil => intro suf; exact List.mem_cons_self _ _
  | cons x xs ih =>
    intro suf
    show (x :: xs, y, suf) ∈
      ([], x, xs ++ y :: suf) :: (pickSplits (xs ++ y :: suf)).map
        (fun t => (x :: t.1, t.2.1, t.2.2))
    exact List.mem_cons.mpr (Or.inr (List.mem_map.mpr ⟨(xs, y, suf), ih suf, rfl⟩))

/-- Every list produced by the fueled permutation recursion permutes its
input. -/
theorem permutationsAux_perm {α : Type} :
    ∀ (fuel : Nat) (arr p : List α), p ∈ permutationsAux fuel arr → p.Perm arr := by
  intro fuel
  induction fuel with
  | zero =>
    intro arr p hp
    match arr with
    | [] => simp [permutationsAux] at hp; rw [hp]
    | [x] => simp [permutationsAux] at hp; rw [hp]
    | x :: y :: rest => simp [permutationsAux] at hp
  | succ n ih =>
    intro arr p hp
    match arr with
    | [] => simp [permutationsAux] at hp; rw [hp]
    | [x] => simp [permutationsAux] at hp; rw [hp]
    | x :: y :: rest =>
      rw [show permutationsAux (n + 1) (x :: y :: rest) =
          (pickSplits (x :: y :: rest)).flatMap
            (fun t => (permutationsAux n (t.1 ++ t.2.2)).map
              (fun p => t.2.1 :: p)) from rfl] at hp
      rcases List.mem_flatMap.mp hp with ⟨t, ht, hpt⟩
      rcases List.mem_map.mp hpt with ⟨q, hq, rfl⟩
      have hqp : q.Perm (t.1 ++ t.2.2) := ih _ q hq
      have hre : t.1 ++ t.2.1 :: t.2.2 = x :: y :: rest := pickSplits_eq _ t ht
      have hperm : (t.2.1 :: q).Perm (t.1 ++ t.2.1 :: t.2.2) :=
        (hqp.cons t.2.1).trans List.perm_middle.symm
      rw [hre] at hperm
      exact hperm

/-- `permutations` returns permutations of its input. -/
theorem permutations_perm {α : Type} (arr p : List α) (hp : p ∈ permutations arr) :
    p.Perm arr :=
  permutationsAux_perm arr.length arr p hp

/-- Every active player selected by `selectActivePlayers` is in the pool. -/
theorem selectActivePlayers_active_mem (pool : List Player) (needed : Nat)
    (soc : CountMap) (r : RNG) (p : Player)
    (hp : p ∈ (selectActivePlayers pool needed soc r).1.1) : p ∈ pool := by
  unfold selectActivePlayers at hp
  by_cases hle : pool.length ≤ needed
  · rw [if_pos hle] at hp; exact hp
  · rw [if_neg hle] at hp
    exact (shuffleGroups_mem pool soc _ _ p (List.take_subset _ _ hp)).1

/-- Index pairs generated for the team pairing stage are in range. -/
theorem idxPairsWithCost_lt (cost : Nat → Nat → Nat) (n : Nat) :
    ∀ tp ∈ idxPairsWithCost cost n, tp.1.1 < n ∧ tp.1.2 < n := by
  intro tp htp
  rcases List.mem_flatMap.mp htp with ⟨i, hi, htp⟩
  rcases List.mem_map.mp htp with ⟨j, hj, rfl⟩
  exact ⟨List.mem_range.mp hi, List.mem_range.mp (List.mem_filter.mp hj).1⟩

/-- Pairs claimed by the Stage B loop come from the candidate list. -/
theorem claimTeamPairs_mem (limit : Nat) :
    ∀ (l : List ((Nat × Nat) × Nat)) (usedT : List Nat) (acc : List (Nat × Nat))
      (ij : Nat × Nat), ij ∈ claimTeamPairs limit l usedT acc →
      ij ∈ acc ∨ ∃ tp ∈ l, ij = tp.1 := by
  intro l
  induction l with
  | nil => intro usedT acc ij h; exact Or.inl h
  | cons tp rest ih =>
    intro usedT acc ij h
    unfold claimTeamPairs at h
    by_cases h1 : limit ≤ acc.length
    · rw [if_pos h1] at h; exact Or.inl h
    · rw [if_neg h1] at h
      by_cases h2 : tp.1.1 ∈ usedT ∨ tp.1.2 ∈ usedT
      · rw [if_pos h2] at h
        rcases ih _ _ _ h with h | ⟨tq, htq, he⟩
        · exact Or.inl h
        · exact Or.inr ⟨tq, List.mem_cons.mpr (Or.inr htq), he⟩
      · rw [if_neg h2] at h
        rcases ih _ _ _ h with h | ⟨tq, htq, he⟩
        · rcases List.mem_append.mp h with h | h
          · exact Or.inl h
          · exact Or.inr ⟨tp, List.mem_cons_self _ _, List.mem_singleton.mp h⟩
        · exact Or.inr ⟨tq, List.mem_cons.mpr (Or.inr htq), he⟩

/-- Pairs claimed by the mixed Stage A loop come from the candidate list. -/
theorem claimMixedPairs_mem (limit : Nat) :
    ∀ (l : List ((Player × Player) × Nat)) (usedM usedF : List String)
      (acc : List (Player × Player)) (t : Player × Player),
      t ∈ claimMixedPairs limit l usedM usedF acc →
      t ∈ acc ∨ ∃ pr ∈ l, t = pr.1 := by
  intro l
  induction l with
  | nil => intro usedM usedF acc t h; exact Or.inl h
  | cons pr rest ih =>
    intro usedM usedF acc t h
    unfold claimMixedPairs at h
    by_cases h1 : limit ≤ acc.length
    · rw [if_pos h1] at h; exact Or.inl h
    · rw [if_neg h1] at h
      by_cases h2 : pr.1.1.id ∈ usedM ∨ pr.1.2.id ∈ usedF
      · rw [if_pos h2] at h
        rcases ih _ _ _ _ h with h | ⟨pq, hpq, he⟩
        · exact Or.inl h
        · exact Or.inr ⟨pq, List.mem_cons.mpr (Or.inr hpq), he⟩
      · rw [if_neg h2] at h
        rcases ih _ _ _ _ h with h | ⟨pq, hpq, he⟩
        · rcases List.mem_append.mp h with h | h
          · exact Or.inl h
          · exact Or.inr ⟨pr, List.mem_cons_self _ _, List.mem_singleton.mp h⟩
        · exact Or.inr ⟨pq, List.mem_cons.mpr (Or.inr hpq), he⟩

/-- Every mixed Stage A candidate pair is a (male pool, female pool) pair. -/
theorem mixedPairsWithCost_mem (partnerCounts : PairCountMap)
    (activeMales activeFemales : List Player) :
    ∀ pr ∈ mixedPairsWithCost partnerCounts activeMales activeFemales,
      pr.1.1 ∈ activeMales ∧ pr.1.2 ∈ activeFemales := by
  intro pr hpr
  rcases List.mem_flatMap.mp hpr with ⟨m, hm, hpr⟩
  rcases List.mem_map.mp hpr with ⟨f, hf, rfl⟩
  exact ⟨hm, hf⟩

-- ─── The exhaustive court-number search ──────────────────────────────

/-- What the search state means: `o` improves on `prev` using the leaves
`ls` — it is `prev` itself or a leaf, it is no worse than `prev`, and it is
no worse than any leaf. -/
def BestOf (cost : List Nat → Nat) (prev : Option (Nat × List Nat))
    (ls : List (List Nat)) (o : Option (Nat × List Nat)) : Prop :=
  (o = none → prev = none ∧ ls = []) ∧
  (∀ c ord, o = some (c, ord) →
    (prev = some (c, ord) ∨ (ord ∈ ls ∧ c = cost ord)) ∧
    (∀ pc po, prev = some (pc, po) → c ≤ pc) ∧
    (∀ l ∈ ls, c ≤ cost l))

/-- A state is best relative to itself and no leaves. -/
theorem bestOf_rfl (cost : List Nat → Nat) (prev : Option (Nat × List Nat)) :
    BestOf cost prev [] prev := by
  refine ⟨fun h => ⟨h, rfl⟩, ?_⟩
  intro c ord h
  refine ⟨Or.inl h, ?_, ?_⟩
  · intro pc po hp
    rw [h] at hp
    injection hp with hp
    injection hp with hc _
    omega
  · intro l hl
    simp at hl

/-- Best states compose along concatenated leaf lists. -/
theorem bestOf_trans (cost : List Nat → Nat) (prev mid o : Option (Nat × List Nat))
    (ls1 ls2 : List (List Nat)) (h1 : BestOf cost prev ls1 mid)
    (h2 : BestOf cost mid ls2 o) : BestOf cost prev (ls1 ++ ls2) o := by
  constructor
  · intro ho
    rcases h2.1 ho with ⟨hm, hl2⟩
    rcases h1.1 hm with ⟨hp, hl1⟩
    rw [hl1, hl2]
    exact ⟨hp, rfl⟩
  · intro c ord ho
    rcases h2.2 c ord ho with ⟨hsrc, hprev2, hls2⟩
    rcases hsrc with hmid | ⟨hmem, hc⟩
    · rcases h1.2 c ord hmid with ⟨hsrc1, hprev1, hls1⟩
      refine ⟨?_, hprev1, ?_⟩
      · rcases hsrc1 with h | ⟨hm, hc⟩
        · exact Or.inl h
        · exact Or.inr ⟨List.mem_append.mpr (Or.inl hm), hc⟩
      · intro l hl
        rcases List.mem_append.mp hl with hl | hl
        · exact hls1 l hl
        · exact hls2 l hl
    · cases hm : mid with
      | none =>
        rcases h1.1 hm with ⟨hp, hl1⟩
        rw [hl1]
        refine ⟨Or.inr ⟨hmem, hc⟩, ?_, ?_⟩
        · intro pc po hpc
          rw [hp] at hpc
          cases hpc
        · intro l hl
          exact hls2 l (by simpa using hl)
      | some b =>
        rcases h1.2 b.1 b.2 (by rw [hm]) with ⟨hsrc1, hprev1, hls1⟩
        have hcb : c ≤ b.1 := hprev2 b.1 b.2 (by rw [hm])
        refine ⟨Or.inr ⟨List.mem_append.mpr (Or.inr hmem), hc⟩, ?_, ?_⟩
        · intro pc po hpc
          exact le_trans hcb (hprev1 pc po hpc)
        · intro l hl
          rcases List.mem_append.mp hl with hl | hl
          · exact le_trans hcb (hls1 l hl)
          · exact hls2 l hl

/-- The leaf update keeps the best-so-far invariant for that one leaf. -/
theorem enumLeaf_bestOf (cost : List Nat → Nat) (leaf : List Nat) (st : EnumSt) :
    BestOf cost st.1 [leaf] (enumLeaf cost leaf st).1 := by
  rcases st with ⟨o, r⟩
  cases o with
  | none =>
    refine ⟨(fun h => nomatch h), ?_⟩
    intro c ord h
    injection h with h
    injection h with hc hord
    subst hc
    subst hord
    refine ⟨Or.inr ⟨List.mem_singleton_self _, rfl⟩, ?_, ?_⟩
    · intro pc po hp; cases hp
    · intro l hl
      rw [List.mem_singleton.mp hl]
  | some b =>
    rcases b with ⟨bc, bo⟩
    show BestOf cost (some (bc, bo)) [leaf]
      (if cost leaf < bc then (some (cost leaf, leaf), r)
       else if cost leaf = bc then
        if (randBool r).1 then (some (cost leaf, leaf), (randBool r).2)
        else (some (bc, bo), (randBool r).2)
       else (some (bc, bo), r)).1
    by_cases h1 : cost leaf < bc
    · rw [if_pos h1]
      refine ⟨(fun h => nomatch h), ?_⟩
      intro c ord h
      injection h with h
      injection h with hc hord
      subst hc
      subst hord
      refine ⟨Or.inr ⟨List.mem_singleton_self _, rfl⟩, ?_, ?_⟩
      · intro pc po hp
        injection hp with hp
        injection hp with hpc _
        omega
      · intro l hl
        rw [List.mem_singleton.mp hl]
    · rw [if_neg h1]
      by_cases h2 : cost leaf = bc
      · rw [if_pos h2]
        by_cases h3 : (randBool r).1 = true
        · rw [if_pos h3]
          refine ⟨(fun h => nomatch h), ?_⟩
          intro c ord h
          injection h with h
          injection h with hc hord
          subst hc
          subst hord
          refine ⟨Or.inr ⟨List.mem_singleton_self _, rfl⟩, ?_, ?_⟩
          · intro pc po hp
            injection hp with hp
            injection hp with hpc _
            omega
          · intro l hl
            rw [List.mem_singleton.mp hl]
        · rw [if_neg h3]
          refine ⟨(fun h => nomatch h), ?_⟩
          intro c ord h
          injection h with h
          injection h with hc hord
          subst hc
          subst hord
          refine ⟨Or.inl rfl, ?_, ?_⟩
          · intro pc po hp
            injection hp with hp
            injection hp with hpc _
            omega
          · intro l hl
            rw [List.mem_singleton.mp hl]
            omega
      · rw [if_neg h2]
        refine ⟨(fun h => nomatch h), ?_⟩
        intro c ord h
        injection h with h
        injection h with hc hord
        subst hc
        subst hord
        refine ⟨Or.inl rfl, ?_, ?_⟩
        · intro pc po hp
          injection hp with hp
          injection hp with hpc _
          omega
        · intro l hl
          rw [List.mem_singleton.mp hl]
          omega

/-- The exhaustive search returns a best state relative to the leaves its
pure mirror `permsAux` lists. -/
theorem enumAux_bestOf (cost : List Nat → Nat) :
    ∀ (fuel : Nat) (rest acc : List Nat) (st : EnumSt),
      BestOf cost st.1 (permsAux fuel acc rest) (enumAux cost fuel acc rest st).1 := by
  intro fuel
  induction fuel with
  | zero =>
    intro rest acc st
    cases rest with
    | nil => exact enumLeaf_bestOf cost acc st
    | cons x xs => exact bestOf_rfl cost st.1
  | succ n ih =>
    intro rest acc st
    cases rest with
    | nil => exact enumLeaf_bestOf cost acc st
    | cons x xs =>
      show BestOf cost st.1
        ((pickSplits (x :: xs)).flatMap
          (fun t => permsAux n (acc ++ [t.2.1]) (t.1 ++ t.2.2)))
        (((pickSplits (x :: xs)).foldl
          (fun s t => enumAux cost n (acc ++ [t.2.1]) (t.1 ++ t.2.2) s) st).1)
      generalize pickSplits (x :: xs) = ts
      induction ts generalizing st with
      | nil => exact bestOf_rfl cost st.1
      | cons t ts iht =>
        simp only [List.flatMap_cons, List.foldl_cons]
        exact bestOf_trans cost st.1 _ _ _ _
          (ih (t.1 ++ t.2.2) (acc ++ [t.2.1]) st) (iht _)

/-- Every leaf of the search is the accumulator followed by a permutation of
the remaining indices. -/
theorem permsAux_sound :
    ∀ (fuel : Nat) (rest acc ord : List Nat), ord ∈ permsAux fuel acc rest →
      ∃ tail, ord = acc ++ tail ∧ tail.Perm rest := by
  intro fuel
  induction fuel with
  | zero =>
    intro rest acc ord h
    cases rest with
    | nil =>
      refine ⟨[], ?_, List.Perm.refl _⟩
      rw [List.append_nil]
      exact (List.mem_singleton.mp h).symm ▸ rfl
    | cons x xs => simp [permsAux] at h
  | succ n ih =>
    intro rest acc ord h
    cases rest with
    | nil =>
      refine ⟨[], ?_, List.Perm.refl _⟩
      rw [List.append_nil]
      exact (List.mem_singleton.mp h).symm ▸ rfl
    | cons x xs =>
      rcases List.mem_flatMap.mp h with ⟨t, ht, hord⟩
      rcases ih _ _ _ hord with ⟨tail, hoe, hperm⟩
      refine ⟨t.2.1 :: tail, by rw [hoe, List.append_assoc]; rfl, ?_⟩
      have h1 : (t.2.1 :: tail).Perm (t.2.1 :: (t.1 ++ t.2.2)) := hperm.cons _
      have h2 : (t.1 ++ t.2.1 :: t.2.2).Perm (t.2.1 :: (t.1 ++ t.2.2)) := List.perm_middle
      rw [pickSplits_eq _ t ht] at h2
      exact h1.trans h2.symm

/-- Every permutation of the remaining indices is a leaf of the search when
the fuel covers their number. -/
theorem permsAux_complete :
    ∀ (fuel : Nat) (rest tail acc : List Nat), tail.Perm rest →
      rest.length ≤ fuel → acc ++ tail ∈ permsAux fuel acc rest := by
  intro fuel
  induction fuel with
  | zero =>
    intro rest tail acc hperm hlen
    have : rest = [] := List.eq_nil_of_length_eq_zero (Nat.le_zero.mp hlen)
    subst this
    rw [hperm.eq_nil, List.append_nil]
    exact List.mem_singleton_self _
  | succ n ih =>
    intro rest tail acc hperm hlen
    cases rest with
    | nil =>
      rw [hperm.eq_nil, List.append_nil]
      exact List.mem_singleton_self _
    | cons x xs =>
      cases tail with
      | nil =>
        have := hperm.length_eq
        simp at this
      | cons y tail =>
        have hy : y ∈ x :: xs := hperm.mem_iff.mp (List.mem_cons_self _ _)
        rcases List.append_of_mem hy with ⟨pre, suf, hsplit⟩
        have hperm2 : (y :: tail).Perm (y :: (pre ++ suf)) := by
          rw [hsplit] at hperm
          exact hperm.trans List.perm_middle
        have htail : tail.Perm (pre ++ suf) := hperm2.cons_inv
        have hlen2 : (pre ++ suf).length ≤ n := by
          have h1 : (x :: xs).length = (pre ++ y :: suf).length := by rw [hsplit]
          simp only [List.length_cons, List.length_append] at h1 hlen ⊢
          omega
        have hIH := ih (pre ++ suf) tail (acc ++ [y]) htail hlen2
        show acc ++ y :: tail ∈ (pickSplits (x :: xs)).flatMap
          (fun t => permsAux n (acc ++ [t.2.1]) (t.1 ++ t.2.2))
        refine List.mem_flatMap.mpr ⟨(pre, y, suf), ?_, ?_⟩
        · rw [hsplit]
          exact pickSplits_complete y pre suf
        · rw [show acc ++ y :: tail = (acc ++ [y]) ++ tail by rw [List.append_assoc]; rfl]
          exact hIH

/-- A successful greedy scan returns a candidate from the list or the seed. -/
theorem greedyScan_some_mem (cost : Nat → Nat) :
    ∀ (l : List Nat) (best : Option (Nat × Nat)) (r : RNG) (c bi : Nat),
      (greedyScan cost l best r).1 = some (c, bi) →
      bi ∈ l ∨ best = some (c, bi) := by
  intro l
  induction l with
  | nil =>
    intro best r c bi h
    exact Or.inr h
  | cons idx rest ih =>
    intro best r c bi h
    unfold greedyScan at h
    cases best with
    | none =>
      rcases ih _ _ _ _ h with h | h
      · exact Or.inl (List.mem_cons.mpr (Or.inr h))
      · injection h with h
        injection h with _ hbi
        exact Or.inl (hbi ▸ List.mem_cons_self _ _)
    | some b =>
      rcases b with ⟨bc, bi0⟩
      have h' : (if cost idx < bc then greedyScan cost rest (some (cost idx, idx)) r
          else if cost idx = bc then
            (if (randBool r).1 then greedyScan cost rest (some (cost idx, idx)) (randBool r).2
             else greedyScan cost rest (some (bc, bi0)) (randBool r).2)
          else greedyScan cost rest (some (bc, bi0)) r).1 = some (c, bi) := h
      clear h
      rename (_ = some (c, bi)) => h
      by_cases h1 : cost idx < bc
      · rw [if_pos h1] at h
        rcases ih _ _ _ _ h with h | h
        · exact Or.inl (List.mem_cons.mpr (Or.inr h))
        · injection h with h
          injection h with _ hbi
          exact Or.inl (hbi ▸ List.mem_cons_self _ _)
      · rw [if_neg h1] at h
        by_cases h2 : cost idx = bc
        · rw [if_pos h2] at h
          by_cases h3 : (randBool r).1 = true
          · rw [if_pos h3] at h
            rcases ih _ _ _ _ h with h | h
            · exact Or.inl (List.mem_cons.mpr (Or.inr h))
            · injection h with h
              injection h with _ hbi
              exact Or.inl (hbi ▸ List.mem_cons_self _ _)
          · rw [if_neg h3] at h
            rcases ih _ _ _ _ h with h | h
            · exact Or.inl (List.mem_cons.mpr (Or.inr h))
            · exact Or.inr h
        · rw [if_neg h2] at h
          rcases ih _ _ _ _ h with h | h
          · exact Or.inl (List.mem_cons.mpr (Or.inr h))
          · exact Or.inr h

/-- Every group placed by the greedy fallback is read from the group list at
an available index. -/
theorem greedyAssign_mem {γ : Type} [Inhabited γ] (groups : List γ)
    (cc : CourtCountMap) (gp : γ → List Player) :
    ∀ (fuel courtNum : Nat) (available : List Nat) (r : RNG) (x : γ),
      x ∈ (greedyAssign groups cc gp courtNum fuel available r).1 →
      ∃ i ∈ available, x = groups.getD i default := by
  intro fuel
  induction fuel with
  | zero =>
    intro courtNum available r x h
    simp [greedyAssign] at h
  | succ n ih =>
    intro courtNum available r x h
    unfold greedyAssign at h
    rcases hscan : greedyScan
        (fun idx => costForCourt cc gp (groups.getD idx default) courtNum)
        available none r with ⟨best, r'⟩
    rw [hscan] at h
    cases best with
    | none => simp at h
    | some b =>
      rcases b with ⟨bc, bi⟩
      have hbi : bi ∈ available := by
        rcases greedyScan_some_mem _ available none r bc bi (by rw [hscan]) with h' | h'
        · exact h'
        · cases h'
      have h2 : x ∈ groups.getD bi default ::
          (greedyAssign groups cc gp (courtNum + 1) n (available.erase bi) r').1 := h
      rcases List.mem_cons.mp h2 with h3 | h3
      · exact ⟨bi, hbi, h3⟩
      · rcases ih _ _ _ _ h3 with ⟨i, hi, he⟩
        exact ⟨i, List.erase_subset _ _ hi, he⟩

/-- The court-number optimizer only reorders: every output group is one of
the input groups. -/
theorem assignCourtNumbers_mem {γ : Type} [Inhabited γ] (groups : List γ)
    (cc : CourtCountMap) (gp : γ → List Player) (r : RNG) :
    ∀ x ∈ (assignCourtNumbers groups cc gp r).1, x ∈ groups := by
  intro x hx
  simp only [assignCourtNumbers] at hx
  by_cases h1 : groups.length ≤ 1
  · rw [if_pos h1] at hx
    exact hx
  · rw [if_neg h1] at hx
    by_cases h8 : groups.length ≤ 8
    · rw [if_pos h8] at hx
      have hb := enumAux_bestOf
        (fun idxs => leafCost groups cc gp idxs 0)
        groups.length (List.range groups.length) [] (none, r)
      rcases hres : enumAux (fun idxs => leafCost groups cc gp idxs 0)
          groups.length [] (List.range groups.length) (none, r) with ⟨o, r'⟩
      rw [hres] at hx hb
      cases o with
      | none => exact hx
      | some b =>
        rcases b with ⟨bc, bestOrder⟩
        rcases hb.2 bc bestOrder rfl with ⟨hsrc, _, _⟩
        rcases hsrc with h | ⟨hmem, _⟩
        · cases h
        · rcases permsAux_sound groups.length _ _ _ hmem with ⟨tail, hoe, hperm⟩
          rcases List.mem_map.mp hx with ⟨i, hi, rfl⟩
          have hin : i < groups.length := by
            rw [hoe] at hi
            simp only [List.nil_append] at hi
            exact List.mem_range.mp (hperm.mem_iff.mp hi)
          exact getD_mem groups i hin
    · rw [if_neg h8] at hx
      rcases greedyAssign_mem groups cc gp groups.length 1 (List.range groups.length) r x hx
        with ⟨i, hi, rfl⟩
      exact getD_mem groups i (List.mem_range.mp hi)

-- ─── Mixed-doubles team structure (C5) ───────────────────────────────

/-- A mixed team: the first slot is a male, the second a female. -/
def MixedTeamOK (t : Player × Player) : Prop :=
  t.1.gender = "male" ∧ t.2.gender = "female"

/-- A mixed court: both teams are one male plus one female. -/
def MixedCourtOK (c : DCourt) : Prop :=
  MixedTeamOK c.team1 ∧ MixedTeamOK c.team2

/-- Sweep index pairs are in range. -/
theorem pairIdxList_lt (n : Nat) :
    ∀ ij ∈ pairIdxList n, ij.1 < n ∧ ij.2 < n := by
  intro ij hij
  rcases List.mem_flatMap.mp hij with ⟨i, hi, hij⟩
  rcases List.mem_map.mp hij with ⟨j, hj, rfl⟩
  exact ⟨List.mem_range.mp hi, List.mem_range.mp (List.mem_filter.mp hj).1⟩

/-- Any per-team property carries from the team list to the courts Stage B
builds of them. -/
theorem pairTeamsIntoCourts_ok (P : Player × Player → Prop)
    (teams : List (Player × Player)) (actualCourts : Nat)
    (opponentCounts : PairCountMap) (r : RNG) (hP : ∀ t ∈ teams, P t) :
    ∀ c ∈ (pairTeamsIntoCourts teams actualCourts opponentCounts r).1,
      P c.team1 ∧ P c.team2 := by
  intro c hc
  simp only [pairTeamsIntoCourts] at hc
  rcases List.mem_map.mp hc with ⟨ij, hij, rfl⟩
  rcases claimTeamPairs_mem actualCourts _ _ _ ij hij with h | ⟨tp, htp, he⟩
  · simp at h
  · have htp' := sortRand_mem _ _ _ _ htp
    have hlt := idxPairsWithCost_lt _ teams.length tp htp'
    rw [he]
    exact ⟨hP _ (getD_mem teams tp.1.1 hlt.1), hP _ (getD_mem teams tp.1.2 hlt.2)⟩

/-- Stages A and B of the mixed matcher only build one-male-one-female
teams. -/
theorem mixedGreedyCourts_ok (activeMales activeFemales : List Player)
    (actualCourts : Nat) (pc oc : PairCountMap) (r : RNG)
    (hm : ∀ p ∈ activeMales, p.gender = "male")
    (hf : ∀ p ∈ activeFemales, p.gender = "female") :
    ∀ c ∈ (mixedGreedyCourts activeMales activeFemales actualCourts pc oc r).1,
      MixedCourtOK c := by
  intro c hc
  simp only [mixedGreedyCourts] at hc
  refine pairTeamsIntoCourts_ok MixedTeamOK _ _ _ _ ?_ c hc
  intro t ht
  rcases claimMixedPairs_mem _ _ _ _ _ t ht with h | ⟨pr, hpr, he⟩
  · simp at h
  · have hpr' := sortRand_mem _ _ _ _ hpr
    have hmem := mixedPairsWithCost_mem pc activeMales activeFemales pr hpr'
    rw [he]
    exact ⟨hm _ hmem.1, hf _ hmem.2⟩

/-- A strict-improvement fold either keeps its seed or selects one of the
candidates. -/
theorem foldl_best_mem {α : Type} (c : α → Nat) (v : α → DCourt × DCourt) :
    ∀ (l : List α) (st : Nat × Option (DCourt × DCourt)) (p : DCourt × DCourt),
      (l.foldl (fun st gg => if c gg < st.1 then (c gg, some (v gg)) else st) st).2 = some p →
      st.2 = some p ∨ ∃ gg ∈ l, p = v gg := by
  intro l
  induction l with
  | nil => intro st p h; exact Or.inl h
  | cons a l ih =>
    intro st p h
    simp only [List.foldl_cons] at h
    by_cases ha : c a < st.1
    · rw [if_pos ha] at h
      rcases ih _ _ h with h | ⟨gg, hgg, h⟩
      · injection h with h
        exact Or.inr ⟨a, List.mem_cons_self _ _, h.symm⟩
      · exact Or.inr ⟨gg, List.mem_cons.mpr (Or.inr hgg), h⟩
    · rw [if_neg ha] at h
      rcases ih _ _ h with h | ⟨gg, hgg, h⟩
      · exact Or.inl h
      · exact Or.inr ⟨gg, List.mem_cons.mpr (Or.inr hgg), h⟩

/-- A successful mixed swap candidate keeps both courts one-male-one-female:
the 24 rebuilt team assignments always pair one of the four males with one
of the four females. -/
theorem mixedPairImprove_ok (pc oc : PairCountMap) (ci cj : DCourt)
    (hci : MixedCourtOK ci) (hcj : MixedCourtOK cj) (c1 c2 : DCourt)
    (h : mixedPairImprove pc oc ci cj = some (c1, c2)) :
    MixedCourtOK c1 ∧ MixedCourtOK c2 := by
  rcases hci with ⟨⟨hci1, hci2⟩, ⟨hci3, hci4⟩⟩
  rcases hcj with ⟨⟨hcj1, hcj2⟩, ⟨hcj3, hcj4⟩⟩
  have hmales : (dcourtPlayers ci ++ dcourtPlayers cj).filter
      (fun p => p.gender = "male") = [ci.team1.1, ci.team2.1, cj.team1.1, cj.team2.1] := by
    simp [dcourtPlayers, List.filter, hci1, hci2, hci3, hci4, hcj1, hcj2, hcj3, hcj4]
  have hfemales : (dcourtPlayers ci ++ dcourtPlayers cj).filter
      (fun p => p.gender = "female") = [ci.team1.2, ci.team2.2, cj.team1.2, cj.team2.2] := by
    simp [dcourtPlayers, List.filter, hci1, hci2, hci3, hci4, hcj1, hcj2, hcj3, hcj4]
  simp only [mixedPairImprove] at h
  rcases foldl_best_mem (fun (cand : Nat × DCourt × DCourt) => cand.1)
      (fun cand => (cand.2.1, cand.2.2)) _ _ _ h with hfold | ⟨cand, hcand, he⟩
  · cases hfold
  · rcases List.mem_flatMap.mp hcand with ⟨femPerm, hfp, hcand⟩
    rcases List.mem_map.mp hcand with ⟨q, hq, rfl⟩
    have hfperm : femPerm.Perm ((dcourtPlayers ci ++ dcourtPlayers cj).filter
        (fun p => p.gender = "female")) := permutations_perm _ _ hfp
    have hflen : femPerm.length = 4 := by
      rw [hfperm.length_eq, hfemales]
      rfl
    have hmlen : ((dcourtPlayers ci ++ dcourtPlayers cj).filter
        (fun p => p.gender = "male")).length = 4 := by
      rw [hmales]
      rfl
    have hzlen : (((dcourtPlayers ci ++ dcourtPlayers cj).filter
        (fun p => p.gender = "male")).zip femPerm).length = 4 := by
      rw [List.length_zip, hmlen, hflen]
      omega
    have hteam : ∀ t ∈ ((dcourtPlayers ci ++ dcourtPlayers cj).filter
        (fun p => p.gender = "male")).zip femPerm, MixedTeamOK t := by
      rintro ⟨m, f⟩ ht
      have hmf := List.mem_zip ht
      constructor
      · have := hmf.1
        rw [hmales] at this
        simp only [List.mem_cons, List.not_mem_nil, or_false] at this
        rcases this with h | h | h | h
        · rw [h]; exact hci1
        · rw [h]; exact hci3
        · rw [h]; exact hcj1
        · rw [h]; exact hcj3
      · have := hfperm.mem_iff.mp hmf.2
        rw [hfemales] at this
        simp only [List.mem_cons, List.not_mem_nil, or_false] at this
        rcases this with h | h | h | h
        · rw [h]; exact hci2
        · rw [h]; exact hci4
        · rw [h]; exact hcj2
        · rw [h]; exact hcj4
    have hq4 : q.1 < 4 ∧ q.2.1 < 4 ∧ q.2.2.1 < 4 ∧ q.2.2.2 < 4 := by
      simp only [courtPairings, List.mem_cons, List.not_mem_nil, or_false] at hq
      rcases hq with h | h | h <;> subst h <;> decide
    have hta := hteam _ (getD_mem _ q.1 (by rw [hzlen]; exact hq4.1))
    have htb := hteam _ (getD_mem _ q.2.1 (by rw [hzlen]; exact hq4.2.1))
    have htc := hteam _ (getD_mem _ q.2.2.1 (by rw [hzlen]; exact hq4.2.2.1))
    have htd := hteam _ (getD_mem _ q.2.2.2 (by rw [hzlen]; exact hq4.2.2.2))
    injection he with h1 h2
    rw [h1, h2]
    exact ⟨⟨hta, htb⟩, ⟨htc, htd⟩⟩

/-- One sweep step keeps the invariant and the court count. -/
theorem mixedPairStep_ok (pc oc : PairCountMap) (courts : List DCourt)
    (ij : Nat × Nat) (hij : ij.1 < courts.length ∧ ij.2 < courts.length)
    (h : ∀ c ∈ courts, MixedCourtOK c) :
    (mixedPairStep pc oc courts ij).1.length = courts.length ∧
      ∀ c ∈ (mixedPairStep pc oc courts ij).1, MixedCourtOK c := by
  rcases ij with ⟨i, j⟩
  simp only [mixedPairStep]
  rcases himp : mixedPairImprove pc oc (courts.getD i default) (courts.getD j default)
      with _ | ⟨c1, c2⟩
  · exact ⟨rfl, h⟩
  · have hok := mixedPairImprove_ok pc oc _ _ (h _ (getD_mem courts i hij.1))
      (h _ (getD_mem courts j hij.2)) c1 c2 himp
    constructor
    · simp [List.length_set]
    · intro c hc
      rcases List.mem_or_eq_of_mem_set hc with hc | hc
      · rcases List.mem_or_eq_of_mem_set hc with hc | hc
        · exact h c hc
        · rw [hc]; exact hok.1
      · rw [hc]; exact hok.2

/-- The sweep fold keeps the invariant and the court count. -/
theorem foldl_pairStep_ok (pc oc : PairCountMap) (n : Nat) :
    ∀ (l : List (Nat × Nat)) (st : List DCourt × Bool),
      (∀ ij ∈ l, ij.1 < n ∧ ij.2 < n) → st.1.length = n →
      (∀ c ∈ st.1, MixedCourtOK c) →
      (l.foldl (fun st ij => ((mixedPairStep pc oc st.1 ij).1,
          st.2 || (mixedPairStep pc oc st.1 ij).2)) st).1.length = n ∧
      ∀ c ∈ (l.foldl (fun st ij => ((mixedPairStep pc oc st.1 ij).1,
          st.2 || (mixedPairStep pc oc st.1 ij).2)) st).1, MixedCourtOK c := by
  intro l
  induction l with
  | nil => intro st _ hlen hok; exact ⟨hlen, hok⟩
  | cons ij l ih =>
    intro st hb hlen hok
    rw [List.foldl_cons]
    have hij := hb ij (List.mem_cons_self _ _)
    have hstep := mixedPairStep_ok pc oc st.1 ij
      (by rw [hlen]; exact hij) hok
    exact ih _ (fun x hx => hb x (List.mem_cons.mpr (Or.inr hx)))
      (by rw [hstep.1, hlen]) hstep.2

/-- One full mixed sweep keeps the invariant and the court count. -/
theorem mixedSweep_ok (pc oc : PairCountMap) (courts : List DCourt)
    (h : ∀ c ∈ courts, MixedCourtOK c) :
    (mixedSweep pc oc courts).1.length = courts.length ∧
      ∀ c ∈ (mixedSweep pc oc courts).1, MixedCourtOK c := by
  show ((pairIdxList courts.length).foldl (fun st ij => ((mixedPairStep pc oc st.1 ij).1,
      st.2 || (mixedPairStep pc oc st.1 ij).2)) (courts, false)).1.length = courts.length ∧ _
  exact foldl_pairStep_ok pc oc courts.length (pairIdxList courts.length) (courts, false)
    (pairIdxList_lt courts.length) rfl h

/-- Unfolding of one iteration of the mixed improvement loop. -/
theorem improveLoopM_succ (pc oc : PairCountMap) (n : Nat) (courts : List DCourt) :
    improveLoopM pc oc (n + 1) courts =
      (if (mixedSweep pc oc courts).2 then
        improveLoopM pc oc n (mixedSweep pc oc courts).1
       else (mixedSweep pc oc courts).1) := rfl

/-- The bounded improvement loop keeps the invariant. -/
theorem improveLoopM_ok (pc oc : PairCountMap) :
    ∀ (fuel : Nat) (courts : List DCourt), (∀ c ∈ courts, MixedCourtOK c) →
      ∀ c ∈ improveLoopM pc oc fuel courts, MixedCourtOK c := by
  intro fuel
  induction fuel with
  | zero => intro courts h c hc; exact h c hc
  | succ n ih =>
    intro courts h c hc
    have hsweep := mixedSweep_ok pc oc courts h
    rw [improveLoopM_succ] at hc
    by_cases himp : (mixedSweep pc oc courts).2 = true
    · rw [if_pos himp] at hc
      exact ih _ hsweep.2 c hc
    · rw [if_neg himp] at hc
      exact hsweep.2 c hc

/-- `improveMixedDoublesSwap` keeps the invariant. -/
theorem improveMixedDoublesSwap_ok (courts : List DCourt) (pc oc : PairCountMap)
    (h : ∀ c ∈ courts, MixedCourtOK c) :
    ∀ c ∈ improveMixedDoublesSwap courts pc oc, MixedCourtOK c :=
  improveLoopM_ok pc oc 50 courts h

/-- Unfolding of the mixed matcher when at least one court can be formed. -/
theorem assignMixedDoublesCourts_eq (activeMales activeFemales : List Player)
    (numCourts : Nat) (pc oc : PairCountMap) (r : RNG)
    (h0 : ¬ min numCourts (min (activeMales.length / 2) (activeFemales.length / 2)) = 0) :
    (assignMixedDoublesCourts activeMales activeFemales numCourts pc oc r).1 =
      improveMixedDoublesSwap
        (mixedGreedyCourts activeMales activeFemales
          (min numCourts (min (activeMales.length / 2) (activeFemales.length / 2)))
          pc oc r).1 pc oc := by
  simp only [assignMixedDoublesCourts]
  rw [if_neg h0]

/-- Every court built by the mixed matcher is one male plus one female per
team. -/
theorem assignMixedDoublesCourts_ok (activeMales activeFemales : List Player)
    (numCourts : Nat) (pc oc : PairCountMap) (r : RNG)
    (hm : ∀ p ∈ activeMales, p.gender = "male")
    (hf : ∀ p ∈ activeFemales, p.gender = "female") :
    ∀ c ∈ (assignMixedDoublesCourts activeMales activeFemales numCourts pc oc r).1,
      MixedCourtOK c := by
  intro c hc
  by_cases h0 : min numCourts (min (activeMales.length / 2) (activeFemales.length / 2)) = 0
  · have h1 : (assignMixedDoublesCourts activeMales activeFemales numCourts pc oc r).1 = [] := by
      simp only [assignMixedDoublesCourts]
      rw [if_pos h0]
    rw [h1] at hc
    simp at hc
  · rw [assignMixedDoublesCourts_eq activeMales activeFemales numCourts pc oc r h0] at hc
    exact improveMixedDoublesSwap_ok _ pc oc
      (mixedGreedyCourts_ok activeMales activeFemales _ pc oc r hm hf) c hc

/-- Enumerated elements come from the underlying list. -/
theorem mem_enumFrom_snd {α : Type} :
    ∀ (l : List α) (n : Nat) (x : Nat × α), x ∈ List.enumFrom n l → x.2 ∈ l := by
  intro l
  induction l with
  | nil => intro n x hx; simp at hx
  | cons a l ih =>
    intro n x hx
    rcases List.mem_cons.mp hx with hx | hx
    · rw [hx]
      exact List.mem_cons_self _ _
    · exact List.mem_cons.mpr (Or.inr (ih _ _ hx))

/-- Any court accumulated by the doubles per-court fold comes from a listed
assignment (the source-tracking refinement of the membership lemma). -/
theorem mem_foldl_doublesCourtFold_src (r : Nat) :
    ∀ (l : List (Nat × DCourt))
      (init : List Court × PairCountMap × PairCountMap × CourtCountMap)
      (c : Court), c ∈ (l.foldl (doublesCourtFold r) init).1 →
      c ∈ init.1 ∨ ∃ ia ∈ l, c = buildCourtObject r ia.1 (dcourtPlayers ia.2)
        (some [ia.2.team1.1, ia.2.team1.2]) (some [ia.2.team2.1, ia.2.team2.2]) := by
  intro l
  induction l with
  | nil => intro init c hc; exact Or.inl hc
  | cons a l ih =>
    intro init c hc
    rw [List.foldl_cons] at hc
    rcases ih _ c hc with h | ⟨ia, hia, he⟩
    · simp only [doublesCourtFold, List.mem_append, List.mem_singleton] at h
      rcases h with h | h
      · exact Or.inl h
      · exact Or.inr ⟨a, List.mem_cons_self _ _, h⟩
    · exact Or.inr ⟨ia, List.mem_cons.mpr (Or.inr hia), he⟩

/-- Every court of a mixed round is built from a one-male-one-female
assignment. -/
theorem mixedStep_court_ok (males females : List Player) (maxCourts r : Nat)
    (f : Fair) (rng : RNG)
    (hm : ∀ p ∈ males, p.gender = "male")
    (hf : ∀ p ∈ females, p.gender = "female") :
    ∀ c ∈ (mixedStep males females maxCourts r f rng).1.courts,
      ∃ (idx : Nat) (a : DCourt), MixedCourtOK a ∧
        c = buildCourtObject r idx (dcourtPlayers a)
          (some [a.team1.1, a.team1.2]) (some [a.team2.1, a.team2.2]) := by
  intro c hc
  simp only [mixedStep, buildDoublesCourts] at hc
  rcases mem_foldl_doublesCourtFold_src r _ _ c hc with h | ⟨ia, hia, he⟩
  · simp at h
  · have h2 : ia.2 ∈ (assignCourtNumbers
        (assignMixedDoublesCourts
          (selectActivePlayers males (maxCourts * 2) f.sitOutCounts rng).1.1
          (selectActivePlayers females (maxCourts * 2)
            (selectActivePlayers males (maxCourts * 2) f.sitOutCounts rng).2.1
            (selectActivePlayers males (maxCourts * 2) f.sitOutCounts rng).2.2).1.1
          maxCourts f.partnerCounts f.opponentCounts
          (selectActivePlayers females (maxCourts * 2)
            (selectActivePlayers males (maxCourts * 2) f.sitOutCounts rng).2.1
            (selectActivePlayers males (maxCourts * 2) f.sitOutCounts rng).2.2).2.2).1
        f.courtCounts (fun a => dcourtPlayers a)
        (assignMixedDoublesCourts
          (selectActivePlayers males (maxCourts * 2) f.sitOutCounts rng).1.1
          (selectActivePlayers females (maxCourts * 2)
            (selectActivePlayers males (maxCourts * 2) f.sitOutCounts rng).2.1
            (selectActivePlayers males (maxCourts * 2) f.sitOutCounts rng).2.2).1.1
          maxCourts f.partnerCounts f.opponentCounts
          (selectActivePlayers females (maxCourts * 2)
            (selectActivePlayers males (maxCourts * 2) f.sitOutCounts rng).2.1
            (selectActivePlayers males (maxCourts * 2) f.sitOutCounts rng).2.2).2.2).2).1 :=
      mem_enumFrom_snd _ 0 ia hia
    have h3 := assignCourtNumbers_mem _ _ _ _ _ h2
    have h4 := assignMixedDoublesCourts_ok _ _ maxCourts f.partnerCounts f.opponentCounts _
      (fun p hp => hm p (selectActivePlayers_active_mem males _ _ _ p hp))
      (fun p hp => hf p (selectActivePlayers_active_mem females _ _ _ p hp))
      ia.2 h3
    exact ⟨ia.1, ia.2, h4, he⟩

/-- The one-male-one-female court structure holds in every round the mixed
round loop produces. -/
theorem mixedRoundsAux_team_genders (males females : List Player) (maxCourts : Nat)
    (hm : ∀ p ∈ males, p.gender = "male")
    (hf : ∀ p ∈ females, p.gender = "female") :
    ∀ (fuel r0 : Nat) (f : Fair) (rng : RNG) (round : Round),
      round ∈ (mixedRoundsAux males females maxCourts r0 fuel f rng).1 →
      ∀ c ∈ round.courts,
        ∃ (r1 idx : Nat) (a : DCourt), MixedCourtOK a ∧
          c = buildCourtObject r1 idx (dcourtPlayers a)
            (some [a.team1.1, a.team1.2]) (some [a.team2.1, a.team2.2]) := by
  intro fuel
  induction fuel with
  | zero => intro r0 f rng round hround; simp [mixedRoundsAux] at hround
  | succ n ih =>
    intro r0 f rng round hround c hc
    rw [mixedRoundsAux_succ] at hround
    rcases List.mem_cons.mp hround with hround | hround
    · rcases mixedStep_court_ok males females maxCourts r0 f rng hm hf c
        (by rw [hround] at hc; exact hc) with ⟨idx, a, hOK, he⟩
      exact ⟨r0, idx, a, hOK, he⟩
    · exact ih (r0 + 1) _ _ round hround c hc

/-- C5: in mixed-doubles mode every team (`team1` and `team2` of every court
of every generated round) is exactly one male and one female — the greedy
Stage A/B construction only forms male–female teams, and every swap
adopted by the improvement stage re-pairs the four males of two courts with
a permutation of their four females. -/
theorem c5_mixed_team_genders (players : List Player) (numRounds numCourts : Nat)
    (rng : RNG) :
    ∀ round ∈ generateMixedDoublesRounds players numRounds numCourts rng,
      ∀ c ∈ round.courts,
        ∃ m1 f1 m2 f2 : Player,
          c.team1 = some [m1, f1] ∧ c.team2 = some [m2, f2] ∧
          m1.gender = "male" ∧ f1.gender = "female" ∧
          m2.gender = "male" ∧ f2.gender = "female" := by
  intro round hround c hc
  simp only [generateMixedDoublesRounds] at hround
  split at hround
  · simp at hround
  · rcases mixedRoundsAux_team_genders
        (players.filter (fun p => p.gender = "male"))
        (players.filter (fun p => p.gender = "female")) _
        (fun p hp => by simpa using (List.mem_filter.mp hp).2)
        (fun p hp => by simpa using (List.mem_filter.mp hp).2)
        numRounds 0 _ rng round hround c hc with ⟨r1, idx, a, hOK, he⟩
    refine ⟨a.team1.1, a.team1.2, a.team2.1, a.team2.2, ?_, ?_, hOK.1.1, hOK.1.2,
      hOK.2.1, hOK.2.2⟩
    · rw [he]
      rfl
    · rw [he]
      rfl

set_option maxRecDepth 40000 in
/-- Concrete instance of C5: the one court of a 3-male, 2-female mixed
session has a male-female team on each side. -/
theorem c5_witness :
    ((generateMixedDoublesRounds c1Pool 1 1 ⟨fun _ => 0, 0⟩).getD 0 default ∈
      generateMixedDoublesRounds c1Pool 1 1 ⟨fun _ => 0, 0⟩) ∧
    (((generateMixedDoublesRounds c1Pool 1 1 ⟨fun _ => 0, 0⟩).getD 0 default).courts.getD
        0 default ∈
      ((generateMixedDoublesRounds c1Pool 1 1 ⟨fun _ => 0, 0⟩).getD 0 default).courts) ∧
    (∃ m1 f1 m2 f2 : Player,
      (((generateMixedDoublesRounds c1Pool 1 1 ⟨fun _ => 0, 0⟩).getD 0 default).courts.getD
          0 default).team1 = some [m1, f1] ∧
      (((generateMixedDoublesRounds c1Pool 1 1 ⟨fun _ => 0, 0⟩).getD 0 default).courts.getD
          0 default).team2 = some [m2, f2] ∧
      m1.gender = "male" ∧ f1.gender = "female" ∧
      m2.gender = "male" ∧ f2.gender = "female") :=
  ⟨by decide, by decide,
    c5_mixed_team_genders c1Pool 1 1 ⟨fun _ => 0, 0⟩
      ((generateMixedDoublesRounds c1Pool 1 1 ⟨fun _ => 0, 0⟩).getD 0 default) (by decide)
      (((generateMixedDoublesRounds c1Pool 1 1 ⟨fun _ => 0, 0⟩).getD 0 default).courts.getD
        0 default) (by decide)⟩

/-- C6: whenever at most 8 court groups are to be placed,
`assignCourtNumbers` returns the groups reordered along some permutation of
the court indices whose total occupancy cost (`leafCost`, pricing group
`ord[i]` at court number `i + 1`) is minimal over all permutations, for
every outcome of the random tie-breaks. -/
theorem c6_court_assignment_optimal {γ : Type} [Inhabited γ] (courtGroups : List γ)
    (cc : CourtCountMap) (gp : γ → List Player) (r : RNG)
    (h8 : courtGroups.length ≤ 8) :
    ∃ ord : List Nat, ord.Perm (List.range courtGroups.length) ∧
      (assignCourtNumbers courtGroups cc gp r).1 =
        ord.map (fun i => courtGroups.getD i default) ∧
      ∀ ord' : List Nat, ord'.Perm (List.range courtGroups.length) →
        leafCost courtGroups cc gp ord 0 ≤ leafCost courtGroups cc gp ord' 0 := by
  by_cases h1 : courtGroups.length ≤ 1
  · have hres : (assignCourtNumbers courtGroups cc gp r).1 = courtGroups := by
      simp only [assignCourtNumbers]
      rw [if_pos h1]
    refine ⟨List.range courtGroups.length, List.Perm.refl _, ?_, ?_⟩
    · rw [hres]
      cases courtGroups with
      | nil => rfl
      | cons g gs =>
        cases gs with
        | nil => rfl
        | cons g2 gs2 => simp at h1
    · intro ord' hperm
      have he : ord' = List.range courtGroups.length := by
        cases courtGroups with
        | nil =>
          have h0 : ord'.Perm ([] : List Nat) := hperm
          rw [h0.eq_nil]
          rfl
        | cons g gs =>
          cases gs with
          | nil =>
            have h0 : ord'.Perm [0] := hperm
            rw [List.perm_singleton.mp h0]
            rfl
          | cons g2 gs2 => simp at h1
      rw [he]
  · have hb := enumAux_bestOf (fun idxs => leafCost courtGroups cc gp idxs 0)
      courtGroups.length (List.range courtGroups.length) [] (none, r)
    have hne : List.range courtGroups.length ∈
        permsAux courtGroups.length [] (List.range courtGroups.length) := by
      have := permsAux_complete courtGroups.length (List.range courtGroups.length)
        (List.range courtGroups.length) [] (List.Perm.refl _) (by rw [List.length_range])
      simpa using this
    rcases hres : enumAux (fun idxs => leafCost courtGroups cc gp idxs 0)
        courtGroups.length [] (List.range courtGroups.length) (none, r) with ⟨o, r2⟩
    rw [hres] at hb
    cases o with
    | none =>
      rcases hb.1 rfl with ⟨_, hempty⟩
      rw [hempty] at hne
      simp at hne
    | some b =>
      rcases b with ⟨bc, bestOrder⟩
      rcases hb.2 bc bestOrder rfl with ⟨hsrc, _, hmin⟩
      rcases hsrc with h | ⟨hmem, hcost⟩
      · cases h
      · have hres1 : (assignCourtNumbers courtGroups cc gp r).1 =
            bestOrder.map (fun i => courtGroups.getD i default) := by
          simp only [assignCourtNumbers]
          rw [if_neg h1, if_pos h8, hres]
        rcases permsAux_sound courtGroups.length _ _ _ hmem with ⟨tail, hoe, hperm⟩
        rw [List.nil_append] at hoe
        subst hoe
        refine ⟨bestOrder, hperm, hres1, ?_⟩
        intro ord' hp'
        have hin : ord' ∈ permsAux courtGroups.length [] (List.range courtGroups.length) := by
          have := permsAux_complete courtGroups.length (List.range courtGroups.length) ord' []
            hp' (by rw [List.length_range])
          simpa using this
        have hle : bc ≤ leafCost courtGroups cc gp ord' 0 := hmin ord' hin
        have hc2 : bc = leafCost courtGroups cc gp bestOrder 0 := hcost
        omega

/-- Concrete instance of C6 on two court groups. -/
theorem c6_witness :
    ([5, 7] : List Nat).length ≤ 8 ∧
    (∃ ord : List Nat, ord.Perm (List.range ([5, 7] : List Nat).length) ∧
      (assignCourtNumbers [5, 7] [] (fun _ => []) ⟨fun _ => 0, 0⟩).1 =
        ord.map (fun i => ([5, 7] : List Nat).getD i default) ∧
      ∀ ord' : List Nat, ord'.Perm (List.range ([5, 7] : List Nat).length) →
        leafCost [5, 7] [] (fun _ => []) ord 0 ≤ leafCost [5, 7] [] (fun _ => []) ord' 0) :=
  ⟨by decide, c6_court_assignment_optimal [5, 7] [] (fun _ => []) ⟨fun _ => 0, 0⟩ (by decide)⟩

-- ─── The 35 splits of 8 into 4+4 (C7) ────────────────────────────────

/-- Two splits describe the same unordered partition into two groups. -/
def SplitEquiv {α : Type} (s t : List α × List α) : Prop :=
  (s.1.Perm t.1 ∧ s.2.Perm t.2) ∨ (s.1.Perm t.2 ∧ s.2.Perm t.1)

instance {α : Type} [DecidableEq α] (s t : List α × List α) :
    Decidable (SplitEquiv s t) := by
  unfold SplitEquiv
  infer_instance

set_option maxRecDepth 100000 in
/-- On the canonical 8 indices the split enumeration has 35 entries. -/
theorem canonicalSplits_length :
    (allSplitsOf8Into4And4 (List.finRange 8)).length = 35 := by decide

set_option maxRecDepth 100000 in
/-- On the canonical 8 indices every entry is a 4+4 partition. -/
theorem canonicalSplits_partition :
    ∀ t ∈ allSplitsOf8Into4And4 (List.finRange 8),
      t.1.length = 4 ∧ t.2.length = 4 ∧ (t.1 ++ t.2).Perm (List.finRange 8) := by decide

set_option maxRecDepth 100000 in
/-- On the canonical 8 indices no two entries give the same unordered
partition. -/
theorem canonicalSplits_pairwise :
    (allSplitsOf8Into4And4 (List.finRange 8)).Pairwise
      (fun s t => ¬ SplitEquiv s t) := by decide

set_option maxRecDepth 100000 in
/-- On the canonical 8 indices every 4-element subset appears as a side of
some entry. -/
theorem canonicalSplits_finset_complete :
    ∀ s : Finset (Fin 8), s.card = 4 →
      ∃ t ∈ allSplitsOf8Into4And4 (List.finRange 8),
        t.1.toFinset = s ∨ t.2.toFinset = s := by decide

/-- `maskSplit` commutes with mapping over the items. -/
theorem maskSplit_map {α β : Type} (f : α → β) (mask : Nat) :
    ∀ (l : List α) (bit : Nat),
      maskSplit mask (l.map f) bit =
        ((maskSplit mask l bit).1.map f, (maskSplit mask l bit).2.map f) := by
  intro l
  induction l with
  | nil => intro bit; rfl
  | cons x xs ih =>
    intro bit
    have hunf1 : maskSplit mask ((x :: xs).map f) bit =
        (if mask.testBit bit then
          (f x :: (maskSplit mask (xs.map f) (bit + 1)).1,
            (maskSplit mask (xs.map f) (bit + 1)).2)
         else ((maskSplit mask (xs.map f) (bit + 1)).1,
            f x :: (maskSplit mask (xs.map f) (bit + 1)).2)) := rfl
    have hunf2 : maskSplit mask (x :: xs) bit =
        (if mask.testBit bit then
          (x :: (maskSplit mask xs (bit + 1)).1, (maskSplit mask xs (bit + 1)).2)
         else ((maskSplit mask xs (bit + 1)).1, x :: (maskSplit mask xs (bit + 1)).2)) := rfl
    rw [hunf1, hunf2, ih (bit + 1)]
    by_cases hb : mask.testBit bit
    · rw [if_pos hb, if_pos hb]
      simp
    · rw [if_neg hb, if_neg hb]
      simp

/-- The split enumeration commutes with mapping over the items. -/
theorem allSplits_map {α β : Type} (f : α → β) (l : List α) (hl : l.length = 8) :
    allSplitsOf8Into4And4 (l.map f) =
      (allSplitsOf8Into4And4 l).map (fun t => (t.1.map f, t.2.map f)) := by
  simp only [allSplitsOf8Into4And4, List.length_map, hl]
  rw [if_neg (by decide), if_neg (by decide), List.map_map]
  refine List.map_congr_left ?_
  intro m _
  exact maskSplit_map f m l 0

/-- A permutation of images under an injective map comes from a permutation
of the sources. -/
theorem perm_map_inv {α β : Type} [DecidableEq α] [DecidableEq β] (f : α → β)
    (hf : Function.Injective f) (l1 l2 : List α)
    (h : (l1.map f).Perm (l2.map f)) : l1.Perm l2 := by
  rw [List.perm_iff_count]
  intro a
  have := List.perm_iff_count.mp h (f a)
  rwa [List.count_map_of_injective _ _ hf, List.count_map_of_injective _ _ hf] at this

/-- Cancel a permutation-congruent prefix of an append permutation. -/
theorem perm_append_cancel {α : Type} {a b c d : List α}
    (hA : (a ++ b).Perm (c ++ d)) (h1 : a.Perm c) : b.Perm d := by
  have h2 : (c ++ b).Perm (c ++ d) := (h1.symm.append_right b).trans hA
  exact (List.perm_append_left_iff c).mp h2

/-- List-level completeness on the canonical indices: every 4+4 partition of
`finRange 8` is listed up to `SplitEquiv`. -/
theorem canonicalSplits_complete :
    ∀ g1 g2 : List (Fin 8), g1.length = 4 → (g1 ++ g2).Perm (List.finRange 8) →
      ∃ t ∈ allSplitsOf8Into4And4 (List.finRange 8), SplitEquiv t (g1, g2) := by
  intro g1 g2 hlen hperm
  have hnd : (g1 ++ g2).Nodup := hperm.nodup_iff.mpr (List.nodup_finRange 8)
  have hnd1 : g1.Nodup := (List.nodup_append.mp hnd).1
  have hcard : g1.toFinset.card = 4 := by
    rw [List.toFinset_card_of_nodup hnd1, hlen]
  rcases canonicalSplits_finset_complete g1.toFinset hcard with ⟨t, ht, hside⟩
  have htf := canonicalSplits_partition t ht
  have hndt : (t.1 ++ t.2).Nodup := htf.2.2.nodup_iff.mpr (List.nodup_finRange 8)
  have hndt1 : t.1.Nodup := (List.nodup_append.mp hndt).1
  have hndt2 : t.2.Nodup := (List.nodup_append.mp hndt).2.1
  have hc : (t.1 ++ t.2).Perm (g1 ++ g2) := htf.2.2.trans hperm.symm
  rcases hside with h1 | h2
  · have hp1 : t.1.Perm g1 := List.perm_of_nodup_nodup_toFinset_eq hndt1 hnd1 h1
    have hp2 : t.2.Perm g2 := perm_append_cancel hc hp1
    exact ⟨t, ht, Or.inl ⟨hp1, hp2⟩⟩
  · have hp1 : t.2.Perm g1 := List.perm_of_nodup_nodup_toFinset_eq hndt2 hnd1 h2
    have hc2 : (t.2 ++ t.1).Perm (g1 ++ g2) := List.perm_append_comm.trans hc
    have hp2 : t.1.Perm g2 := perm_append_cancel hc2 hp1
    exact ⟨t, ht, Or.inr ⟨hp2, hp1⟩⟩

/-- Read an 8-item list as a function on canonical indices. -/
def itemsF (items : List Player) : Fin 8 → Player :=
  fun i => items.getD i.val default

/-- Inverse lookup of `itemsF` (meaningful on the items). -/
def itemsFinv (items : List Player) (p : Player) : Fin 8 :=
  ((List.finRange 8).find? (fun i => itemsF items i = p)).getD ⟨0, by omega⟩

/-- The canonical indices map back onto the items. -/
theorem itemsF_map (items : List Player) (hlen : items.length = 8) :
    (List.finRange 8).map (itemsF items) = items := by
  refine List.ext_get ?_ ?_
  · simp [hlen]
  · intro n h1 h2
    simp only [List.get_map, List.get_finRange, itemsF]
    rw [List.getD_eq_get items default h2]

/-- `itemsF` is injective on distinct items. -/
theorem itemsF_inj (items : List Player) (hlen : items.length = 8)
    (hnd : items.Nodup) : Function.Injective (itemsF items) := by
  intro i j hij
  simp only [itemsF] at hij
  have hi : (i : Nat) < items.length := by rw [hlen]; exact i.isLt
  have hj : (j : Nat) < items.length := by rw [hlen]; exact j.isLt
  rw [List.getD_eq_get items default hi, List.getD_eq_get items default hj] at hij
  have := List.nodup_iff_injective_get.mp hnd hij
  have hv : (i : Nat) = (j : Nat) := congrArg (fun x : Fin items.length => x.val) this
  exact Fin.ext hv

/-- `itemsFinv` is a right inverse of `itemsF` on the items. -/
theorem itemsF_finv (items : List Player) (hlen : items.length = 8)
    (p : Player) (hp : p ∈ items) : itemsF items (itemsFinv items p) = p := by
  have hp2 : p ∈ (List.finRange 8).map (itemsF items) := by
    rw [itemsF_map items hlen]
    exact hp
  rcases List.mem_map.mp hp2 with ⟨i, hi, hfi⟩
  have hsome : ((List.finRange 8).find? (fun i => itemsF items i = p)).isSome :=
    List.find?_isSome.mpr ⟨i, hi, by simp [hfi]⟩
  rcases Option.isSome_iff_exists.mp hsome with ⟨a, ha⟩
  have := List.find?_some ha
  simp only [decide_eq_true_eq] at this
  show itemsF items (((List.finRange 8).find? (fun i => itemsF items i = p)).getD
    ⟨0, by omega⟩) = p
  rw [ha]
  exact this

/-- The items-level split enumeration is the canonical one mapped through
`itemsF`. -/
theorem allSplits_items (items : List Player) (hlen : items.length = 8) :
    allSplitsOf8Into4And4 items =
      (allSplitsOf8Into4And4 (List.finRange 8)).map
        (fun t => (t.1.map (itemsF items), t.2.map (itemsF items))) := by
  conv_lhs => rw [← itemsF_map items hlen]
  exact allSplits_map _ _ (by simp)

/-- The 4+4 split enumeration is exact on any 8 distinct players: 35
entries, each a 4+4 partition of the items, no two the same unordered
partition, and every 4+4 partition listed up to `SplitEquiv`. -/
theorem allSplits_exact (items : List Player) (hlen : items.length = 8)
    (hnd : items.Nodup) :
    (allSplitsOf8Into4And4 items).length = 35 ∧
    (∀ t ∈ allSplitsOf8Into4And4 items,
      t.1.length = 4 ∧ t.2.length = 4 ∧ (t.1 ++ t.2).Perm items) ∧
    (allSplitsOf8Into4And4 items).Pairwise (fun s t => ¬ SplitEquiv s t) ∧
    (∀ g1 g2 : List Player, g1.length = 4 → (g1 ++ g2).Perm items →
      ∃ t ∈ allSplitsOf8Into4And4 items, SplitEquiv t (g1, g2)) := by
  have hmap := allSplits_items items hlen
  have hinj := itemsF_inj items hlen hnd
  refine ⟨?_, ?_, ?_, ?_⟩
  · rw [hmap, List.length_map, canonicalSplits_length]
  · intro t ht
    rw [hmap] at ht
    rcases List.mem_map.mp ht with ⟨u, hu, rfl⟩
    have hc := canonicalSplits_partition u hu
    refine ⟨by simp [hc.1], by simp [hc.2.1], ?_⟩
    have : ((u.1 ++ u.2).map (itemsF items)).Perm
        ((List.finRange 8).map (itemsF items)) := hc.2.2.map _
    rw [itemsF_map items hlen, List.map_append] at this
    exact this
  · rw [hmap]
    rw [List.pairwise_map]
    refine canonicalSplits_pairwise.imp ?_
    intro u v huv hsp
    refine huv ?_
    rcases hsp with ⟨h1, h2⟩ | ⟨h1, h2⟩
    · exact Or.inl ⟨perm_map_inv _ hinj _ _ h1, perm_map_inv _ hinj _ _ h2⟩
    · exact Or.inr ⟨perm_map_inv _ hinj _ _ h1, perm_map_inv _ hinj _ _ h2⟩
  · intro g1 g2 hg1 hperm
    have hmem : ∀ p ∈ g1 ++ g2, p ∈ items := fun p hp => hperm.mem_iff.mp hp
    have hback1 : (g1.map (itemsFinv items)).map (itemsF items) = g1 := by
      rw [List.map_map]
      have hpt : ∀ p ∈ g1, (itemsF items ∘ itemsFinv items) p = id p := fun p hp =>
        itemsF_finv items hlen p (hmem p (List.mem_append.mpr (Or.inl hp)))
      rw [List.map_congr_left hpt, List.map_id]
    have hback2 : (g2.map (itemsFinv items)).map (itemsF items) = g2 := by
      rw [List.map_map]
      have hpt : ∀ p ∈ g2, (itemsF items ∘ itemsFinv items) p = id p := fun p hp =>
        itemsF_finv items hlen p (hmem p (List.mem_append.mpr (Or.inr hp)))
      rw [List.map_congr_left hpt, List.map_id]
    have hpermc : ((g1.map (itemsFinv items)) ++ (g2.map (itemsFinv items))).Perm
        (List.finRange 8) := by
      refine perm_map_inv (itemsF items) hinj _ _ ?_
      rw [List.map_append, hback1, hback2, itemsF_map items hlen]
      exact hperm
    rcases canonicalSplits_complete (g1.map (itemsFinv items)) (g2.map (itemsFinv items))
        (by rw [List.length_map, hg1]) hpermc with ⟨t, ht, hsp⟩
    refine ⟨(t.1.map (itemsF items), t.2.map (itemsF items)), ?_, ?_⟩
    · rw [hmap]
      exact List.mem_map.mpr ⟨t, ht, rfl⟩
    · rcases hsp with ⟨h1, h2⟩ | ⟨h1, h2⟩
      · refine Or.inl ⟨?_, ?_⟩
        · have := h1.map (itemsF items)
          rwa [hback1] at this
        · have := h2.map (itemsF items)
          rwa [hback2] at this
      · refine Or.inr ⟨?_, ?_⟩
        · have := h1.map (itemsF items)
          rwa [hback2] at this
        · have := h2.map (itemsF items)
          rwa [hback1] at this

/-- The selection loop of `bestTeamSplit` keeps the best seen so far. -/
theorem bestSplitFold_min (pc : PairCountMap) :
    ∀ (l : List DCourt) (best : DCourt) (b : Nat), b = splitCost pc best →
      (bestSplitFold pc l best (some b) = best ∨ bestSplitFold pc l best (some b) ∈ l) ∧
      splitCost pc (bestSplitFold pc l best (some b)) ≤ b ∧
      ∀ s ∈ l, splitCost pc (bestSplitFold pc l best (some b)) ≤ splitCost pc s := by
  intro l
  induction l with
  | nil =>
    intro best b hb
    refine ⟨Or.inl rfl, by rw [hb]; exact Nat.le_refl _, ?_⟩
    intro s hs
    simp at hs
  | cons s rest ih =>
    intro best b hb
    have hunf : bestSplitFold pc (s :: rest) best (some b) =
        (if splitCost pc s < b then bestSplitFold pc rest s (some (splitCost pc s))
         else bestSplitFold pc rest best (some b)) := rfl
    rw [hunf]
    by_cases hc : splitCost pc s < b
    · rw [if_pos hc]
      rcases ih s (splitCost pc s) rfl with ⟨hmem, hle, hall⟩
      refine ⟨?_, by omega, ?_⟩
      · rcases hmem with h | h
        · rw [h]
          exact Or.inr (List.mem_cons_self _ _)
        · exact Or.inr (List.mem_cons.mpr (Or.inr h))
      · intro t ht
        rcases List.mem_cons.mp ht with ht | ht
        · rw [ht]
          exact hle
        · exact hall t ht
    · rw [if_neg hc]
      rcases ih best b hb with ⟨hmem, hle, hall⟩
      refine ⟨?_, hle, ?_⟩
      · rcases hmem with h | h
        · exact Or.inl h
        · exact Or.inr (List.mem_cons.mpr (Or.inr h))
      · intro t ht
        rcases List.mem_cons.mp ht with ht | ht
        · rw [ht]
          omega
        · exact hall t ht

/-- `bestTeamSplit` on four players picks one of the three 2+2 splits of
minimal partner cost. -/
theorem bestTeamSplit_min (a b c d : Player) (pc : PairCountMap) :
    bestTeamSplit [a, b, c, d] pc ∈ bestTeamSplitList [a, b, c, d] ∧
    ∀ s ∈ bestTeamSplitList [a, b, c, d],
      splitCost pc (bestTeamSplit [a, b, c, d] pc) ≤ splitCost pc s := by
  have hunf : bestTeamSplit [a, b, c, d] pc =
      bestSplitFold pc [⟨(a, c), (b, d)⟩, ⟨(a, d), (b, c)⟩] ⟨(a, b), (c, d)⟩
        (some (splitCost pc ⟨(a, b), (c, d)⟩)) := rfl
  rcases bestSplitFold_min pc [⟨(a, c), (b, d)⟩, ⟨(a, d), (b, c)⟩] ⟨(a, b), (c, d)⟩
      (splitCost pc ⟨(a, b), (c, d)⟩) rfl with ⟨hmem, hle, hall⟩
  constructor
  · rw [hunf]
    show _ ∈ [(⟨(a, b), (c, d)⟩ : DCourt), ⟨(a, c), (b, d)⟩, ⟨(a, d), (b, c)⟩]
    rcases hmem with h | h
    · rw [h]
      exact List.mem_cons_self _ _
    · exact List.mem_cons.mpr (Or.inr h)
  · intro s hs
    rw [hunf]
    have hs3 : s = (⟨(a, b), (c, d)⟩ : DCourt) ∨ s = ⟨(a, c), (b, d)⟩ ∨
        s = ⟨(a, d), (b, c)⟩ := by
      simpa [bestTeamSplitList] using hs
    rcases hs3 with h | h | h
    · rw [h]
      exact hle
    · rw [h]
      exact hall _ (List.mem_cons_self _ _)
    · rw [h]
      exact hall _ (List.mem_cons.mpr (Or.inr (List.mem_cons_self _ _)))

/-- A strict-improvement fold only reports candidates cheaper than its
seed. -/
theorem foldl_best_lt {α : Type} (c : α → Nat) (v : α → DCourt × DCourt)
    (w : DCourt × DCourt → Nat) (hw : ∀ gg, w (v gg) = c gg) :
    ∀ (l : List α) (st : Nat × Option (DCourt × DCourt)) (p : DCourt × DCourt),
      (l.foldl (fun st gg => if c gg < st.1 then (c gg, some (v gg)) else st) st).2 = some p →
      st.2 = some p ∨ w p < st.1 := by
  intro l
  induction l with
  | nil => intro st p h; exact Or.inl h
  | cons a l ih =>
    intro st p h
    simp only [List.foldl_cons] at h
    by_cases ha : c a < st.1
    · rw [if_pos ha] at h
      rcases ih _ _ h with h | h
      · injection h with h
        rw [← h, hw]
        exact Or.inr ha
      · exact Or.inr (by omega)
    · rw [if_neg ha] at h
      exact ih _ _ h

/-- An adopted doubles swap strictly lowers the combined court cost. -/
theorem doublesPairImprove_lt (pc oc : PairCountMap) (ci cj : DCourt)
    (c1 c2 : DCourt) (h : doublesPairImprove pc oc ci cj = some (c1, c2)) :
    fullCourtCost c1.team1 c1.team2 pc oc + fullCourtCost c2.team1 c2.team2 pc oc <
      fullCourtCost ci.team1 ci.team2 pc oc + fullCourtCost cj.team1 cj.team2 pc oc := by
  simp only [doublesPairImprove] at h
  rcases foldl_best_lt
      (fun (gg : List Player × List Player) =>
        fullCourtCost (bestTeamSplit gg.1 pc).team1 (bestTeamSplit gg.1 pc).team2 pc oc +
          fullCourtCost (bestTeamSplit gg.2 pc).team1 (bestTeamSplit gg.2 pc).team2 pc oc)
      (fun gg => (bestTeamSplit gg.1 pc, bestTeamSplit gg.2 pc))
      (fun p => fullCourtCost p.1.team1 p.1.team2 pc oc +
        fullCourtCost p.2.team1 p.2.team2 pc oc)
      (fun gg => rfl) _ _ _ h with h | h
  · cases h
  · exact h

/-- C7: on 8 distinct players `allSplitsOf8Into4And4` enumerates exactly the
35 distinct unordered 4+4 partitions, each once; `bestTeamSplit` picks, among
the 3 possible 2+2 splits of four players, one of minimal partner cost; and
the doubles swap improvement adopts a recombination only when its combined
partner-plus-opponent cost is strictly below the current configuration. -/
theorem c7_splits_and_swaps (items : List Player) (hlen : items.length = 8)
    (hnd : items.Nodup) (pc oc : PairCountMap) (a b c d : Player) (ci cj : DCourt) :
    ((allSplitsOf8Into4And4 items).length = 35 ∧
     (∀ t ∈ allSplitsOf8Into4And4 items,
        t.1.length = 4 ∧ t.2.length = 4 ∧ (t.1 ++ t.2).Perm items) ∧
     (allSplitsOf8Into4And4 items).Pairwise (fun s t => ¬ SplitEquiv s t) ∧
     (∀ g1 g2 : List Player, g1.length = 4 → (g1 ++ g2).Perm items →
        ∃ t ∈ allSplitsOf8Into4And4 items, SplitEquiv t (g1, g2))) ∧
    (bestTeamSplit [a, b, c, d] pc ∈ bestTeamSplitList [a, b, c, d] ∧
     ∀ s ∈ bestTeamSplitList [a, b, c, d],
        splitCost pc (bestTeamSplit [a, b, c, d] pc) ≤ splitCost pc s) ∧
    (∀ c1 c2 : DCourt, doublesPairImprove pc oc ci cj = some (c1, c2) →
      fullCourtCost c1.team1 c1.team2 pc oc + fullCourtCost c2.team1 c2.team2 pc oc <
        fullCourtCost ci.team1 ci.team2 pc oc + fullCourtCost cj.team1 cj.team2 pc oc) :=
  ⟨allSplits_exact items hlen hnd, bestTeamSplit_min a b c d pc,
   fun c1 c2 h => doublesPairImprove_lt pc oc ci cj c1 c2 h⟩

/-- Eight distinct players used to witness C7. -/
def c7Items : List Player :=
  [⟨"a", "A", "male"⟩, ⟨"b", "B", "female"⟩, ⟨"c", "C", "male"⟩, ⟨"d", "D", "female"⟩,
   ⟨"e", "E", "male"⟩, ⟨"f", "F", "female"⟩, ⟨"g", "G", "male"⟩, ⟨"h", "H", "female"⟩]

/-- Concrete instance of C7 on eight distinct players, empty counter maps
and two concrete courts. -/
theorem c7_witness :
    c7Items.length = 8 ∧ c7Items.Nodup ∧
    (((allSplitsOf8Into4And4 c7Items).length = 35 ∧
      (∀ t ∈ allSplitsOf8Into4And4 c7Items,
        t.1.length = 4 ∧ t.2.length = 4 ∧ (t.1 ++ t.2).Perm c7Items) ∧
      (allSplitsOf8Into4And4 c7Items).Pairwise (fun s t => ¬ SplitEquiv s t) ∧
      (∀ g1 g2 : List Player, g1.length = 4 → (g1 ++ g2).Perm c7Items →
        ∃ t ∈ allSplitsOf8Into4And4 c7Items, SplitEquiv t (g1, g2))) ∧
    (bestTeamSplit [⟨"a", "A", "male"⟩, ⟨"b", "B", "female"⟩, ⟨"c", "C", "male"⟩,
        ⟨"d", "D", "female"⟩] [] ∈
      bestTeamSplitList [⟨"a", "A", "male"⟩, ⟨"b", "B", "female"⟩, ⟨"c", "C", "male"⟩,
        ⟨"d", "D", "female"⟩] ∧
     ∀ s ∈ bestTeamSplitList [⟨"a", "A", "male"⟩, ⟨"b", "B", "female"⟩,
        ⟨"c", "C", "male"⟩, ⟨"d", "D", "female"⟩],
        splitCost [] (bestTeamSplit [⟨"a", "A", "male"⟩, ⟨"b", "B", "female"⟩,
          ⟨"c", "C", "male"⟩, ⟨"d", "D", "female"⟩] []) ≤ splitCost [] s) ∧
    (∀ c1 c2 : DCourt,
      doublesPairImprove [] []
        ⟨(⟨"a", "A", "male"⟩, ⟨"b", "B", "female"⟩), (⟨"c", "C", "male"⟩, ⟨"d", "D", "female"⟩)⟩
        ⟨(⟨"e", "E", "male"⟩, ⟨"f", "F", "female"⟩), (⟨"g", "G", "male"⟩, ⟨"h", "H", "female"⟩)⟩ =
          some (c1, c2) →
      fullCourtCost c1.team1 c1.team2 [] [] + fullCourtCost c2.team1 c2.team2 [] [] <
        fullCourtCost (⟨"a", "A", "male"⟩, ⟨"b", "B", "female"⟩)
            (⟨"c", "C", "male"⟩, ⟨"d", "D", "female"⟩) [] [] +
          fullCourtCost (⟨"e", "E", "male"⟩, ⟨"f", "F", "female"⟩)
            (⟨"g", "G", "male"⟩, ⟨"h", "H", "female"⟩) [] [])) :=
  ⟨by decide, by decide,
    c7_splits_and_swaps c7Items (by decide) (by decide) [] []
      ⟨"a", "A", "male"⟩ ⟨"b", "B", "female"⟩ ⟨"c", "C", "male"⟩ ⟨"d", "D", "female"⟩
      ⟨(⟨"a", "A", "male"⟩, ⟨"b", "B", "female"⟩), (⟨"c", "C", "male"⟩, ⟨"d", "D", "female"⟩)⟩
      ⟨(⟨"e", "E", "male"⟩, ⟨"f", "F", "female"⟩), (⟨"g", "G", "male"⟩, ⟨"h", "H", "female"⟩)⟩⟩

-- ─── Court structure: distinct players per court (C8) ────────────────

/-- All players of a list of singles pairings, in court order. -/
def flatC (cs : List (Player × Player)) : List Player :=
  cs.flatMap (fun t => [t.1, t.2])

/-- All players of a list of doubles court assignments, in court order. -/
def flatD (cs : List DCourt) : List Player :=
  cs.flatMap dcourtPlayers

/-- A list of length 4 has exactly four elements. -/
theorem exists_four {α : Type} : ∀ (l : List α), l.length = 4 →
    ∃ a b c d, l = [a, b, c, d] := by
  intro l h
  match l, h with
  | [a, b, c, d], _ => exact ⟨a, b, c, d, rfl⟩

/-- Three-way append rotation. -/
theorem perm_swap_left {α : Type} (A B C : List α) :
    (A ++ (B ++ C)).Perm (B ++ (A ++ C)) := by
  rw [← List.append_assoc, ← List.append_assoc]
  exact (List.perm_append_comm).append_right C

/-- `getD` ignores a `set` at a different index. -/
theorem getD_set_ne {α : Type} [Inhabited α] :
    ∀ (cs : List α) (i j : Nat), i ≠ j → ∀ (u : α),
      (cs.set i u).getD j default = cs.getD j default := by
  intro cs
  induction cs with
  | nil => intro i j hij u; simp
  | cons x cs ih =>
    intro i j hij u
    cases i with
    | zero =>
      cases j with
      | zero => exact absurd rfl hij
      | succ j => rfl
    | succ i =>
      cases j with
      | zero => rfl
      | succ j => exact ih i j (fun h => hij (by rw [h])) u

/-- Replacing one element exchanges its block in the flattened list. -/
theorem flatMap_set_exchange {α β : Type} [Inhabited α] (f : α → List β) :
    ∀ (cs : List α) (j : Nat) (v : α), j < cs.length →
      (f (cs.getD j default) ++ ((cs.set j v).flatMap f)).Perm
        (f v ++ cs.flatMap f) := by
  intro cs
  induction cs with
  | nil => intro j v h; simp at h
  | cons x cs ih =>
    intro j v h
    cases j with
    | zero =>
      show (f x ++ (f v ++ cs.flatMap f)).Perm (f v ++ (f x ++ cs.flatMap f))
      exact perm_swap_left _ _ _
    | succ j =>
      show (f (cs.getD j default) ++ (f x ++ (cs.set j v).flatMap f)).Perm
        (f v ++ (f x ++ cs.flatMap f))
      have h1 : (f (cs.getD j default) ++ (f x ++ (cs.set j v).flatMap f)).Perm
          (f x ++ (f (cs.getD j default) ++ (cs.set j v).flatMap f)) :=
        perm_swap_left _ _ _
      have h2 := (ih j v (Nat.lt_of_succ_lt_succ h)).append_left (f x)
      exact h1.trans (h2.trans (perm_swap_left _ _ _))

/-- Replacing two elements by a rearrangement of their blocks permutes the
flattened list. -/
theorem flatMap_set_set_perm {α β : Type} [Inhabited α] [DecidableEq β] (f : α → List β)
    (cs : List α) (i j : Nat) (hij : i ≠ j) (hi : i < cs.length) (hj : j < cs.length)
    (u v : α)
    (hperm : (f u ++ f v).Perm (f (cs.getD i default) ++ f (cs.getD j default))) :
    (((cs.set i u).set j v).flatMap f).Perm (cs.flatMap f) := by
  have hj2 : j < (cs.set i u).length := by rw [List.length_set]; exact hj
  have h1 := flatMap_set_exchange f (cs.set i u) j v hj2
  rw [getD_set_ne cs i j hij u] at h1
  have h2 := flatMap_set_exchange f cs i u hi
  have hchain : (f (cs.getD i default) ++ (f (cs.getD j default) ++
      ((cs.set i u).set j v).flatMap f)).Perm
      ((f v ++ f u) ++ cs.flatMap f) := by
    refine (h1.append_left (f (cs.getD i default))).trans ?_
    refine (perm_swap_left _ _ _).trans ?_
    refine (h2.append_left (f v)).trans ?_
    rw [List.append_assoc]
  have hpre : ((f v ++ f u) ++ cs.flatMap f).Perm
      ((f (cs.getD i default) ++ f (cs.getD j default)) ++ cs.flatMap f) := by
    refine List.Perm.append_right _ ?_
    exact (List.perm_append_comm).trans hperm
  have hfull := hchain.trans hpre
  rw [← List.append_assoc] at hfull
  exact (List.perm_append_left_iff _).mp hfull

/-- The block of a member embeds into the flattened list. -/
theorem mem_flatMap_sublist {α β : Type} (f : α → List β) (l : List α) (a : α)
    (ha : a ∈ l) : (f a).Sublist (l.flatMap f) := by
  rcases List.append_of_mem ha with ⟨s, t, rfl⟩
  rw [List.flatMap_append]
  refine List.Sublist.trans ?_ (List.sublist_append_right _ _)
  show (f a).Sublist ((a :: t).flatMap f)
  show (f a).Sublist (f a ++ t.flatMap f)
  exact List.sublist_append_left _ _

/-- Candidate pairs of the `i < j` double loop have distinct ids when the
pool ids are distinct. -/
theorem pairsWithCost_ne (cost : Player → Player → Nat) :
    ∀ (l : List Player), (l.map Player.id).Nodup →
      ∀ pr ∈ pairsWithCost cost l, pr.1.1.id ≠ pr.1.2.id := by
  intro l
  induction l with
  | nil => intro _ pr hpr; simp [pairsWithCost] at hpr
  | cons x xs ih =>
    intro hnd pr hpr
    rcases List.mem_append.mp hpr with h | h
    · rcases List.mem_map.mp h with ⟨y, hy, rfl⟩
      intro he
      exact (List.nodup_cons.mp hnd).1 (he ▸ List.mem_map.mpr ⟨y, hy, rfl⟩)
    · exact ih (List.nodup_cons.mp hnd).2 pr h

/-- The greedy claim loop only forms courts of players with fresh distinct
ids. -/
theorem claimPairs_nodup (limit : Nat) :
    ∀ (l : List ((Player × Player) × Nat)) (used : List String)
      (acc : List (Player × Player)),
      (∀ pr ∈ l, pr.1.1.id ≠ pr.1.2.id) →
      ((flatC acc).map Player.id).Nodup →
      (∀ x ∈ (flatC acc).map Player.id, x ∈ used) →
      ((flatC (claimPairs limit l used acc)).map Player.id).Nodup := by
  intro l
  induction l with
  | nil => intro used acc _ hnd _; exact hnd
  | cons pr rest ih =>
    intro used acc hne hnd hcov
    unfold claimPairs
    by_cases h1 : limit ≤ acc.length
    · rw [if_pos h1]; exact hnd
    · rw [if_neg h1]
      by_cases h2 : pr.1.1.id ∈ used ∨ pr.1.2.id ∈ used
      · rw [if_pos h2]
        exact ih _ _ (fun q hq => hne q (List.mem_cons.mpr (Or.inr hq))) hnd hcov
      · rw [if_neg h2]
        push_neg at h2
        refine ih _ _ (fun q hq => hne q (List.mem_cons.mpr (Or.inr hq))) ?_ ?_
        · have hfc : flatC (acc ++ [pr.1]) = flatC acc ++ [pr.1.1, pr.1.2] := by
            show (acc ++ [pr.1]).flatMap (fun t => [t.1, t.2]) = _
            rw [List.flatMap_append]
            rfl
          rw [hfc, List.map_append]
          rw [List.nodup_append]
          refine ⟨hnd, ?_, ?_⟩
          · simp [hne pr (List.mem_cons_self _ _)]
          · intro x hx
            have hxu := hcov x hx
            intro hx2
            simp only [List.map_cons, List.map_nil, List.mem_cons,
              List.not_mem_nil, or_false] at hx2
            rcases hx2 with h | h
            · exact h2.1 (h ▸ hxu)
            · exact h2.2 (h ▸ hxu)
        · intro x hx
          have hfc : flatC (acc ++ [pr.1]) = flatC acc ++ [pr.1.1, pr.1.2] := by
            show (acc ++ [pr.1]).flatMap (fun t => [t.1, t.2]) = _
            rw [List.flatMap_append]
            rfl
          rw [hfc, List.map_append] at hx
          rcases List.mem_append.mp hx with h | h
          · exact List.mem_cons.mpr (Or.inr (List.mem_cons.mpr (Or.inr (hcov x h))))
          · simp only [List.map_cons, List.map_nil, List.mem_cons,
              List.not_mem_nil, or_false] at h
            rcases h with h | h
            · exact h ▸ List.mem_cons_self _ _
            · exact List.mem_cons.mpr (Or.inr (h ▸ List.mem_cons_self _ _))

/-- The selected active players keep distinct ids. -/
theorem selectActivePlayers_active_nodup (pool : List Player) (needed : Nat)
    (soc : CountMap) (r : RNG) (hnd : (pool.map Player.id).Nodup) :
    (((selectActivePlayers pool needed soc r).1.1).map Player.id).Nodup := by
  by_cases hle : pool.length ≤ needed
  · have h1 : (selectActivePlayers pool needed soc r).1.1 = pool := by
      unfold selectActivePlayers
      rw [if_pos hle]
    rw [h1]
    exact hnd
  · have h1 : (selectActivePlayers pool needed soc r).1.1 =
        (socOrdered pool soc r).take needed := by
      unfold selectActivePlayers socOrdered
      rw [if_neg hle]
      rfl
    rw [h1]
    have hp : ((socOrdered pool soc r).map Player.id).Perm (pool.map Player.id) :=
      (socOrdered_perm pool soc r).map _
    have hnd2 : ((socOrdered pool soc r).map Player.id).Nodup := hp.nodup_iff.mpr hnd
    rw [List.map_take]
    exact List.Nodup.sublist (List.take_sublist _ _) hnd2

/-- Sweep index pairs are strictly increasing. -/
theorem pairIdxList_lt_pair (n : Nat) :
    ∀ ij ∈ pairIdxList n, ij.1 < n ∧ ij.2 < n ∧ ij.1 < ij.2 := by
  intro ij hij
  rcases List.mem_flatMap.mp hij with ⟨i, hi, hij⟩
  rcases List.mem_map.mp hij with ⟨j, hj, rfl⟩
  exact ⟨List.mem_range.mp hi, List.mem_range.mp (List.mem_filter.mp hj).1,
    by simpa using (List.mem_filter.mp hj).2⟩

/-- One singles swap step permutes the flattened court players. -/
theorem singlesPairStep_perm (oc : PairCountMap) (cs : List (Player × Player))
    (i j : Nat) (hi : i < cs.length) (hj : j < cs.length) (hij : i ≠ j) :
    (flatC (singlesPairStep oc cs (i, j)).1).Perm (flatC cs) ∧
      (singlesPairStep oc cs (i, j)).1.length = cs.length := by
  have hunf : singlesPairStep oc cs (i, j) =
      (if getCount oc (cs.getD i default).1.id (cs.getD j default).1.id +
          getCount oc (cs.getD i default).2.id (cs.getD j default).2.id <
          getCount oc (cs.getD i default).1.id (cs.getD i default).2.id +
          getCount oc (cs.getD j default).1.id (cs.getD j default).2.id ∧
         getCount oc (cs.getD i default).1.id (cs.getD j default).1.id +
          getCount oc (cs.getD i default).2.id (cs.getD j default).2.id ≤
          getCount oc (cs.getD i default).1.id (cs.getD j default).2.id +
          getCount oc (cs.getD i default).2.id (cs.getD j default).1.id then
        ((cs.set i ((cs.getD i default).1, (cs.getD j default).1)).set j
          ((cs.getD i default).2, (cs.getD j default).2), true)
       else if getCount oc (cs.getD i default).1.id (cs.getD j default).2.id +
          getCount oc (cs.getD i default).2.id (cs.getD j default).1.id <
          getCount oc (cs.getD i default).1.id (cs.getD i default).2.id +
          getCount oc (cs.getD j default).1.id (cs.getD j default).2.id then
        ((cs.set i ((cs.getD i default).1, (cs.getD j default).2)).set j
          ((cs.getD i default).2, (cs.getD j default).1), true)
       else (cs, false)) := rfl
  rw [hunf]
  split_ifs with h1 h2
  · constructor
    · refine flatMap_set_set_perm _ cs i j hij hi hj _ _ ?_
      show ([(cs.getD i default).1, (cs.getD j default).1] ++
        [(cs.getD i default).2, (cs.getD j default).2]).Perm
        ([(cs.getD i default).1, (cs.getD i default).2] ++
          [(cs.getD j default).1, (cs.getD j default).2])
      refine List.Perm.cons _ ?_
      exact List.Perm.swap _ _ _
    · simp [List.length_set]
  · constructor
    · refine flatMap_set_set_perm _ cs i j hij hi hj _ _ ?_
      show ([(cs.getD i default).1, (cs.getD j default).2] ++
        [(cs.getD i default).2, (cs.getD j default).1]).Perm
        ([(cs.getD i default).1, (cs.getD i default).2] ++
          [(cs.getD j default).1, (cs.getD j default).2])
      refine List.Perm.cons _ ?_
      show ([(cs.getD j default).2] ++ [(cs.getD i default).2, (cs.getD j default).1]).Perm _
      refine (List.perm_append_comm).trans ?_
      show ((cs.getD i default).2 :: [(cs.getD j default).1, (cs.getD j default).2]).Perm _
      exact List.Perm.refl _
    · simp [List.length_set]
  · exact ⟨List.Perm.refl _, rfl⟩

/-- The singles sweep fold permutes the flattened court players. -/
theorem foldl_singlesStep_perm (oc : PairCountMap) (n : Nat) :
    ∀ (l : List (Nat × Nat)) (st : List (Player × Player) × Bool),
      (∀ ij ∈ l, ij.1 < n ∧ ij.2 < n ∧ ij.1 ≠ ij.2) → st.1.length = n →
      (flatC (l.foldl (fun st ij => ((singlesPairStep oc st.1 ij).1,
          st.2 || (singlesPairStep oc st.1 ij).2)) st).1).Perm (flatC st.1) ∧
      (l.foldl (fun st ij => ((singlesPairStep oc st.1 ij).1,
          st.2 || (singlesPairStep oc st.1 ij).2)) st).1.length = n := by
  intro l
  induction l with
  | nil => intro st _ hlen; exact ⟨List.Perm.refl _, hlen⟩
  | cons ij l ih =>
    intro st hb hlen
    rw [List.foldl_cons]
    rcases hb ij (List.mem_cons_self _ _) with ⟨h1, h2, h3⟩
    rcases ij with ⟨i, j⟩
    have hstep := singlesPairStep_perm oc st.1 i j (by omega) (by omega) h3
    rcases ih ((singlesPairStep oc st.1 (i, j)).1,
        st.2 || (singlesPairStep oc st.1 (i, j)).2)
        (fun x hx => hb x (List.mem_cons.mpr (Or.inr hx)))
        (by rw [hstep.2, hlen]) with ⟨hp, hl⟩
    exact ⟨hp.trans hstep.1, hl⟩

/-- One full singles sweep permutes the flattened court players. -/
theorem singlesSweep_perm (oc : PairCountMap) (cs : List (Player × Player)) :
    (flatC (singlesSweep oc cs).1).Perm (flatC cs) ∧
      (singlesSweep oc cs).1.length = cs.length := by
  show (flatC ((pairIdxList cs.length).foldl (fun st ij => ((singlesPairStep oc st.1 ij).1,
      st.2 || (singlesPairStep oc st.1 ij).2)) (cs, false)).1).Perm (flatC cs) ∧ _
  exact foldl_singlesStep_perm oc cs.length (pairIdxList cs.length) (cs, false)
    (fun ij hij => by
      rcases pairIdxList_lt_pair cs.length ij hij with ⟨h1, h2, h3⟩
      exact ⟨h1, h2, by omega⟩) rfl

/-- Unfolding of one iteration of the singles improvement loop. -/
theorem improveLoopS_succ (oc : PairCountMap) (n : Nat) (cs : List (Player × Player)) :
    improveLoopS oc (n + 1) cs =
      (if (singlesSweep oc cs).2 then improveLoopS oc n (singlesSweep oc cs).1
       else (singlesSweep oc cs).1) := rfl

/-- The singles improvement loop permutes the flattened court players. -/
theorem improveLoopS_perm (oc : PairCountMap) :
    ∀ (fuel : Nat) (cs : List (Player × Player)),
      (flatC (improveLoopS oc fuel cs)).Perm (flatC cs) := by
  intro fuel
  induction fuel with
  | zero => intro cs; exact List.Perm.refl _
  | succ n ih =>
    intro cs
    rw [improveLoopS_succ]
    by_cases himp : (singlesSweep oc cs).2 = true
    · rw [if_pos himp]
      exact (ih _).trans (singlesSweep_perm oc cs).1
    · rw [if_neg himp]
      exact (singlesSweep_perm oc cs).1

/-- The singles matcher only builds courts of distinct-id players. -/
theorem assignSinglesCourts_nodup (active : List Player) (numCourts : Nat)
    (oc : PairCountMap) (r : RNG) (hnd : (active.map Player.id).Nodup) :
    ((flatC (assignSinglesCourts active numCourts oc r).1).map Player.id).Nodup := by
  by_cases h0 : min numCourts (active.length / 2) = 0
  · have h1 : (assignSinglesCourts active numCourts oc r).1 = [] := by
      simp only [assignSinglesCourts]
      rw [if_pos h0]
    rw [h1]
    simp [flatC]
  · have h1 : (assignSinglesCourts active numCourts oc r).1 =
        improveSinglesSwap
          (claimPairs (min numCourts (active.length / 2))
            (sortRand (fun pr => pr.2)
              (pairsWithCost (fun p q => getCount oc p.id q.id) active) r).1 [] []) oc := by
      simp only [assignSinglesCourts]
      rw [if_neg h0]
    rw [h1]
    have hclaim := claimPairs_nodup (min numCourts (active.length / 2))
      (sortRand (fun pr => pr.2)
        (pairsWithCost (fun p q => getCount oc p.id q.id) active) r).1 [] []
      (fun pr hpr => pairsWithCost_ne _ active hnd pr (sortRand_mem _ _ _ _ hpr))
      (by simp [flatC]) (by simp [flatC])
    have hperm := (improveLoopS_perm oc 50 (claimPairs (min numCourts (active.length / 2))
      (sortRand (fun pr => pr.2)
        (pairsWithCost (fun p q => getCount oc p.id q.id) active) r).1 [] [])).map Player.id
    exact hperm.nodup_iff.mpr hclaim

/-- Any court accumulated by the singles per-court fold comes from a listed
pair (source-tracking refinement). -/
theorem mem_foldl_singlesCourtFold_src (r : Nat) :
    ∀ (l : List (Nat × (Player × Player)))
      (init : List Court × PairCountMap × CourtCountMap)
      (c : Court), c ∈ (l.foldl (singlesCourtFold r) init).1 →
      c ∈ init.1 ∨ ∃ ia ∈ l,
        c = buildCourtObject r ia.1 [ia.2.1, ia.2.2] none none := by
  intro l
  induction l with
  | nil => intro init c hc; exact Or.inl hc
  | cons a l ih =>
    intro init c hc
    rw [List.foldl_cons] at hc
    rcases ih _ c hc with h | ⟨ia, hia, he⟩
    · simp only [singlesCourtFold, List.mem_append, List.mem_singleton] at h
      rcases h with h | h
      · exact Or.inl h
      · exact Or.inr ⟨a, List.mem_cons_self _ _, h⟩
    · exact Or.inr ⟨ia, List.mem_cons.mpr (Or.inr hia), he⟩

/-- Every court of a singles round holds two distinct-id players. -/
theorem singlesStep_court_ids (players : List Player) (numCourts r : Nat)
    (f : Fair) (rng : RNG) (hnd : (players.map Player.id).Nodup) :
    ∀ c ∈ (singlesStep players numCourts r f rng).1.courts,
      ∃ p q : Player, c.players = [p, q] ∧ p.id ≠ q.id := by
  intro c hc
  simp only [singlesStep] at hc
  rcases mem_foldl_singlesCourtFold_src r _ _ c hc with h | ⟨ia, hia, he⟩
  · simp at h
  · have h2 : ia.2 ∈ (assignCourtNumbers
        (assignSinglesCourts
          (selectActivePlayers players (numCourts * 2) f.sitOutCounts rng).1.1
          numCourts f.opponentCounts
          (selectActivePlayers players (numCourts * 2) f.sitOutCounts rng).2.2).1
        f.courtCounts (fun pair => [pair.1, pair.2])
        (assignSinglesCourts
          (selectActivePlayers players (numCourts * 2) f.sitOutCounts rng).1.1
          numCourts f.opponentCounts
          (selectActivePlayers players (numCourts * 2) f.sitOutCounts rng).2.2).2).1 :=
      mem_enumFrom_snd _ 0 ia hia
    have h3 := assignCourtNumbers_mem _ _ _ _ _ h2
    have hactive := selectActivePlayers_active_nodup players (numCourts * 2)
      f.sitOutCounts rng hnd
    have hflat := assignSinglesCourts_nodup
      (selectActivePlayers players (numCourts * 2) f.sitOutCounts rng).1.1
      numCourts f.opponentCounts
      (selectActivePlayers players (numCourts * 2) f.sitOutCounts rng).2.2 hactive
    have hsub : ([ia.2.1, ia.2.2].map Player.id).Sublist
        ((flatC (assignSinglesCourts
          (selectActivePlayers players (numCourts * 2) f.sitOutCounts rng).1.1
          numCourts f.opponentCounts
          (selectActivePlayers players (numCourts * 2) f.sitOutCounts rng).2.2).1).map
            Player.id) :=
      (mem_flatMap_sublist (fun t => [t.1, t.2]) _ ia.2 h3).map _
    have hnd2 := List.Nodup.sublist hsub hflat
    refine ⟨ia.2.1, ia.2.2, by rw [he]; rfl, ?_⟩
    intro heq
    rcases List.nodup_cons.mp hnd2 with ⟨hni, _⟩
    exact hni (by rw [heq]; exact List.mem_cons_self _ _)

/-- Two distinct-id players on every singles court of every round. -/
theorem singlesRoundsAux_court_ids (players : List Player) (numCourts : Nat)
    (hnd : (players.map Player.id).Nodup) :
    ∀ (fuel r0 : Nat) (f : Fair) (rng : RNG) (round : Round),
      round ∈ (singlesRoundsAux players numCourts r0 fuel f rng).1 →
      ∀ c ∈ round.courts, ∃ p q : Player, c.players = [p, q] ∧ p.id ≠ q.id := by
  intro fuel
  induction fuel with
  | zero => intro r0 f rng round hround; simp [singlesRoundsAux] at hround
  | succ n ih =>
    intro r0 f rng round hround c hc
    rw [singlesRoundsAux_succ] at hround
    rcases List.mem_cons.mp hround with hround | hround
    · exact singlesStep_court_ids players numCourts r0 f rng hnd c
        (by rw [hround] at hc; exact hc)
    · exact ih (r0 + 1) _ _ round hround c hc

/-- The Stage B index claim loop never reuses a team index. -/
theorem claimTeamPairs_flat_nodup (limit : Nat) :
    ∀ (l : List ((Nat × Nat) × Nat)) (usedT : List Nat) (acc : List (Nat × Nat)),
      (∀ tp ∈ l, tp.1.1 ≠ tp.1.2) →
      (acc.flatMap (fun ij => [ij.1, ij.2])).Nodup →
      (∀ x ∈ acc.flatMap (fun ij => [ij.1, ij.2]), x ∈ usedT) →
      ((claimTeamPairs limit l usedT acc).flatMap (fun ij => [ij.1, ij.2])).Nodup := by
  intro l
  induction l with
  | nil => intro usedT acc _ hnd _; exact hnd
  | cons tp rest ih =>
    intro usedT acc hne hnd hcov
    unfold claimTeamPairs
    by_cases h1 : limit ≤ acc.length
    · rw [if_pos h1]; exact hnd
    · rw [if_neg h1]
      by_cases h2 : tp.1.1 ∈ usedT ∨ tp.1.2 ∈ usedT
      · rw [if_pos h2]
        exact ih _ _ (fun q hq => hne q (List.mem_cons.mpr (Or.inr hq))) hnd hcov
      · rw [if_neg h2]
        push_neg at h2
        refine ih _ _ (fun q hq => hne q (List.mem_cons.mpr (Or.inr hq))) ?_ ?_
        · rw [List.flatMap_append]
          rw [List.nodup_append]
          refine ⟨hnd, ?_, ?_⟩
          · simp [hne tp (List.mem_cons_self _ _)]
          · intro x hx
            have hxu := hcov x hx
            intro hx2
            simp only [List.flatMap_cons, List.flatMap_nil, List.append_nil,
              List.mem_cons, List.not_mem_nil, or_false] at hx2
            rcases hx2 with h | h
            · exact h2.1 (h ▸ hxu)
            · exact h2.2 (h ▸ hxu)
        · intro x hx
          rw [List.flatMap_append] at hx
          rcases List.mem_append.mp hx with h | h
          · exact List.mem_cons.mpr (Or.inr (List.mem_cons.mpr (Or.inr (hcov x h))))
          · simp only [List.flatMap_cons, List.flatMap_nil, List.append_nil,
              List.mem_cons, List.not_mem_nil, or_false] at h
            rcases h with h | h
            · exact h ▸ List.mem_cons_self _ _
            · exact List.mem_cons.mpr (Or.inr (h ▸ List.mem_cons_self _ _))

/-- Blocks drawn at distinct indices from a globally distinct flattening are
jointly distinct. -/
theorem flatMap_blocks_nodup {β : Type} [DecidableEq β] (g : Nat → List β)
    (idxs : List Nat) (hnd : idxs.Nodup)
    (hblock : ∀ k ∈ idxs, (g k).Nodup)
    (hdisj : ∀ i ∈ idxs, ∀ j ∈ idxs, i ≠ j → ∀ x ∈ g i, ¬ x ∈ g j) :
    (idxs.flatMap g).Nodup := by
  rw [List.nodup_flatMap]
  refine ⟨hblock, ?_⟩
  refine List.Pairwise.imp_of_mem ?_ hnd
  intro i j hi hj hne
  intro x hxi hxj
  exact hdisj i hi j hj hne x hxi hxj

/-- Blocks of a team list with globally distinct ids are disjoint across
distinct indices. -/
theorem teams_block_disjoint (teams : List (Player × Player))
    (hnd : ((flatC teams).map Player.id).Nodup) :
    ∀ i j : Nat, i < teams.length → j < teams.length → i ≠ j →
      ∀ x ∈ [(teams.getD i default).1.id, (teams.getD i default).2.id],
        ¬ x ∈ [(teams.getD j default).1.id, (teams.getD j default).2.id] := by
  have hmap : (flatC teams).map Player.id =
      teams.flatMap (fun t => [t.1.id, t.2.id]) := by
    show (teams.flatMap (fun t => [t.1, t.2])).map Player.id = _
    rw [List.map_flatMap]
    rfl
  rw [hmap] at hnd
  rcases List.nodup_flatMap.mp hnd with ⟨_, hpair⟩
  have hget := List.pairwise_iff_get.mp hpair
  intro i j hi hj hne x hxi hxj
  rcases Nat.lt_or_ge i j with hij | hij
  · have := hget ⟨i, hi⟩ ⟨j, hj⟩ hij
    rw [List.getD_eq_get teams default hi] at hxi
    rw [List.getD_eq_get teams default hj] at hxj
    exact this hxi hxj
  · have hji : j < i := by omega
    have := hget ⟨j, hj⟩ ⟨i, hi⟩ hji
    rw [List.getD_eq_get teams default hi] at hxi
    rw [List.getD_eq_get teams default hj] at hxj
    exact this hxj hxi

/-- Stage B builds courts whose four players have distinct ids, globally
over all built courts. -/
theorem pairTeamsIntoCourts_nodup (teams : List (Player × Player))
    (actualCourts : Nat) (oc : PairCountMap) (r : RNG)
    (hnd : ((flatC teams).map Player.id).Nodup) :
    ((flatD (pairTeamsIntoCourts teams actualCourts oc r).1).map Player.id).Nodup := by
  have hblocknd : ∀ t ∈ teams, ([t.1.id, t.2.id] : List String).Nodup := by
    have hmap : (flatC teams).map Player.id =
        teams.flatMap (fun t => [t.1.id, t.2.id]) := by
      show (teams.flatMap (fun t => [t.1, t.2])).map Player.id = _
      rw [List.map_flatMap]
      rfl
    rw [hmap] at hnd
    exact (List.nodup_flatMap.mp hnd).1
  simp only [pairTeamsIntoCourts]
  have hchosen := claimTeamPairs_flat_nodup actualCourts
    (sortRand (fun tp => tp.2) (idxPairsWithCost
      (fun i j => courtOpponentCost (teams.getD i default) (teams.getD j default) oc)
      teams.length) r).1 [] []
    (fun tp htp => by
      have := idxPairsWithCost_lt _ teams.length tp (sortRand_mem _ _ _ _ htp)
      rcases List.mem_flatMap.mp (sortRand_mem _ _ _ _ htp) with ⟨i, hi, htp2⟩
      rcases List.mem_map.mp htp2 with ⟨j, hj, rfl⟩
      have := (List.mem_filter.mp hj).2
      simp only [decide_eq_true_eq] at this
      show i ≠ j
      omega)
    (by simp) (by simp)
  have hbounds : ∀ k ∈ (claimTeamPairs actualCourts
      (sortRand (fun tp => tp.2) (idxPairsWithCost
        (fun i j => courtOpponentCost (teams.getD i default) (teams.getD j default) oc)
        teams.length) r).1 [] []).flatMap (fun ij => [ij.1, ij.2]),
      k < teams.length := by
    intro k hk
    rcases List.mem_flatMap.mp hk with ⟨ij, hij, hk2⟩
    rcases claimTeamPairs_mem actualCourts _ _ _ ij hij with h | ⟨tp, htp, he⟩
    · simp at h
    · have hlt := idxPairsWithCost_lt _ teams.length tp (sortRand_mem _ _ _ _ htp)
      simp only [List.mem_cons, List.not_mem_nil, or_false] at hk2
      rcases hk2 with h | h
      · rw [h, he]; exact hlt.1
      · rw [h, he]; exact hlt.2
  have heq : (flatD ((claimTeamPairs actualCourts
      (sortRand (fun tp => tp.2) (idxPairsWithCost
        (fun i j => courtOpponentCost (teams.getD i default) (teams.getD j default) oc)
        teams.length) r).1 [] []).map
        (fun ij => DCourt.mk (teams.getD ij.1 default) (teams.getD ij.2 default)))).map
        Player.id =
      ((claimTeamPairs actualCourts
        (sortRand (fun tp => tp.2) (idxPairsWithCost
          (fun i j => courtOpponentCost (teams.getD i default) (teams.getD j default) oc)
          teams.length) r).1 [] []).flatMap (fun ij => [ij.1, ij.2])).flatMap
        (fun k => [(teams.getD k default).1.id, (teams.getD k default).2.id]) := by
    rw [List.flatMap_assoc]
    show (((claimTeamPairs _ _ _ _).map
      (fun ij => DCourt.mk (teams.getD ij.1 default) (teams.getD ij.2 default))).flatMap
        dcourtPlayers).map Player.id = _
    rw [List.map_flatMap, List.flatMap_map]
    rfl
  rw [heq]
  refine flatMap_blocks_nodup _ _ hchosen ?_ ?_
  · intro k hk
    exact hblocknd _ (getD_mem teams k (hbounds k hk))
  · intro i hi j hj hne x hxi hxj
    exact teams_block_disjoint teams hnd i j (hbounds i hi) (hbounds j hj) hne x hxi hxj

/-- The chosen 2+2 split uses exactly the four given players. -/
theorem bestTeamSplit_players_perm (g : List Player) (pc : PairCountMap)
    (hlen : g.length = 4) :
    (dcourtPlayers (bestTeamSplit g pc)).Perm g := by
  rcases exists_four g hlen with ⟨a, b, c, d, rfl⟩
  have hmem : bestTeamSplit [a, b, c, d] pc ∈
      [(⟨(a, b), (c, d)⟩ : DCourt), ⟨(a, c), (b, d)⟩, ⟨(a, d), (b, c)⟩] :=
    (bestTeamSplit_min a b c d pc).1
  simp only [List.mem_cons, List.not_mem_nil, or_false] at hmem
  rcases hmem with h | h | h
  · rw [h]
    exact List.Perm.refl _
  · rw [h]
    show ([a, c, b, d] : List Player).Perm [a, b, c, d]
    exact List.Perm.cons a (List.Perm.swap _ _ _)
  · rw [h]
    show ([a, d, b, c] : List Player).Perm [a, b, c, d]
    refine List.Perm.cons a ?_
    show (([d] : List Player) ++ [b, c]).Perm ([b, c] ++ [d])
    exact List.perm_append_comm

/-- Every enumerated split is a 4+4 partition of any 8 players. -/
theorem allSplits_partition (items : List Player) (hlen : items.length = 8) :
    ∀ t ∈ allSplitsOf8Into4And4 items,
      t.1.length = 4 ∧ t.2.length = 4 ∧ (t.1 ++ t.2).Perm items := by
  have hmap := allSplits_items items hlen
  intro t ht
  rw [hmap] at ht
  rcases List.mem_map.mp ht with ⟨u, hu, rfl⟩
  have hc := canonicalSplits_partition u hu
  refine ⟨by simp [hc.1], by simp [hc.2.1], ?_⟩
  have hperm : ((u.1 ++ u.2).map (itemsF items)).Perm
      ((List.finRange 8).map (itemsF items)) := hc.2.2.map _
  rw [itemsF_map items hlen, List.map_append] at hperm
  exact hperm

/-- An adopted doubles swap uses exactly the eight players of the two
courts. -/
theorem doublesPairImprove_players_perm (pc oc : PairCountMap) (ci cj : DCourt)
    (c1 c2 : DCourt) (h : doublesPairImprove pc oc ci cj = some (c1, c2)) :
    (dcourtPlayers c1 ++ dcourtPlayers c2).Perm
      (dcourtPlayers ci ++ dcourtPlayers cj) := by
  simp only [doublesPairImprove] at h
  rcases foldl_best_mem
      (fun (gg : List Player × List Player) =>
        fullCourtCost (bestTeamSplit gg.1 pc).team1 (bestTeamSplit gg.1 pc).team2 pc oc +
          fullCourtCost (bestTeamSplit gg.2 pc).team1 (bestTeamSplit gg.2 pc).team2 pc oc)
      (fun gg => (bestTeamSplit gg.1 pc, bestTeamSplit gg.2 pc)) _ _ _ h
      with h' | ⟨gg, hgg, he⟩
  · cases h'
  · injection he with h1 h2
    have hpart := allSplits_partition (dcourtPlayers ci ++ dcourtPlayers cj)
      (by simp [dcourtPlayers]) gg hgg
    have p1 := bestTeamSplit_players_perm gg.1 pc hpart.1
    have p2 := bestTeamSplit_players_perm gg.2 pc hpart.2.1
    rw [h1, h2]
    exact (p1.append p2).trans hpart.2.2

/-- One doubles swap step permutes the flattened court players. -/
theorem doublesPairStep_perm (pc oc : PairCountMap) (courts : List DCourt)
    (i j : Nat) (hi : i < courts.length) (hj : j < courts.length) (hij : i ≠ j) :
    (flatD (doublesPairStep pc oc courts (i, j)).1).Perm (flatD courts) ∧
      (doublesPairStep pc oc courts (i, j)).1.length = courts.length := by
  rcases himp : doublesPairImprove pc oc (courts.getD i default) (courts.getD j default)
      with _ | ⟨c1, c2⟩
  · have hunf : doublesPairStep pc oc courts (i, j) = (courts, false) := by
      unfold doublesPairStep
      simp only [himp]
    rw [hunf]
    exact ⟨List.Perm.refl _, rfl⟩
  · have hunf : doublesPairStep pc oc courts (i, j) =
        ((courts.set i c1).set j c2, true) := by
      unfold doublesPairStep
      simp only [himp]
    rw [hunf]
    constructor
    · exact flatMap_set_set_perm dcourtPlayers courts i j hij hi hj c1 c2
        (doublesPairImprove_players_perm pc oc _ _ c1 c2 himp)
    · simp [List.length_set]

/-- The doubles sweep body, written with explicit projections. -/
def sweepStepD (pc oc : PairCountMap) (st : List DCourt × Bool) (ij : Nat × Nat) :
    List DCourt × Bool :=
  ((doublesPairStep pc oc st.1 ij).1, st.2 || (doublesPairStep pc oc st.1 ij).2)

/-- `doublesSweep` as a fold of the projection-form body. -/
theorem doublesSweep_eq (pc oc : PairCountMap) (cs : List DCourt) :
    doublesSweep pc oc cs = (pairIdxList cs.length).foldl (sweepStepD pc oc) (cs, false) := by
  unfold doublesSweep
  have hfun : (fun (st : List DCourt × Bool) ij =>
      (let (cs2, imp2) := doublesPairStep pc oc st.1 ij; (cs2, st.2 || imp2))) =
      sweepStepD pc oc := by
    funext st ij
    rcases hX : doublesPairStep pc oc st.1 ij with ⟨a, b⟩
    simp only [sweepStepD, hX]
  rw [hfun]

/-- The doubles sweep fold permutes the flattened court players. -/
theorem foldl_doublesStep_perm (pc oc : PairCountMap) (n : Nat) :
    ∀ (l : List (Nat × Nat)) (st : List DCourt × Bool),
      (∀ ij ∈ l, ij.1 < n ∧ ij.2 < n ∧ ij.1 ≠ ij.2) → st.1.length = n →
      (flatD (l.foldl (sweepStepD pc oc) st).1).Perm (flatD st.1) ∧
      (l.foldl (sweepStepD pc oc) st).1.length = n := by
  intro l
  induction l with
  | nil => intro st _ hlen; exact ⟨List.Perm.refl _, hlen⟩
  | cons ij l ih =>
    intro st hb hlen
    rw [List.foldl_cons]
    rcases hb ij (List.mem_cons_self _ _) with ⟨h1, h2, h3⟩
    rcases ij with ⟨i, j⟩
    have hstep := doublesPairStep_perm pc oc st.1 i j (by omega) (by omega) h3
    rcases hX : doublesPairStep pc oc st.1 (i, j) with ⟨cs2, imp2⟩
    rw [hX] at hstep
    have hstep1 : (flatD cs2).Perm (flatD st.1) := hstep.1
    have hstep2 : cs2.length = st.1.length := hstep.2
    have hfs : sweepStepD pc oc st (i, j) = (cs2, st.2 || imp2) := by
      unfold sweepStepD
      rw [hX]
    rw [hfs]
    rcases ih (cs2, st.2 || imp2)
        (fun x hx => hb x (List.mem_cons.mpr (Or.inr hx)))
        (by show cs2.length = n; rw [hstep2, hlen]) with ⟨hp, hl⟩
    refine ⟨?_, hl⟩
    refine List.Perm.trans ?_ hstep1
    exact hp

/-- One full doubles sweep permutes the flattened court players. -/
theorem doublesSweep_perm (pc oc : PairCountMap) (cs : List DCourt) :
    (flatD (doublesSweep pc oc cs).1).Perm (flatD cs) ∧
      (doublesSweep pc oc cs).1.length = cs.length := by
  rw [doublesSweep_eq]
  exact foldl_doublesStep_perm pc oc cs.length (pairIdxList cs.length) (cs, false)
    (fun ij hij => by
      rcases pairIdxList_lt_pair cs.length ij hij with ⟨h1, h2, h3⟩
      exact ⟨h1, h2, by omega⟩) rfl

/-- Unfolding of one iteration of the doubles improvement loop. -/
theorem improveLoopD_succ (pc oc : PairCountMap) (n : Nat) (cs : List DCourt) :
    improveLoopD pc oc (n + 1) cs =
      (if (doublesSweep pc oc cs).2 then improveLoopD pc oc n (doublesSweep pc oc cs).1
       else (doublesSweep pc oc cs).1) := rfl

/-- The doubles improvement loop permutes the flattened court players. -/
theorem improveLoopD_perm (pc oc : PairCountMap) :
    ∀ (fuel : Nat) (cs : List DCourt),
      (flatD (improveLoopD pc oc fuel cs)).Perm (flatD cs) := by
  intro fuel
  induction fuel with
  | zero => intro cs; exact List.Perm.refl _
  | succ n ih =>
    intro cs
    rw [improveLoopD_succ]
    by_cases himp : (doublesSweep pc oc cs).2 = true
    · rw [if_pos himp]
      exact (ih _).trans (doublesSweep_perm pc oc cs).1
    · rw [if_neg himp]
      exact (doublesSweep_perm pc oc cs).1

/-- The doubles matcher only builds courts of distinct-id players. -/
theorem assignDoublesCourts_nodup (active : List Player) (numCourts : Nat)
    (pc oc : PairCountMap) (r : RNG) (hnd : (active.map Player.id).Nodup) :
    ((flatD (assignDoublesCourts active numCourts pc oc r).1).map Player.id).Nodup := by
  by_cases h0 : min numCourts (active.length / 4) = 0
  · have h1 : (assignDoublesCourts active numCourts pc oc r).1 = [] := by
      simp only [assignDoublesCourts]
      rw [if_pos h0]
    rw [h1]
    simp [flatD]
  · have h1 : (assignDoublesCourts active numCourts pc oc r).1 =
        improveDoublesSwap
          (pairTeamsIntoCourts
            (claimPairs (min numCourts (active.length / 4) * 2)
              (sortRand (fun pr => pr.2)
                (pairsWithCost (fun p q => getCount pc p.id q.id) active) r).1 [] [])
            (min numCourts (active.length / 4)) oc
            (sortRand (fun pr => pr.2)
              (pairsWithCost (fun p q => getCount pc p.id q.id) active) r).2).1
          pc oc := by
      simp only [assignDoublesCourts]
      rw [if_neg h0]
    rw [h1]
    have hteams := claimPairs_nodup (min numCourts (active.length / 4) * 2)
      (sortRand (fun pr => pr.2)
        (pairsWithCost (fun p q => getCount pc p.id q.id) active) r).1 [] []
      (fun pr hpr => pairsWithCost_ne _ active hnd pr (sortRand_mem _ _ _ _ hpr))
      (by simp [flatC]) (by simp [flatC])
    have hcourts := pairTeamsIntoCourts_nodup
      (claimPairs (min numCourts (active.length / 4) * 2)
        (sortRand (fun pr => pr.2)
          (pairsWithCost (fun p q => getCount pc p.id q.id) active) r).1 [] [])
      (min numCourts (active.length / 4)) oc
      (sortRand (fun pr => pr.2)
        (pairsWithCost (fun p q => getCount pc p.id q.id) active) r).2 hteams
    have hperm := (improveLoopD_perm pc oc 50
      (pairTeamsIntoCourts
        (claimPairs (min numCourts (active.length / 4) * 2)
          (sortRand (fun pr => pr.2)
            (pairsWithCost (fun p q => getCount pc p.id q.id) active) r).1 [] [])
        (min numCourts (active.length / 4)) oc
        (sortRand (fun pr => pr.2)
          (pairsWithCost (fun p q => getCount pc p.id q.id) active) r).2).1).map Player.id
    exact hperm.nodup_iff.mpr hcourts

/-- Every court of a random-doubles round is built from a four-distinct-id
assignment. -/
theorem doublesStep_court_ids (players : List Player) (numCourts r : Nat)
    (f : Fair) (rng : RNG) (hnd : (players.map Player.id).Nodup) :
    ∀ c ∈ (doublesStep players numCourts r f rng).1.courts,
      ∃ (idx : Nat) (a : DCourt),
        c = buildCourtObject r idx (dcourtPlayers a)
          (some [a.team1.1, a.team1.2]) (some [a.team2.1, a.team2.2]) ∧
        ((dcourtPlayers a).map Player.id).Nodup := by
  intro c hc
  simp only [doublesStep, buildDoublesCourts] at hc
  rcases mem_foldl_doublesCourtFold_src r _ _ c hc with h | ⟨ia, hia, he⟩
  · simp at h
  · have h2 : ia.2 ∈ (assignCourtNumbers
        (assignDoublesCourts
          (selectActivePlayers players (numCourts * 4) f.sitOutCounts rng).1.1
          numCourts f.partnerCounts f.opponentCounts
          (selectActivePlayers players (numCourts * 4) f.sitOutCounts rng).2.2).1
        f.courtCounts (fun a => dcourtPlayers a)
        (assignDoublesCourts
          (selectActivePlayers players (numCourts * 4) f.sitOutCounts rng).1.1
          numCourts f.partnerCounts f.opponentCounts
          (selectActivePlayers players (numCourts * 4) f.sitOutCounts rng).2.2).2).1 :=
      mem_enumFrom_snd _ 0 ia hia
    have h3 := assignCourtNumbers_mem _ _ _ _ _ h2
    have hactive := selectActivePlayers_active_nodup players (numCourts * 4)
      f.sitOutCounts rng hnd
    have hflat := assignDoublesCourts_nodup
      (selectActivePlayers players (numCourts * 4) f.sitOutCounts rng).1.1
      numCourts f.partnerCounts f.opponentCounts
      (selectActivePlayers players (numCourts * 4) f.sitOutCounts rng).2.2 hactive
    have hsub : ((dcourtPlayers ia.2).map Player.id).Sublist
        ((flatD (assignDoublesCourts
          (selectActivePlayers players (numCourts * 4) f.sitOutCounts rng).1.1
          numCourts f.partnerCounts f.opponentCounts
          (selectActivePlayers players (numCourts * 4) f.sitOutCounts rng).2.2).1).map
            Player.id) :=
      (mem_flatMap_sublist dcourtPlayers _ ia.2 h3).map _
    exact ⟨ia.1, ia.2, he, List.Nodup.sublist hsub hflat⟩

/-- Four distinct-id players on every court of every random-doubles round. -/
theorem doublesRoundsAux_court_ids (players : List Player) (numCourts : Nat)
    (hnd : (players.map Player.id).Nodup) :
    ∀ (fuel r0 : Nat) (f : Fair) (rng : RNG) (round : Round),
      round ∈ (doublesRoundsAux players numCourts r0 fuel f rng).1 →
      ∀ c ∈ round.courts,
        ∃ (r1 idx : Nat) (a : DCourt),
          c = buildCourtObject r1 idx (dcourtPlayers a)
            (some [a.team1.1, a.team1.2]) (some [a.team2.1, a.team2.2]) ∧
          ((dcourtPlayers a).map Player.id).Nodup := by
  intro fuel
  induction fuel with
  | zero => intro r0 f rng round hround; simp [doublesRoundsAux] at hround
  | succ n ih =>
    intro r0 f rng round hround c hc
    rw [doublesRoundsAux_succ] at hround
    rcases List.mem_cons.mp hround with hround | hround
    · rcases doublesStep_court_ids players numCourts r0 f rng hnd c
        (by rw [hround] at hc; exact hc) with ⟨idx, a, he, hnd4⟩
      exact ⟨r0, idx, a, he, hnd4⟩
    · exact ih (r0 + 1) _ _ round hround c hc

/-- The mixed Stage A claim loop keeps all claimed players distinct: the
two used-id sets prevent reusing a male or a female, and the two gender
pools have disjoint ids. -/
theorem claimMixedPairs_nodup (limit : Nat) (Mids Fids : List String)
    (hdisj : ∀ x ∈ Mids, ¬ x ∈ Fids) :
    ∀ (l : List ((Player × Player) × Nat)) (usedM usedF : List String)
      (acc : List (Player × Player)),
      (∀ pr ∈ l, pr.1.1.id ∈ Mids ∧ pr.1.2.id ∈ Fids) →
      (∀ t ∈ acc, t.1.id ∈ Mids ∧ t.2.id ∈ Fids) →
      (∀ t ∈ acc, t.1.id ∈ usedM ∧ t.2.id ∈ usedF) →
      ((flatC acc).map Player.id).Nodup →
      ((flatC (claimMixedPairs limit l usedM usedF acc)).map Player.id).Nodup := by
  intro l
  induction l with
  | nil => intro usedM usedF acc _ _ _ hnd; exact hnd
  | cons pr rest ih =>
    intro usedM usedF acc hl hpool hused hnd
    unfold claimMixedPairs
    by_cases h1 : limit ≤ acc.length
    · rw [if_pos h1]; exact hnd
    · rw [if_neg h1]
      by_cases h2 : pr.1.1.id ∈ usedM ∨ pr.1.2.id ∈ usedF
      · rw [if_pos h2]
        exact ih _ _ _ (fun q hq => hl q (List.mem_cons.mpr (Or.inr hq))) hpool hused hnd
      · rw [if_neg h2]
        push_neg at h2
        have hprM := (hl pr (List.mem_cons_self _ _)).1
        have hprF := (hl pr (List.mem_cons_self _ _)).2
        have hfc : flatC (acc ++ [pr.1]) = flatC acc ++ [pr.1.1, pr.1.2] := by
          show (acc ++ [pr.1]).flatMap (fun t => [t.1, t.2]) = _
          rw [List.flatMap_append]
          rfl
        refine ih _ _ _ (fun q hq => hl q (List.mem_cons.mpr (Or.inr hq))) ?_ ?_ ?_
        · intro t ht
          rcases List.mem_append.mp ht with h | h
          · exact hpool t h
          · rw [List.mem_singleton.mp h]
            exact ⟨hprM, hprF⟩
        · intro t ht
          rcases List.mem_append.mp ht with h | h
          · rcases hused t h with ⟨hM, hF⟩
            exact ⟨List.mem_cons.mpr (Or.inr hM), List.mem_cons.mpr (Or.inr hF)⟩
          · rw [List.mem_singleton.mp h]
            exact ⟨List.mem_cons_self _ _, List.mem_cons_self _ _⟩
        · rw [hfc, List.map_append, List.nodup_append]
          refine ⟨hnd, ?_, ?_⟩
          · have : pr.1.1.id ≠ pr.1.2.id := by
              intro he
              exact hdisj pr.1.1.id hprM (he ▸ hprF)
            simp [this]
          · intro x hx
            rcases List.mem_map.mp hx with ⟨p, hp, rfl⟩
            rcases List.mem_flatMap.mp hp with ⟨t, ht, hpt⟩
            intro hx2
            simp only [List.map_cons, List.map_nil, List.mem_cons,
              List.not_mem_nil, or_false] at hx2
            simp only [List.mem_cons, List.not_mem_nil, or_false] at hpt
            rcases hpt with hpt | hpt
            · -- p is the male slot of t: its id is in usedM and in Mids
              rcases hx2 with h | h
              · exact h2.1 (h ▸ hpt ▸ (hused t ht).1)
              · exact hdisj (t.1.id) (hpool t ht).1 ((hpt ▸ h) ▸ hprF)
            · -- p is the female slot of t: its id is in usedF and in Fids
              rcases hx2 with h | h
              · exact hdisj pr.1.1.id hprM ((h.symm ▸ hpt ▸ (hpool t ht).2))
              · exact h2.2 (h ▸ hpt ▸ (hused t ht).2)

/-- Stages A and B of the mixed matcher build courts of globally distinct
players when the two gender pools have disjoint distinct ids. -/
theorem mixedGreedyCourts_nodup (activeMales activeFemales : List Player)
    (actualCourts : Nat) (pc oc : PairCountMap) (r : RNG)
    (hdisj : ∀ x ∈ activeMales.map Player.id, ¬ x ∈ activeFemales.map Player.id) :
    ((flatD (mixedGreedyCourts activeMales activeFemales actualCourts pc oc r).1).map
      Player.id).Nodup := by
  have heq : (mixedGreedyCourts activeMales activeFemales actualCourts pc oc r).1 =
      (pairTeamsIntoCourts
        (claimMixedPairs (actualCourts * 2)
          (sortRand (fun pr => pr.2)
            (mixedPairsWithCost pc activeMales activeFemales) r).1 [] [] [])
        actualCourts oc
        (sortRand (fun pr => pr.2)
          (mixedPairsWithCost pc activeMales activeFemales) r).2).1 := rfl
  rw [heq]
  refine pairTeamsIntoCourts_nodup _ actualCourts oc _ ?_
  refine claimMixedPairs_nodup (actualCourts * 2) (activeMales.map Player.id)
    (activeFemales.map Player.id) hdisj _ [] [] [] ?_ ?_ ?_ ?_
  · intro pr hpr
    have := mixedPairsWithCost_mem pc activeMales activeFemales pr
      (sortRand_mem _ _ _ _ hpr)
    exact ⟨List.mem_map.mpr ⟨pr.1.1, this.1, rfl⟩, List.mem_map.mpr ⟨pr.1.2, this.2, rfl⟩⟩
  · intro t ht; simp at ht
  · intro t ht; simp at ht
  · simp [flatC]

/-- Flattening a zip of equal-length lists permutes their concatenation. -/
theorem flatC_zip_perm :
    ∀ (l1 l2 : List Player), l1.length = l2.length →
      (flatC (l1.zip l2)).Perm (l1 ++ l2) := by
  intro l1
  induction l1 with
  | nil =>
    intro l2 hlen
    have : l2 = [] := List.eq_nil_of_length_eq_zero hlen.symm
    rw [this]
    exact List.Perm.refl _
  | cons x l1 ih =>
    intro l2 hlen
    cases l2 with
    | nil => simp at hlen
    | cons y l2 =>
      show (x :: y :: flatC (l1.zip l2)).Perm (x :: l1 ++ y :: l2)
      refine List.Perm.cons x ?_
      have h1 : (y :: flatC (l1.zip l2)).Perm (y :: (l1 ++ l2)) :=
        (ih l2 (by simpa using hlen)).cons y
      refine h1.trans ?_
      exact List.perm_middle.symm

/-- Splitting eight players into odd and even positions is a permutation. -/
theorem interleave8_perm {α : Type} (a1 a2 a3 a4 b1 b2 b3 b4 : α) :
    (([a1, a3, b1, b3] ++ [a2, a4, b2, b4] : List α)).Perm
      ([a1, a2, a3, a4] ++ [b1, b2, b3, b4]) := by
  show ([a1, a3, b1, b3, a2, a4, b2, b4] : List α).Perm [a1, a2, a3, a4, b1, b2, b3, b4]
  refine List.Perm.cons a1 ?_
  have s1 : ([a3, b1, b3, a2, a4, b2, b4] : List α).Perm
      (a2 :: [a3, b1, b3, a4, b2, b4]) := by
    show (([a3, b1, b3] : List α) ++ a2 :: [a4, b2, b4]).Perm
      (a2 :: ([a3, b1, b3] ++ [a4, b2, b4]))
    exact List.perm_middle
  refine s1.trans ?_
  refine List.Perm.cons a2 ?_
  refine List.Perm.cons a3 ?_
  have s2 : ([b1, b3, a4, b2, b4] : List α).Perm (a4 :: [b1, b3, b2, b4]) := by
    show (([b1, b3] : List α) ++ a4 :: [b2, b4]).Perm (a4 :: ([b1, b3] ++ [b2, b4]))
    exact List.perm_middle
  refine s2.trans ?_
  refine List.Perm.cons a4 ?_
  refine List.Perm.cons b1 ?_
  exact List.Perm.swap _ _ _

/-- An adopted mixed swap uses exactly the eight players of the two
courts. -/
theorem mixedPairImprove_players_perm (pc oc : PairCountMap) (ci cj : DCourt)
    (hci : MixedCourtOK ci) (hcj : MixedCourtOK cj) (c1 c2 : DCourt)
    (h : mixedPairImprove pc oc ci cj = some (c1, c2)) :
    (dcourtPlayers c1 ++ dcourtPlayers c2).Perm
      (dcourtPlayers ci ++ dcourtPlayers cj) := by
  rcases hci with ⟨⟨hci1, hci2⟩, ⟨hci3, hci4⟩⟩
  rcases hcj with ⟨⟨hcj1, hcj2⟩, ⟨hcj3, hcj4⟩⟩
  have hmales : (dcourtPlayers ci ++ dcourtPlayers cj).filter
      (fun p => p.gender = "male") = [ci.team1.1, ci.team2.1, cj.team1.1, cj.team2.1] := by
    simp [dcourtPlayers, List.filter, hci1, hci2, hci3, hci4, hcj1, hcj2, hcj3, hcj4]
  have hfemales : (dcourtPlayers ci ++ dcourtPlayers cj).filter
      (fun p => p.gender = "female") = [ci.team1.2, ci.team2.2, cj.team1.2, cj.team2.2] := by
    simp [dcourtPlayers, List.filter, hci1, hci2, hci3, hci4, hcj1, hcj2, hcj3, hcj4]
  simp only [mixedPairImprove] at h
  rcases foldl_best_mem (fun (cand : Nat × DCourt × DCourt) => cand.1)
      (fun cand => (cand.2.1, cand.2.2)) _ _ _ h with hfold | ⟨cand, hcand, he⟩
  · cases hfold
  · rcases List.mem_flatMap.mp hcand with ⟨femPerm, hfp, hcand⟩
    rcases List.mem_map.mp hcand with ⟨q, hq, rfl⟩
    have hfperm : femPerm.Perm ((dcourtPlayers ci ++ dcourtPlayers cj).filter
        (fun p => p.gender = "female")) := permutations_perm _ _ hfp
    have hflen : femPerm.length = 4 := by
      rw [hfperm.length_eq, hfemales]
      rfl
    have hmlen : ((dcourtPlayers ci ++ dcourtPlayers cj).filter
        (fun p => p.gender = "male")).length = 4 := by
      rw [hmales]
      rfl
    have hzlen : (((dcourtPlayers ci ++ dcourtPlayers cj).filter
        (fun p => p.gender = "male")).zip femPerm).length = 4 := by
      rw [List.length_zip, hmlen, hflen]
      omega
    rcases exists_four _ hzlen with ⟨n0, n1, n2, n3, hN⟩
    have hzip : (flatC (((dcourtPlayers ci ++ dcourtPlayers cj).filter
        (fun p => p.gender = "male")).zip femPerm)).Perm
        (((dcourtPlayers ci ++ dcourtPlayers cj).filter
          (fun p => p.gender = "male")) ++ femPerm) :=
      flatC_zip_perm _ femPerm (by rw [hmlen, hflen])
    have hfull : (flatC (((dcourtPlayers ci ++ dcourtPlayers cj).filter
        (fun p => p.gender = "male")).zip femPerm)).Perm
        (dcourtPlayers ci ++ dcourtPlayers cj) := by
      refine hzip.trans ?_
      refine (hfperm.append_left _).trans ?_
      rw [hmales, hfemales]
      exact interleave8_perm _ _ _ _ _ _ _ _
    injection he with h1 h2
    simp only [courtPairings, List.mem_cons, List.not_mem_nil, or_false] at hq
    rcases hq with hq | hq | hq <;> subst hq <;> rw [h1, h2] <;>
      rw [hN] at hfull ⊢
    · exact hfull
    · refine List.Perm.trans ?_ hfull
      show (flatC [n0, n2, n1, n3]).Perm (flatC [n0, n1, n2, n3])
      refine List.Perm.flatMap_right _ ?_
      exact List.Perm.cons n0 (List.Perm.swap _ _ _)
    · refine List.Perm.trans ?_ hfull
      show (flatC [n0, n3, n1, n2]).Perm (flatC [n0, n1, n2, n3])
      refine List.Perm.flatMap_right _ ?_
      refine List.Perm.cons n0 ?_
      show (([n3] : List (Player × Player)) ++ [n1, n2]).Perm ([n1, n2] ++ [n3])
      exact List.perm_append_comm

/-- One mixed swap step permutes the flattened court players. -/
theorem mixedPairStep_perm (pc oc : PairCountMap) (courts : List DCourt)
    (i j : Nat) (hi : i < courts.length) (hj : j < courts.length) (hij : i ≠ j)
    (hOK : ∀ c ∈ courts, MixedCourtOK c) :
    (flatD (mixedPairStep pc oc courts (i, j)).1).Perm (flatD courts) := by
  rcases himp : mixedPairImprove pc oc (courts.getD i default) (courts.getD j default)
      with _ | ⟨c1, c2⟩
  · have hunf : mixedPairStep pc oc courts (i, j) = (courts, false) := by
      unfold mixedPairStep
      simp only [himp]
    rw [hunf]
  · have hunf : mixedPairStep pc oc courts (i, j) =
        ((courts.set i c1).set j c2, true) := by
      unfold mixedPairStep
      simp only [himp]
    rw [hunf]
    exact flatMap_set_set_perm dcourtPlayers courts i j hij hi hj c1 c2
      (mixedPairImprove_players_perm pc oc _ _ (hOK _ (getD_mem courts i hi))
        (hOK _ (getD_mem courts j hj)) c1 c2 himp)

/-- The mixed sweep fold keeps the invariant, the length, and the flattened
players up to permutation. -/
theorem foldl_mixedStep_perm (pc oc : PairCountMap) (n : Nat) :
    ∀ (l : List (Nat × Nat)) (st : List DCourt × Bool),
      (∀ ij ∈ l, ij.1 < n ∧ ij.2 < n ∧ ij.1 ≠ ij.2) → st.1.length = n →
      (∀ c ∈ st.1, MixedCourtOK c) →
      (flatD (l.foldl (fun st ij => ((mixedPairStep pc oc st.1 ij).1,
          st.2 || (mixedPairStep pc oc st.1 ij).2)) st).1).Perm (flatD st.1) := by
  intro l
  induction l with
  | nil => intro st _ _ _; exact List.Perm.refl _
  | cons ij l ih =>
    intro st hb hlen hOK
    rw [List.foldl_cons]
    rcases hb ij (List.mem_cons_self _ _) with ⟨h1, h2, h3⟩
    rcases ij with ⟨i, j⟩
    have hstep := mixedPairStep_perm pc oc st.1 i j (by omega) (by omega) (by omega) hOK
    have hstep2 := mixedPairStep_ok pc oc st.1 (i, j) (by constructor <;> omega) hOK
    refine List.Perm.trans ?_ hstep
    exact ih ((mixedPairStep pc oc st.1 (i, j)).1,
        st.2 || (mixedPairStep pc oc st.1 (i, j)).2)
      (fun x hx => hb x (List.mem_cons.mpr (Or.inr hx)))
      (by rw [hstep2.1, hlen]) hstep2.2

/-- One full mixed sweep permutes the flattened court players. -/
theorem mixedSweep_perm (pc oc : PairCountMap) (cs : List DCourt)
    (hOK : ∀ c ∈ cs, MixedCourtOK c) :
    (flatD (mixedSweep pc oc cs).1).Perm (flatD cs) := by
  show (flatD ((pairIdxList cs.length).foldl (fun st ij => ((mixedPairStep pc oc st.1 ij).1,
      st.2 || (mixedPairStep pc oc st.1 ij).2)) (cs, false)).1).Perm (flatD cs)
  exact foldl_mixedStep_perm pc oc cs.length (pairIdxList cs.length) (cs, false)
    (fun ij hij => by
      rcases pairIdxList_lt_pair cs.length ij hij with ⟨h1, h2, h3⟩
      exact ⟨h1, h2, by omega⟩) rfl hOK

/-- The mixed improvement loop permutes the flattened court players. -/
theorem improveLoopM_perm (pc oc : PairCountMap) :
    ∀ (fuel : Nat) (cs : List DCourt), (∀ c ∈ cs, MixedCourtOK c) →
      (flatD (improveLoopM pc oc fuel cs)).Perm (flatD cs) := by
  intro fuel
  induction fuel with
  | zero => intro cs _; exact List.Perm.refl _
  | succ n ih =>
    intro cs hOK
    rw [improveLoopM_succ]
    have hsweepOK := mixedSweep_ok pc oc cs hOK
    by_cases himp : (mixedSweep pc oc cs).2 = true
    · rw [if_pos himp]
      exact (ih _ hsweepOK.2).trans (mixedSweep_perm pc oc cs hOK)
    · rw [if_neg himp]
      exact mixedSweep_perm pc oc cs hOK

/-- The mixed matcher only builds courts of distinct-id players. -/
theorem assignMixedDoublesCourts_nodup (activeMales activeFemales : List Player)
    (numCourts : Nat) (pc oc : PairCountMap) (r : RNG)
    (hm : ∀ p ∈ activeMales, p.gender = "male")
    (hf : ∀ p ∈ activeFemales, p.gender = "female")
    (hdisj : ∀ x ∈ activeMales.map Player.id, ¬ x ∈ activeFemales.map Player.id) :
    ((flatD (assignMixedDoublesCourts activeMales activeFemales numCourts pc oc r).1).map
      Player.id).Nodup := by
  by_cases h0 : min numCourts (min (activeMales.length / 2) (activeFemales.length / 2)) = 0
  · have h1 : (assignMixedDoublesCourts activeMales activeFemales numCourts pc oc r).1 = [] := by
      simp only [assignMixedDoublesCourts]
      rw [if_pos h0]
    rw [h1]
    simp [flatD]
  · rw [assignMixedDoublesCourts_eq activeMales activeFemales numCourts pc oc r h0]
    have hOK := mixedGreedyCourts_ok activeMales activeFemales
      (min numCourts (min (activeMales.length / 2) (activeFemales.length / 2))) pc oc r hm hf
    have hgreedy := mixedGreedyCourts_nodup activeMales activeFemales
      (min numCourts (min (activeMales.length / 2) (activeFemales.length / 2))) pc oc r hdisj
    have hperm := (improveLoopM_perm pc oc 50
      (mixedGreedyCourts activeMales activeFemales
        (min numCourts (min (activeMales.length / 2) (activeFemales.length / 2)))
        pc oc r).1 hOK).map Player.id
    exact hperm.nodup_iff.mpr hgreedy

/-- Every court of a mixed round is built from a four-distinct-id
assignment. -/
theorem mixedStep_court_ids (males females : List Player) (maxCourts r : Nat)
    (f : Fair) (rng : RNG)
    (hm : ∀ p ∈ males, p.gender = "male")
    (hf : ∀ p ∈ females, p.gender = "female")
    (hdisj : ∀ x ∈ males.map Player.id, ¬ x ∈ females.map Player.id) :
    ∀ c ∈ (mixedStep males females maxCourts r f rng).1.courts,
      ∃ (idx : Nat) (a : DCourt),
        c = buildCourtObject r idx (dcourtPlayers a)
          (some [a.team1.1, a.team1.2]) (some [a.team2.1, a.team2.2]) ∧
        ((dcourtPlayers a).map Player.id).Nodup := by
  intro c hc
  simp only [mixedStep, buildDoublesCourts] at hc
  rcases mem_foldl_doublesCourtFold_src r _ _ c hc with h | ⟨ia, hia, he⟩
  · simp at h
  · have h2 : ia.2 ∈ (assignCourtNumbers
        (assignMixedDoublesCourts
          (selectActivePlayers males (maxCourts * 2) f.sitOutCounts rng).1.1
          (selectActivePlayers females (maxCourts * 2)
            (selectActivePlayers males (maxCourts * 2) f.sitOutCounts rng).2.1
            (selectActivePlayers males (maxCourts * 2) f.sitOutCounts rng).2.2).1.1
          maxCourts f.partnerCounts f.opponentCounts
          (selectActivePlayers females (maxCourts * 2)
            (selectActivePlayers males (maxCourts * 2) f.sitOutCounts rng).2.1
            (selectActivePlayers males (maxCourts * 2) f.sitOutCounts rng).2.2).2.2).1
        f.courtCounts (fun a => dcourtPlayers a)
        (assignMixedDoublesCourts
          (selectActivePlayers males (maxCourts * 2) f.sitOutCounts rng).1.1
          (selectActivePlayers females (maxCourts * 2)
            (selectActivePlayers males (maxCourts * 2) f.sitOutCounts rng).2.1
            (selectActivePlayers males (maxCourts * 2) f.sitOutCounts rng).2.2).1.1
          maxCourts f.partnerCounts f.opponentCounts
          (selectActivePlayers females (maxCourts * 2)
            (selectActivePlayers males (maxCourts * 2) f.sitOutCounts rng).2.1
            (selectActivePlayers males (maxCourts * 2) f.sitOutCounts rng).2.2).2.2).2).1 :=
      mem_enumFrom_snd _ 0 ia hia
    have h3 := assignCourtNumbers_mem _ _ _ _ _ h2
    have hflat := assignMixedDoublesCourts_nodup
      (selectActivePlayers males (maxCourts * 2) f.sitOutCounts rng).1.1
      (selectActivePlayers females (maxCourts * 2)
        (selectActivePlayers males (maxCourts * 2) f.sitOutCounts rng).2.1
        (selectActivePlayers males (maxCourts * 2) f.sitOutCounts rng).2.2).1.1
      maxCourts f.partnerCounts f.opponentCounts
      (selectActivePlayers females (maxCourts * 2)
        (selectActivePlayers males (maxCourts * 2) f.sitOutCounts rng).2.1
        (selectActivePlayers males (maxCourts * 2) f.sitOutCounts rng).2.2).2.2
      (fun p hp => hm p (selectActivePlayers_active_mem males _ _ _ p hp))
      (fun p hp => hf p (selectActivePlayers_active_mem females _ _ _ p hp))
      (fun x hx hx2 => by
        rcases List.mem_map.mp hx with ⟨p, hp, rfl⟩
        rcases List.mem_map.mp hx2 with ⟨q, hq, hqe⟩
        exact hdisj p.id
          (List.mem_map.mpr ⟨p, selectActivePlayers_active_mem males _ _ _ p hp, rfl⟩)
          (List.mem_map.mpr ⟨q, selectActivePlayers_active_mem females _ _ _ q hq, hqe⟩))
    have hsub : ((dcourtPlayers ia.2).map Player.id).Sublist
        ((flatD (assignMixedDoublesCourts
          (selectActivePlayers males (maxCourts * 2) f.sitOutCounts rng).1.1
          (selectActivePlayers females (maxCourts * 2)
            (selectActivePlayers males (maxCourts * 2) f.sitOutCounts rng).2.1
            (selectActivePlayers males (maxCourts * 2) f.sitOutCounts rng).2.2).1.1
          maxCourts f.partnerCounts f.opponentCounts
          (selectActivePlayers females (maxCourts * 2)
            (selectActivePlayers males (maxCourts * 2) f.sitOutCounts rng).2.1
            (selectActivePlayers males (maxCourts * 2) f.sitOutCounts rng).2.2).2.2).1).map
            Player.id) :=
      (mem_flatMap_sublist dcourtPlayers _ ia.2 h3).map _
    exact ⟨ia.1, ia.2, he, List.Nodup.sublist hsub hflat⟩

/-- Four distinct-id players on every court of every mixed round. -/
theorem mixedRoundsAux_court_ids (males females : List Player) (maxCourts : Nat)
    (hm : ∀ p ∈ males, p.gender = "male")
    (hf : ∀ p ∈ females, p.gender = "female")
    (hdisj : ∀ x ∈ males.map Player.id, ¬ x ∈ females.map Player.id) :
    ∀ (fuel r0 : Nat) (f : Fair) (rng : RNG) (round : Round),
      round ∈ (mixedRoundsAux males females maxCourts r0 fuel f rng).1 →
      ∀ c ∈ round.courts,
        ∃ (r1 idx : Nat) (a : DCourt),
          c = buildCourtObject r1 idx (dcourtPlayers a)
            (some [a.team1.1, a.team1.2]) (some [a.team2.1, a.team2.2]) ∧
          ((dcourtPlayers a).map Player.id).Nodup := by
  intro fuel
  induction fuel with
  | zero => intro r0 f rng round hround; simp [mixedRoundsAux] at hround
  | succ n ih =>
    intro r0 f rng round hround c hc
    rw [mixedRoundsAux_succ] at hround
    rcases List.mem_cons.mp hround with hround | hround
    · rcases mixedStep_court_ids males females maxCourts r0 f rng hm hf hdisj c
        (by rw [hround] at hc; exact hc) with ⟨idx, a, he, hnd4⟩
      exact ⟨r0, idx, a, he, hnd4⟩
    · exact ih (r0 + 1) _ _ round hround c hc

/-- C8: with distinct pool ids, every court of a doubles or mixed-doubles
round holds exactly 4 distinct player ids split 2/2 into `team1`/`team2`,
with the court's player list exactly `team1` followed by `team2`; every
court of a singles round holds exactly 2 distinct player ids. -/
theorem c8_court_structure (players : List Player) (numRounds numCourts : Nat)
    (rng : RNG) (hnd : (players.map Player.id).Nodup) :
    (∀ round ∈ generateSinglesRounds players numRounds numCourts rng,
      ∀ c ∈ round.courts, ∃ p q : Player, c.players = [p, q] ∧ p.id ≠ q.id) ∧
    (∀ round ∈ generateDoublesRandomRounds players numRounds numCourts rng,
      ∀ c ∈ round.courts, ∃ t1a t1b t2a t2b : Player,
        c.team1 = some [t1a, t1b] ∧ c.team2 = some [t2a, t2b] ∧
        c.players = [t1a, t1b] ++ [t2a, t2b] ∧
        ([t1a, t1b, t2a, t2b].map Player.id).Nodup) ∧
    (∀ round ∈ generateMixedDoublesRounds players numRounds numCourts rng,
      ∀ c ∈ round.courts, ∃ t1a t1b t2a t2b : Player,
        c.team1 = some [t1a, t1b] ∧ c.team2 = some [t2a, t2b] ∧
        c.players = [t1a, t1b] ++ [t2a, t2b] ∧
        ([t1a, t1b, t2a, t2b].map Player.id).Nodup) := by
  refine ⟨?_, ?_, ?_⟩
  · intro round hround c hc
    exact singlesRoundsAux_court_ids players numCourts hnd numRounds 0 _ _ round hround c hc
  · intro round hround c hc
    rcases doublesRoundsAux_court_ids players numCourts hnd numRounds 0 _ _ round hround c hc
      with ⟨r1, idx, a, he, hnd4⟩
    refine ⟨a.team1.1, a.team1.2, a.team2.1, a.team2.2, ?_, ?_, ?_, hnd4⟩
    · rw [he]; rfl
    · rw [he]; rfl
    · rw [he]; rfl
  · intro round hround c hc
    simp only [generateMixedDoublesRounds] at hround
    split at hround
    · simp at hround
    · rcases mixedRoundsAux_court_ids
          (players.filter (fun p => p.gender = "male"))
          (players.filter (fun p => p.gender = "female")) _
          (fun p hp => by simpa using (List.mem_filter.mp hp).2)
          (fun p hp => by simpa using (List.mem_filter.mp hp).2)
          (filter_gender_disjoint players hnd)
          numRounds 0 _ rng round hround c hc with ⟨r1, idx, a, he, hnd4⟩
      refine ⟨a.team1.1, a.team1.2, a.team2.1, a.team2.2, ?_, ?_, ?_, hnd4⟩
      · rw [he]; rfl
      · rw [he]; rfl
      · rw [he]; rfl

set_option maxRecDepth 40000 in
/-- Concrete instance of C8 on eight distinct players, one round, one
court, zero generator, in all three modes. -/
theorem c8_witness :
    (c7Items.map Player.id).Nodup ∧
    ((∀ round ∈ generateSinglesRounds c7Items 1 1 ⟨fun _ => 0, 0⟩,
      ∀ c ∈ round.courts, ∃ p q : Player, c.players = [p, q] ∧ p.id ≠ q.id) ∧
    (∀ round ∈ generateDoublesRandomRounds c7Items 1 1 ⟨fun _ => 0, 0⟩,
      ∀ c ∈ round.courts, ∃ t1a t1b t2a t2b : Player,
        c.team1 = some [t1a, t1b] ∧ c.team2 = some [t2a, t2b] ∧
        c.players = [t1a, t1b] ++ [t2a, t2b] ∧
        ([t1a, t1b, t2a, t2b].map Player.id).Nodup) ∧
    (∀ round ∈ generateMixedDoublesRounds c7Items 1 1 ⟨fun _ => 0, 0⟩,
      ∀ c ∈ round.courts, ∃ t1a t1b t2a t2b : Player,
        c.team1 = some [t1a, t1b] ∧ c.team2 = some [t2a, t2b] ∧
        c.players = [t1a, t1b] ++ [t2a, t2b] ∧
        ([t1a, t1b, t2a, t2b].map Player.id).Nodup)) :=
  ⟨by decide, c8_court_structure c7Items 1 1 ⟨fun _ => 0, 0⟩ (by decide)⟩

end DinkShuffle
